import Mathlib

/-!
Verification of the gcontainer collections library (glist doubly linked list,
garray sorted array, gtree AVL tree) against its natural-language specification.

The doubly linked list (src/glist/glist.go) is modelled at the pointer level:
a `World` holds a heap mapping addresses to `Element` records (next/prev
pointers, owning-list back reference, stored value) and a table of list
headers (sentinel root address and the `len` counter).  Address 0 plays the
role of Go's nil pointer.  Every public operation of the Go source is
transcribed statement by statement, preserving evaluation order and aliasing.

The sorted array (src/garray/garray_sorted.go) is modelled over `List T`
with an optional comparator; operations that consult a missing comparator
return `Except.error "comparator is missing for sorted array"`, mirroring
the Go panic in `getComparator`.
-/

set_option linter.unusedVariables false

namespace GContainer

/-- Heap addresses. `0` models Go's nil pointer. -/
abbrev Addr := Nat

/-- An element of a linked list (glist.go, type `Element[T]`): next/prev
pointers of the ring, the owning list (0 = nil), and the stored value. -/
structure Element (T : Type) where
  next : Addr
  prev : Addr
  list : Nat
  value : T
deriving DecidableEq, Repr

/-- The per-list data of `List[T]`: the address of the sentinel `root`
element and the `len` counter (a Go `int`, hence `Int`). -/
structure ListHdr where
  root : Addr
  len : Int
deriving DecidableEq, Repr

/-- A heap of list elements together with the table of allocated lists.
`nextAddr`/`nextList` are allocation counters (fresh addresses / list ids). -/
structure World (T : Type) where
  heap : Addr → Element T
  lists : Nat → ListHdr
  nextAddr : Addr
  nextList : Nat

/-- The world with no allocated lists; `d` is the Go zero value of `T`. -/
def emptyWorld (d : T) : World T :=
  { heap := fun _ => { next := 0, prev := 0, list := 0, value := d }
    lists := fun _ => { root := 0, len := 0 }
    nextAddr := 1
    nextList := 1 }

def World.setElem (w : World T) (a : Addr) (e : Element T) : World T :=
  { w with heap := fun x => if x = a then e else w.heap x }

def World.setNext (w : World T) (a n : Addr) : World T :=
  w.setElem a { w.heap a with next := n }

def World.setPrev (w : World T) (a p : Addr) : World T :=
  w.setElem a { w.heap a with prev := p }

def World.setList (w : World T) (a : Addr) (l : Nat) : World T :=
  w.setElem a { w.heap a with list := l }

def World.setLen (w : World T) (lid : Nat) (n : Int) : World T :=
  { w with lists := fun x => if x = lid then { w.lists x with len := n } else w.lists x }

/-- `next` field of the element at `a`. -/
def nextOf (w : World T) (a : Addr) : Addr := (w.heap a).next

/-- `prev` field of the element at `a`. -/
def prevOf (w : World T) (a : Addr) : Addr := (w.heap a).prev

/-- Owning-list field of the element at `a`. -/
def listOf (w : World T) (a : Addr) : Nat := (w.heap a).list

/-- Value stored at `a`. -/
def valueOf (w : World T) (a : Addr) : T := (w.heap a).value

@[simp] theorem setElem_heap (w : World T) (a : Addr) (e : Element T) (x : Addr) :
    (w.setElem a e).heap x = if x = a then e else w.heap x := rfl

@[simp] theorem setElem_lists (w : World T) (a : Addr) (e : Element T) :
    (w.setElem a e).lists = w.lists := rfl

@[simp] theorem setElem_nextAddr (w : World T) (a : Addr) (e : Element T) :
    (w.setElem a e).nextAddr = w.nextAddr := rfl

@[simp] theorem setElem_nextList (w : World T) (a : Addr) (e : Element T) :
    (w.setElem a e).nextList = w.nextList := rfl

@[simp] theorem setLen_heap (w : World T) (lid : Nat) (n : Int) :
    (w.setLen lid n).heap = w.heap := rfl

@[simp] theorem setLen_nextAddr (w : World T) (lid : Nat) (n : Int) :
    (w.setLen lid n).nextAddr = w.nextAddr := rfl

@[simp] theorem setLen_nextList (w : World T) (lid : Nat) (n : Int) :
    (w.setLen lid n).nextList = w.nextList := rfl

@[simp] theorem setLen_lists (w : World T) (lid : Nat) (n : Int) (x : Nat) :
    (w.setLen lid n).lists x = if x = lid then { w.lists x with len := n } else w.lists x := rfl

namespace glist

/-- `Init` (glist.go): close the sentinel ring and reset `len` to 0. -/
def initList (w : World T) (lid : Nat) : World T :=
  let r := (w.lists lid).root
  ((w.setNext r r).setPrev r r).setLen lid 0

/-- `New[T]` / allocation of a fresh `List[T]` value followed by `Init`:
allocates the sentinel root element (a Go zero `Element` whose value is the
zero value `d` of `T`) and registers the list header. -/
def newList (w : World T) (d : T) : Nat × World T :=
  let r := w.nextAddr
  let lid := w.nextList
  let w1 := { w with nextAddr := r + 1, nextList := lid + 1 }
  let w2 := w1.setElem r { next := r, prev := r, list := 0, value := d }
  let w3 := { w2 with lists := fun x => if x = lid then { root := r, len := 0 } else w2.lists x }
  (lid, w3)

/-- `lazyInit` (glist.go): initialize a zero List value on first use. -/
def lazyInit (w : World T) (lid : Nat) : World T :=
  if nextOf w (w.lists lid).root = 0 then initList w lid else w

/-- The first two statements of `remove` (glist.go):
`e.prev.next = e.next; e.next.prev = e.prev`. -/
def unlink (w : World T) (e : Addr) : World T :=
  let w1 := w.setNext (prevOf w e) (nextOf w e)
  w1.setPrev (nextOf w1 e) (prevOf w1 e)

/-- The pointer-splicing statements shared by `insert` and `move`
(glist.go): `e.prev = at; e.next = at.next; e.prev.next = e; e.next.prev = e`. -/
def splice (w : World T) (e at_ : Addr) : World T :=
  let w1 := w.setPrev e at_
  let w2 := w1.setNext e (nextOf w1 at_)
  let w3 := w2.setNext (prevOf w2 e) e
  w3.setPrev (nextOf w3 e) e

/-- `insert` (glist.go): insert element `e` after `at`, increment `len`. -/
def insertElem (w : World T) (lid : Nat) (e at_ : Addr) : World T :=
  let w1 := (splice w e at_).setList e lid
  w1.setLen lid ((w1.lists lid).len + 1)

/-- `insertValue` (glist.go): allocate `&Element{Value: v}` and `insert` it. -/
def insertValue (w : World T) (lid : Nat) (v : T) (at_ : Addr) : Addr × World T :=
  let e := w.nextAddr
  let w1 := { w with nextAddr := e + 1 }
  let w2 := w1.setElem e { next := 0, prev := 0, list := 0, value := v }
  (e, insertElem w2 lid e at_)

/-- `remove` (glist.go): unlink `e`, clear its fields, decrement `len`. -/
def removeElem (w : World T) (lid : Nat) (e : Addr) : World T :=
  let w1 := (((unlink w e).setNext e 0).setPrev e 0).setList e 0
  w1.setLen lid ((w1.lists lid).len - 1)

/-- `move` (glist.go): move `e` to be next to `at` (no-op when `e == at`). -/
def moveElem (w : World T) (e at_ : Addr) : World T :=
  if e = at_ then w else splice (unlink w e) e at_

/-- `Element.Next` (glist.go): next element, or nil at the sentinel boundary. -/
def elemNext (w : World T) (e : Addr) : Addr :=
  let p := nextOf w e
  if listOf w e ≠ 0 ∧ p ≠ (w.lists (listOf w e)).root then p else 0

/-- `Element.Prev` (glist.go): previous element, or nil at the boundary. -/
def elemPrev (w : World T) (e : Addr) : Addr :=
  let p := prevOf w e
  if listOf w e ≠ 0 ∧ p ≠ (w.lists (listOf w e)).root then p else 0

/-- `PushBack` (glist.go). Returns the new element's handle. -/
def pushBack (w : World T) (lid : Nat) (v : T) : Addr × World T :=
  let w := lazyInit w lid
  insertValue w lid v (prevOf w (w.lists lid).root)

/-- `PushFront` (glist.go). Returns the new element's handle. -/
def pushFront (w : World T) (lid : Nat) (v : T) : Addr × World T :=
  let w := lazyInit w lid
  insertValue w lid v (w.lists lid).root

/-- `PopBack` (glist.go): value of the back element (the zero value `default`
when the list is empty); the element is removed only when it belongs to `l`. -/
def popBack [Inhabited T] (w : World T) (lid : Nat) : T × World T :=
  let w := lazyInit w lid
  let e := prevOf w (w.lists lid).root
  if e ≠ 0 then
    (valueOf w e, if listOf w e = lid then removeElem w lid e else w)
  else (default, w)

/-- `PopFront` (glist.go). -/
def popFront [Inhabited T] (w : World T) (lid : Nat) : T × World T :=
  let w := lazyInit w lid
  let e := nextOf w (w.lists lid).root
  if e ≠ 0 then
    (valueOf w e, if listOf w e = lid then removeElem w lid e else w)
  else (default, w)

/-- The loop body of `search` (glist.go), running `i` from the remaining
fuel: compare values, stepping through `Element.Next`. -/
def searchLoop [DecidableEq T] (w : World T) (value : T) : Nat → Addr → Addr
  | 0, _ => 0
  | n + 1, e => if valueOf w e = value then e else searchLoop w value n (elemNext w e)

/-- `search` (glist.go): first element holding `value`, or nil. -/
def search [DecidableEq T] (w : World T) (lid : Nat) (value : T) : Addr :=
  if (w.lists lid).len > 0 then
    searchLoop w value (w.lists lid).len.toNat (nextOf w (w.lists lid).root)
  else 0

/-- `Remove(values ...T)` (glist.go): removes the first occurrence of each
given value; reports whether the list changed. -/
def removeValues [DecidableEq T] (w : World T) (lid : Nat) (values : List T) :
    Bool × World T :=
  values.foldl
    (fun acc value =>
      let existing := search acc.2 lid value
      if existing ≠ 0 then (true, removeElem acc.2 lid existing) else acc)
    (false, w)

/-- `InsertBefore` (glist.go): no-op returning nil when `mark` does not
belong to this list. -/
def insertBefore (w : World T) (lid : Nat) (mark : Addr) (v : T) : Addr × World T :=
  if listOf w mark ≠ lid then (0, w)
  else insertValue w lid v (prevOf w mark)

/-- `InsertAfter` (glist.go). -/
def insertAfter (w : World T) (lid : Nat) (mark : Addr) (v : T) : Addr × World T :=
  if listOf w mark ≠ lid then (0, w)
  else insertValue w lid v mark

/-- `MoveToFront` (glist.go). -/
def moveToFront (w : World T) (lid : Nat) (e : Addr) : World T :=
  if listOf w e ≠ lid ∨ nextOf w (w.lists lid).root = e then w
  else moveElem w e (w.lists lid).root

/-- `MoveToBack` (glist.go). -/
def moveToBack (w : World T) (lid : Nat) (e : Addr) : World T :=
  if listOf w e ≠ lid ∨ prevOf w (w.lists lid).root = e then w
  else moveElem w e (prevOf w (w.lists lid).root)

/-- `MoveBefore` (glist.go). -/
def moveBefore (w : World T) (lid : Nat) (e mark : Addr) : World T :=
  if listOf w e ≠ lid ∨ e = mark ∨ listOf w mark ≠ lid then w
  else moveElem w e (prevOf w mark)

/-- `MoveAfter` (glist.go). -/
def moveAfter (w : World T) (lid : Nat) (e mark : Addr) : World T :=
  if listOf w e ≠ lid ∨ e = mark ∨ listOf w mark ≠ lid then w
  else moveElem w e mark

/-- The loop of `PushBackList` (glist.go): `i` counts down from the snapshot
of `other.len`; the cursor steps via `Element.Next` after each insertion. -/
def pushBackListLoop (lid : Nat) : Nat → Addr → World T → World T
  | 0, _, w => w
  | n + 1, e, w =>
    let w1 := (insertValue w lid (valueOf w e) (prevOf w (w.lists lid).root)).2
    pushBackListLoop lid n (elemNext w1 e) w1

/-- `PushBackList` (glist.go): append a copy of list `other` (possibly `lid`
itself) at the back. -/
def pushBackList (w : World T) (lid other : Nat) : World T :=
  let w := lazyInit w lid
  pushBackListLoop lid (w.lists other).len.toNat (nextOf w (w.lists other).root) w

/-- The loop of `PushFrontList` (glist.go): cursor walks backwards via
`Element.Prev`, inserting at the sentinel. -/
def pushFrontListLoop (lid : Nat) : Nat → Addr → World T → World T
  | 0, _, w => w
  | n + 1, e, w =>
    let w1 := (insertValue w lid (valueOf w e) (w.lists lid).root).2
    pushFrontListLoop lid n (elemPrev w1 e) w1

/-- `PushFrontList` (glist.go). -/
def pushFrontList (w : World T) (lid other : Nat) : World T :=
  let w := lazyInit w lid
  pushFrontListLoop lid (w.lists other).len.toNat (prevOf w (w.lists other).root) w

/-- `Clear` (glist.go): re-run `Init`. -/
def clear (w : World T) (lid : Nat) : World T := initList w lid

/-- `Front` (glist.go): nil when empty, else `l.root.next`. -/
def front (w : World T) (lid : Nat) : Addr :=
  if (w.lists lid).len = 0 then 0 else nextOf w (w.lists lid).root

/-- `Back` (glist.go): nil when empty, else `l.root.prev`. -/
def back (w : World T) (lid : Nat) : Addr :=
  if (w.lists lid).len = 0 then 0 else prevOf w (w.lists lid).root

/-- The loop of `FrontAll` (glist.go): collect `len` values walking from
`l.root.next` via `Element.Next`. -/
def frontAllLoop (w : World T) : Nat → Addr → List T
  | 0, _ => []
  | n + 1, e => valueOf w e :: frontAllLoop w n (elemNext w e)

/-- `FrontAll` (glist.go): the list's value sequence, front to back. -/
def frontAll (w : World T) (lid : Nat) : List T :=
  let w := lazyInit w lid
  if (w.lists lid).len > 0 then
    frontAllLoop w (w.lists lid).len.toNat (nextOf w (w.lists lid).root)
  else []

/-- The next-pointer relation of the heap. -/
def NextRel (w : World T) : Addr → Addr → Prop := fun a b => nextOf w a = b

/-- The prev-pointer relation of the heap: `PrevRel w a b` says `b.prev = a`. -/
def PrevRel (w : World T) : Addr → Addr → Prop := fun a b => prevOf w b = a

/-- Well-formedness of list `lid`: the sentinel ring `root :: as` is closed by
`next` and `prev` pointers, `len` matches, addresses are distinct, allocated
and non-nil, every member's back reference is `lid` and the sentinel's is nil. -/
def IsList (w : World T) (lid : Nat) (as : List Addr) : Prop :=
  List.Chain' (NextRel w) ((w.lists lid).root :: as ++ [(w.lists lid).root]) ∧
  List.Chain' (PrevRel w) ((w.lists lid).root :: as ++ [(w.lists lid).root]) ∧
  (w.lists lid).len = (as.length : Int) ∧
  ((w.lists lid).root :: as).Nodup ∧
  (∀ a ∈ as, listOf w a = lid) ∧
  listOf w (w.lists lid).root = 0 ∧
  lid ≠ 0 ∧ lid < w.nextList ∧
  (∀ a ∈ (w.lists lid).root :: as, a ≠ 0 ∧ a < w.nextAddr)

instance (w : World T) (a b : Addr) : Decidable (NextRel w a b) :=
  inferInstanceAs (Decidable (nextOf w a = b))

instance (w : World T) (a b : Addr) : Decidable (PrevRel w a b) :=
  inferInstanceAs (Decidable (prevOf w b = a))

/-- A `Decidable` instance for `List.Chain` whose term evaluates (the one
shipped with the library is stated through a rewrite, which blocks kernel
reduction in `decide`). -/
instance instDecChain {α : Type u} {R : α → α → Prop} [h : DecidableRel R] (a : α) :
    ∀ (l : List α), Decidable (List.Chain R a l)
  | [] => isTrue List.Chain.nil
  | b :: l =>
    match h a b, instDecChain b l with
    | isTrue hr, isTrue hc => isTrue (List.Chain.cons hr hc)
    | isFalse hr, _ => isFalse (fun hch => hr (List.chain_cons.mp hch).1)
    | _, isFalse hc => isFalse (fun hch => hc (List.chain_cons.mp hch).2)

/-- See `instDecChain`. -/
instance instDecChainAdj {α : Type u} {R : α → α → Prop} [DecidableRel R] :
    ∀ (l : List α), Decidable (List.Chain' R l)
  | [] => isTrue trivial
  | a :: l => inferInstanceAs (Decidable (List.Chain R a l))

instance (w : World T) (lid : Nat) (as : List Addr) : Decidable (IsList w lid as) :=
  inferInstanceAs (Decidable
    (List.Chain' (NextRel w) ((w.lists lid).root :: as ++ [(w.lists lid).root]) ∧
     List.Chain' (PrevRel w) ((w.lists lid).root :: as ++ [(w.lists lid).root]) ∧
     (w.lists lid).len = (as.length : Int) ∧
     ((w.lists lid).root :: as).Nodup ∧
     (∀ a ∈ as, listOf w a = lid) ∧
     listOf w (w.lists lid).root = 0 ∧
     lid ≠ 0 ∧ lid < w.nextList ∧
     (∀ a ∈ (w.lists lid).root :: as, a ≠ 0 ∧ a < w.nextAddr)))

theorem isList_root_ne_zero {w : World T} {lid : Nat} {as : List Addr}
    (h : IsList w lid as) : (w.lists lid).root ≠ 0 :=
  (h.2.2.2.2.2.2.2.2 _ (List.mem_cons_self _ _)).1

theorem isList_mem_ne_zero {w : World T} {lid : Nat} {as : List Addr}
    (h : IsList w lid as) {a : Addr} (ha : a ∈ (w.lists lid).root :: as) : a ≠ 0 :=
  (h.2.2.2.2.2.2.2.2 _ ha).1

theorem isList_mem_lt {w : World T} {lid : Nat} {as : List Addr}
    (h : IsList w lid as) {a : Addr} (ha : a ∈ (w.lists lid).root :: as) :
    a < w.nextAddr :=
  (h.2.2.2.2.2.2.2.2 _ ha).2

/-! ### Pointwise effect of the primitive pointer manipulations -/

theorem setNext_nextOf (w : World T) (t n a : Addr) :
    nextOf (w.setNext t n) a = if a = t then n else nextOf w a := by
  simp only [World.setNext, nextOf, setElem_heap]
  split <;> rfl

theorem setNext_prevOf (w : World T) (t n a : Addr) :
    prevOf (w.setNext t n) a = prevOf w a := by
  simp only [World.setNext, prevOf, setElem_heap]
  split <;> simp_all

theorem setPrev_prevOf (w : World T) (t p a : Addr) :
    prevOf (w.setPrev t p) a = if a = t then p else prevOf w a := by
  simp only [World.setPrev, prevOf, setElem_heap]
  split <;> rfl

theorem setPrev_nextOf (w : World T) (t p a : Addr) :
    nextOf (w.setPrev t p) a = nextOf w a := by
  simp only [World.setPrev, nextOf, setElem_heap]
  split <;> simp_all

theorem setNext_listOf (w : World T) (t n a : Addr) :
    listOf (w.setNext t n) a = listOf w a := by
  simp only [World.setNext, listOf, setElem_heap]
  split <;> simp_all

theorem setPrev_listOf (w : World T) (t p a : Addr) :
    listOf (w.setPrev t p) a = listOf w a := by
  simp only [World.setPrev, listOf, setElem_heap]
  split <;> simp_all

theorem setNext_valueOf (w : World T) (t n a : Addr) :
    valueOf (w.setNext t n) a = valueOf w a := by
  simp only [World.setNext, valueOf, setElem_heap]
  split <;> simp_all

theorem setPrev_valueOf (w : World T) (t p a : Addr) :
    valueOf (w.setPrev t p) a = valueOf w a := by
  simp only [World.setPrev, valueOf, setElem_heap]
  split <;> simp_all

theorem setList_nextOf (w : World T) (t : Addr) (l : Nat) (a : Addr) :
    nextOf (w.setList t l) a = nextOf w a := by
  simp only [World.setList, nextOf, setElem_heap]
  split <;> simp_all

theorem setList_prevOf (w : World T) (t : Addr) (l : Nat) (a : Addr) :
    prevOf (w.setList t l) a = prevOf w a := by
  simp only [World.setList, prevOf, setElem_heap]
  split <;> simp_all

theorem setList_valueOf (w : World T) (t : Addr) (l : Nat) (a : Addr) :
    valueOf (w.setList t l) a = valueOf w a := by
  simp only [World.setList, valueOf, setElem_heap]
  split <;> simp_all

theorem setList_listOf (w : World T) (t : Addr) (l : Nat) (a : Addr) :
    listOf (w.setList t l) a = if a = t then l else listOf w a := by
  simp only [World.setList, listOf, setElem_heap]
  split <;> rfl

theorem setLen_nextOf (w : World T) (lid : Nat) (n : Int) (a : Addr) :
    nextOf (w.setLen lid n) a = nextOf w a := rfl

theorem setLen_prevOf (w : World T) (lid : Nat) (n : Int) (a : Addr) :
    prevOf (w.setLen lid n) a = prevOf w a := rfl

theorem setLen_valueOf (w : World T) (lid : Nat) (n : Int) (a : Addr) :
    valueOf (w.setLen lid n) a = valueOf w a := rfl

theorem setLen_listOf (w : World T) (lid : Nat) (n : Int) (a : Addr) :
    listOf (w.setLen lid n) a = listOf w a := rfl

theorem setNext_heap_ne (w : World T) (t n a : Addr) (h : a ≠ t) :
    (w.setNext t n).heap a = w.heap a := by
  simp only [World.setNext, setElem_heap, if_neg h]

theorem setPrev_heap_ne (w : World T) (t p a : Addr) (h : a ≠ t) :
    (w.setPrev t p).heap a = w.heap a := by
  simp only [World.setPrev, setElem_heap, if_neg h]

theorem setList_heap_ne (w : World T) (t : Addr) (l : Nat) (a : Addr) (h : a ≠ t) :
    (w.setList t l).heap a = w.heap a := by
  simp only [World.setList, setElem_heap, if_neg h]

/-- `unlink` rewires exactly the neighbours of `e`. -/
theorem unlink_nextOf (w : World T) (e a : Addr) :
    nextOf (unlink w e) a = if a = prevOf w e then nextOf w e else nextOf w a := by
  simp only [unlink, setPrev_nextOf, setNext_nextOf]

theorem unlink_prevOf (w : World T) (e a : Addr) :
    prevOf (unlink w e) a = if a = nextOf w e then prevOf w e else prevOf w a := by
  simp only [unlink, setPrev_prevOf, setNext_prevOf, setNext_nextOf, ite_self]

theorem unlink_listOf (w : World T) (e a : Addr) :
    listOf (unlink w e) a = listOf w a := by
  simp only [unlink, setPrev_listOf, setNext_listOf]

theorem unlink_valueOf (w : World T) (e a : Addr) :
    valueOf (unlink w e) a = valueOf w a := by
  simp only [unlink, setPrev_valueOf, setNext_valueOf]

theorem unlink_heap (w : World T) (e a : Addr)
    (h1 : a ≠ prevOf w e) (h2 : a ≠ nextOf w e) :
    (unlink w e).heap a = w.heap a := by
  simp only [unlink, setNext_nextOf, setNext_prevOf, ite_self]
  rw [setPrev_heap_ne _ _ _ _ h2, setNext_heap_ne _ _ _ _ h1]

theorem unlink_lists (w : World T) (e : Addr) : (unlink w e).lists = w.lists := rfl

theorem unlink_nextAddr (w : World T) (e : Addr) : (unlink w e).nextAddr = w.nextAddr := rfl

theorem unlink_nextList (w : World T) (e : Addr) : (unlink w e).nextList = w.nextList := rfl

/-- `splice` rewires `e`, `at_` and the old successor of `at_`. -/
theorem splice_nextOf (w : World T) (e at_ : Addr) (he : e ≠ at_) (a : Addr) :
    nextOf (splice w e at_) a =
      if a = at_ then e else if a = e then nextOf w at_ else nextOf w a := by
  simp only [splice, setPrev_nextOf, setNext_nextOf, setNext_prevOf, setPrev_prevOf,
    if_pos rfl, if_true, if_neg he, if_neg (Ne.symm he)]

theorem splice_prevOf (w : World T) (e at_ : Addr) (he : e ≠ at_) (a : Addr) :
    prevOf (splice w e at_) a =
      if a = nextOf w at_ then e else if a = e then at_ else prevOf w a := by
  simp only [splice, setPrev_nextOf, setNext_nextOf, setNext_prevOf, setPrev_prevOf,
    if_pos rfl, if_true, if_neg he, if_neg (Ne.symm he)]

theorem splice_listOf (w : World T) (e at_ a : Addr) :
    listOf (splice w e at_) a = listOf w a := by
  simp only [splice, setPrev_listOf, setNext_listOf]

theorem splice_valueOf (w : World T) (e at_ a : Addr) :
    valueOf (splice w e at_) a = valueOf w a := by
  simp only [splice, setPrev_valueOf, setNext_valueOf]

theorem splice_heap (w : World T) (e at_ a : Addr) (he : e ≠ at_)
    (h1 : a ≠ e) (h2 : a ≠ at_) (h3 : a ≠ nextOf w at_) :
    (splice w e at_).heap a = w.heap a := by
  simp only [splice, setPrev_nextOf, setNext_nextOf, setNext_prevOf, setPrev_prevOf,
    if_pos rfl, if_true, if_neg he, if_neg (Ne.symm he)]
  rw [setPrev_heap_ne _ _ _ _ h3, setNext_heap_ne _ _ _ _ h2,
    setNext_heap_ne _ _ _ _ h1, setPrev_heap_ne _ _ _ _ h1]

theorem splice_lists (w : World T) (e at_ : Addr) : (splice w e at_).lists = w.lists := rfl

theorem splice_nextAddr (w : World T) (e at_ : Addr) :
    (splice w e at_).nextAddr = w.nextAddr := rfl

theorem splice_nextList (w : World T) (e at_ : Addr) :
    (splice w e at_).nextList = w.nextList := rfl

/-! ### Stability of pointer chains under heap modifications -/

/-- A next-chain survives any modification that keeps the `next` field of all
non-final members. -/
theorem chain'_next_stable {w w' : World T} :
    ∀ (c : List Addr), (∀ a ∈ c.dropLast, nextOf w' a = nextOf w a) →
      List.Chain' (NextRel w) c → List.Chain' (NextRel w') c := by
  intro c
  induction c with
  | nil => intro _ _; exact List.chain'_nil
  | cons a t ih =>
    cases t with
    | nil => intro _ _; exact List.chain'_singleton a
    | cons b t2 =>
      intro hmem hch
      rw [List.chain'_cons] at hch ⊢
      refine ⟨?_, ih (fun x hx => hmem x ?_) hch.2⟩
      · show nextOf w' a = b
        rw [hmem a (by simp), hch.1]
      · simp only [List.dropLast_cons₂, List.mem_cons] at hx ⊢
        exact Or.inr hx

/-- A prev-chain survives any modification that keeps the `prev` field of all
non-initial members. -/
theorem chain'_prev_stable {w w' : World T} :
    ∀ (c : List Addr), (∀ a ∈ c.tail, prevOf w' a = prevOf w a) →
      List.Chain' (PrevRel w) c → List.Chain' (PrevRel w') c := by
  intro c
  induction c with
  | nil => intro _ _; exact List.chain'_nil
  | cons a t ih =>
    cases t with
    | nil => intro _ _; exact List.chain'_singleton a
    | cons b t2 =>
      intro hmem hch
      rw [List.chain'_cons] at hch ⊢
      refine ⟨?_, ih (fun x hx => hmem x (List.mem_cons_of_mem _ hx)) hch.2⟩
      show prevOf w' b = a
      rw [hmem b (by simp), hch.1]

/-! ### Chain surgery: unlinking and splicing preserve ring well-formedness -/

theorem nodup_getLast_not_mem_dropLast {l : List Addr} (h : l.Nodup) (hne : l ≠ []) :
    l.getLast hne ∉ l.dropLast := by
  intro hmem
  have hsplit := List.dropLast_append_getLast hne
  rw [← hsplit] at h
  exact (List.disjoint_of_nodup_append h) hmem (List.mem_singleton.mpr rfl)

/-- Extract the `next` link across an appended ring decomposition. -/
theorem next_at_split {w : World T} {r : Addr} {us vs : List Addr}
    (hn : List.Chain' (NextRel w) (r :: (us ++ vs) ++ [r])) :
    nextOf w ((r :: us).getLast (by simp)) = (vs ++ [r]).head (by simp) := by
  have hr : r :: (us ++ vs) ++ [r] = (r :: us) ++ (vs ++ [r]) := by simp
  rw [hr] at hn
  obtain ⟨-, -, h3⟩ := List.chain'_append.mp hn
  exact h3 _ (List.getLast?_eq_getLast _ (by simp)) _ (List.head?_eq_head (by simp))

/-- Extract the `prev` link across an appended ring decomposition. -/
theorem prev_at_split {w : World T} {r : Addr} {us vs : List Addr}
    (hp : List.Chain' (PrevRel w) (r :: (us ++ vs) ++ [r])) :
    prevOf w ((vs ++ [r]).head (by simp)) = (r :: us).getLast (by simp) := by
  have hr : r :: (us ++ vs) ++ [r] = (r :: us) ++ (vs ++ [r]) := by simp
  rw [hr] at hp
  obtain ⟨-, -, h3⟩ := List.chain'_append.mp hp
  exact h3 _ (List.getLast?_eq_getLast _ (by simp)) _ (List.head?_eq_head (by simp))

/-- The `next` links around a ring member `e`. -/
theorem next_mid_split {w : World T} {r e : Addr} {xs ys : List Addr}
    (hn : List.Chain' (NextRel w) (r :: (xs ++ e :: ys) ++ [r])) :
    nextOf w ((r :: xs).getLast (by simp)) = e ∧
      nextOf w e = (ys ++ [r]).head (by simp) := by
  have hr : r :: (xs ++ e :: ys) ++ [r] = (r :: xs) ++ e :: (ys ++ [r]) := by simp
  rw [hr] at hn
  obtain ⟨-, h2, h3⟩ := List.chain'_append.mp hn
  constructor
  · exact h3 _ (List.getLast?_eq_getLast _ (by simp)) _ rfl
  · exact (List.chain'_cons'.mp h2).1 _ (List.head?_eq_head (by simp))

/-- The `prev` links around a ring member `e`. -/
theorem prev_mid_split {w : World T} {r e : Addr} {xs ys : List Addr}
    (hp : List.Chain' (PrevRel w) (r :: (xs ++ e :: ys) ++ [r])) :
    prevOf w e = ((r :: xs).getLast (by simp)) ∧
      prevOf w ((ys ++ [r]).head (by simp)) = e := by
  have hr : r :: (xs ++ e :: ys) ++ [r] = (r :: xs) ++ e :: (ys ++ [r]) := by simp
  rw [hr] at hp
  obtain ⟨-, h2, h3⟩ := List.chain'_append.mp hp
  constructor
  · exact h3 _ (List.getLast?_eq_getLast _ (by simp)) _ rfl
  · exact (List.chain'_cons'.mp h2).1 _ (List.head?_eq_head (by simp))

/-- Unlinking a member of a closed ring leaves a closed ring on the
remaining members. -/
theorem unlink_chains (w : World T) (r : Addr) (xs ys : List Addr) (e : Addr)
    (hn : List.Chain' (NextRel w) (r :: (xs ++ e :: ys) ++ [r]))
    (hp : List.Chain' (PrevRel w) (r :: (xs ++ e :: ys) ++ [r]))
    (hnd : (r :: (xs ++ e :: ys)).Nodup) :
    List.Chain' (NextRel (unlink w e)) (r :: (xs ++ ys) ++ [r]) ∧
      List.Chain' (PrevRel (unlink w e)) (r :: (xs ++ ys) ++ [r]) := by
  have hndr : ((r :: xs) ++ (e :: ys)).Nodup := by simpa using hnd
  have hdisj := List.disjoint_of_nodup_append hndr
  have hnd1 : (r :: xs).Nodup := (List.nodup_append.mp hndr).1
  have hnd2 : (e :: ys).Nodup := (List.nodup_append.mp hndr).2.1
  have hpe := (prev_mid_split hp).1
  have hne := (next_mid_split hn).1
  have hnxe := (next_mid_split hn).2
  have hpne := (prev_mid_split hp).2
  set pe := (r :: xs).getLast (by simp) with hpedef
  set ne := (ys ++ [r]).head (by simp) with hnedef
  have hpem : pe ∈ r :: xs := List.getLast_mem _
  have hnem : ne ∈ ys ++ [r] := List.head_mem _
  have hN : ∀ a, nextOf (unlink w e) a = if a = pe then ne else nextOf w a := by
    intro a; rw [unlink_nextOf, hpe, hnxe]
  have hP : ∀ a, prevOf (unlink w e) a = if a = ne then pe else prevOf w a := by
    intro a; rw [unlink_prevOf, hpe, hnxe]
  have hrw : r :: (xs ++ ys) ++ [r] = (r :: xs) ++ (ys ++ [r]) := by simp
  have hn1 : List.Chain' (NextRel w) (r :: xs) := by
    have : r :: (xs ++ e :: ys) ++ [r] = (r :: xs) ++ (e :: (ys ++ [r])) := by simp
    rw [this] at hn
    exact (List.chain'_append.mp hn).1
  have hn2 : List.Chain' (NextRel w) (ys ++ [r]) := by
    have : r :: (xs ++ e :: ys) ++ [r] = ((r :: xs) ++ [e]) ++ (ys ++ [r]) := by simp
    rw [this] at hn
    exact (List.chain'_append.mp hn).2.1
  have hp1 : List.Chain' (PrevRel w) (r :: xs) := by
    have : r :: (xs ++ e :: ys) ++ [r] = (r :: xs) ++ (e :: (ys ++ [r])) := by simp
    rw [this] at hp
    exact (List.chain'_append.mp hp).1
  have hp2 : List.Chain' (PrevRel w) (ys ++ [r]) := by
    have : r :: (xs ++ e :: ys) ++ [r] = ((r :: xs) ++ [e]) ++ (ys ++ [r]) := by simp
    rw [this] at hp
    exact (List.chain'_append.mp hp).2.1
  have hpe_ys : pe ∉ e :: ys := fun hc => hdisj hpem hc
  have hne_ne_e : ne ≠ e := by
    rcases List.mem_append.mp hnem with h | h
    · intro hc; exact (List.nodup_cons.mp hnd2).1 (hc ▸ h)
    · intro hc
      have : r ∈ e :: ys := by rw [← List.mem_singleton.mp h, hc]; simp
      exact hdisj (by simp) this
  constructor
  · rw [hrw]
    refine List.chain'_append.mpr ⟨?_, ?_, ?_⟩
    · refine chain'_next_stable _ (fun a ha => ?_) hn1
      rw [hN, if_neg]
      intro hc
      exact nodup_getLast_not_mem_dropLast hnd1 (by simp) (hc ▸ ha)
    · refine chain'_next_stable _ (fun a ha => ?_) hn2
      have hays : a ∈ ys := by simpa using ha
      rw [hN, if_neg]
      intro hc
      exact hpe_ys (hc ▸ List.mem_cons_of_mem _ hays)
    · intro x hx y hy
      rw [List.getLast?_eq_getLast _ (by simp)] at hx
      rw [List.head?_eq_head (by simp)] at hy
      have hx' := (Option.mem_some_iff.mp hx).symm
      have hy' := (Option.mem_some_iff.mp hy).symm
      show nextOf (unlink w e) x = y
      rw [hx', hy', hN, if_pos rfl]
  · rw [hrw]
    refine List.chain'_append.mpr ⟨?_, ?_, ?_⟩
    · refine chain'_prev_stable _ (fun a ha => ?_) hp1
      have haxs : a ∈ xs := by simpa using ha
      rw [hP, if_neg]
      intro hc
      rcases List.mem_append.mp hnem with h | h
      · refine hdisj (List.mem_cons_of_mem _ haxs) ?_
        rw [hc]
        exact List.mem_cons_of_mem _ h
      · have hr' : a = r := by rw [hc, List.mem_singleton.mp h]
        have : r ∈ xs := by rw [← hr']; exact haxs
        exact (List.nodup_cons.mp hnd1).1 this
    · refine chain'_prev_stable _ (fun a ha => ?_) hp2
      rw [hP, if_neg]
      cases ys with
      | nil => simp at ha
      | cons y yt =>
        have hane : ne = y := by simp [hnedef]
        intro hc
        have ha' : a ∈ yt ++ [r] := by simpa using ha
        rcases List.mem_append.mp ha' with h | h
        · have hynd : (y :: yt).Nodup := (List.nodup_cons.mp hnd2).2
          have : y ∈ yt := by rw [← hane, ← hc]; exact h
          exact (List.nodup_cons.mp hynd).1 this
        · have har : a = r := List.mem_singleton.mp h
          have : r ∈ e :: y :: yt := by
            rw [← har, hc, hane]; simp
          exact hdisj (by simp) this
    · intro x hx y hy
      rw [List.getLast?_eq_getLast _ (by simp)] at hx
      rw [List.head?_eq_head (by simp)] at hy
      have hx' := (Option.mem_some_iff.mp hx).symm
      have hy' := (Option.mem_some_iff.mp hy).symm
      show prevOf (unlink w e) y = x
      rw [hx', hy', hP, if_pos rfl]

/-- Generic insertion lemma: if the `next`/`prev` maps of `w2` are those of
`w` rewired to route through a fresh element `e` placed after the position
`(r :: us).getLast`, then `w2`'s ring is the one with `e` inserted there. -/
theorem chains_insert_formula (w w2 : World T) (r : Addr) (us vs : List Addr) (e : Addr)
    (hn : List.Chain' (NextRel w) (r :: (us ++ vs) ++ [r]))
    (hp : List.Chain' (PrevRel w) (r :: (us ++ vs) ++ [r]))
    (hnd : (r :: (us ++ vs)).Nodup) (he : e ∉ r :: (us ++ vs))
    (hN0 : ∀ a, nextOf w2 a =
      if a = (r :: us).getLast (by simp) then e
      else if a = e then nextOf w ((r :: us).getLast (by simp)) else nextOf w a)
    (hP0 : ∀ a, prevOf w2 a =
      if a = nextOf w ((r :: us).getLast (by simp)) then e
      else if a = e then (r :: us).getLast (by simp) else prevOf w a) :
    List.Chain' (NextRel w2) (r :: (us ++ e :: vs) ++ [r]) ∧
      List.Chain' (PrevRel w2) (r :: (us ++ e :: vs) ++ [r]) := by
  have hndr : ((r :: us) ++ vs).Nodup := by simpa using hnd
  have hdisj := List.disjoint_of_nodup_append hndr
  have hnd1 : (r :: us).Nodup := (List.nodup_append.mp hndr).1
  have hnd2 : vs.Nodup := (List.nodup_append.mp hndr).2.1
  have hat := next_at_split hn
  have hpn := prev_at_split hp
  set at_ := (r :: us).getLast (by simp) with hatdef
  set nxt := (vs ++ [r]).head (by simp) with hnxtdef
  have hatm : at_ ∈ r :: us := List.getLast_mem _
  have hnxtm : nxt ∈ vs ++ [r] := List.head_mem _
  have hatring : at_ ∈ r :: (us ++ vs) := by
    rcases List.mem_cons.mp hatm with h | h
    · exact h ▸ List.mem_cons_self _ _
    · exact List.mem_cons_of_mem _ (List.mem_append_left _ h)
  have hnxtring : nxt ∈ r :: (us ++ vs) := by
    rcases List.mem_append.mp hnxtm with h | h
    · exact List.mem_cons_of_mem _ (List.mem_append_right _ h)
    · rw [List.mem_singleton.mp h]; exact List.mem_cons_self _ _
  have heat : e ≠ at_ := fun hc => he (hc ▸ hatring)
  have henxt : e ≠ nxt := fun hc => he (hc ▸ hnxtring)
  have hN : ∀ a, nextOf w2 a =
      if a = at_ then e else if a = e then nxt else nextOf w a := by
    intro a; rw [hN0 a, hat]
  have hP : ∀ a, prevOf w2 a =
      if a = nxt then e else if a = e then at_ else prevOf w a := by
    intro a; rw [hP0 a, hat]
  have hn1 : List.Chain' (NextRel w) (r :: us) := by
    have : r :: (us ++ vs) ++ [r] = (r :: us) ++ (vs ++ [r]) := by simp
    rw [this] at hn
    exact (List.chain'_append.mp hn).1
  have hn2 : List.Chain' (NextRel w) (vs ++ [r]) := by
    have : r :: (us ++ vs) ++ [r] = (r :: us) ++ (vs ++ [r]) := by simp
    rw [this] at hn
    exact (List.chain'_append.mp hn).2.1
  have hp1 : List.Chain' (PrevRel w) (r :: us) := by
    have : r :: (us ++ vs) ++ [r] = (r :: us) ++ (vs ++ [r]) := by simp
    rw [this] at hp
    exact (List.chain'_append.mp hp).1
  have hp2 : List.Chain' (PrevRel w) (vs ++ [r]) := by
    have : r :: (us ++ vs) ++ [r] = (r :: us) ++ (vs ++ [r]) := by simp
    rw [this] at hp
    exact (List.chain'_append.mp hp).2.1
  have hat_vs : at_ ∉ vs := by
    intro hc
    rcases List.mem_cons.mp hatm with h | h
    · exact (List.nodup_cons.mp (by simpa using hnd : (r :: (us ++ vs)).Nodup)).1
        (h ▸ List.mem_append_right _ hc)
    · exact hdisj (List.mem_cons_of_mem _ h) hc
  have hrw : r :: (us ++ e :: vs) ++ [r] = (r :: us) ++ e :: (vs ++ [r]) := by simp
  constructor
  · rw [hrw]
    refine List.chain'_append.mpr ⟨?_, ?_, ?_⟩
    · refine chain'_next_stable _ (fun a ha => ?_) hn1
      have ham : a ∈ r :: us := List.dropLast_subset _ ha
      have hane : a ≠ e := fun hc => he (hc ▸
        (by rcases List.mem_cons.mp ham with h | h
            · exact h ▸ List.mem_cons_self _ _
            · exact List.mem_cons_of_mem _ (List.mem_append_left _ h)))
      rw [hN, if_neg (fun hc => nodup_getLast_not_mem_dropLast hnd1 (by simp) (hc ▸ ha)),
        if_neg hane]
    · rw [List.chain'_cons']
      refine ⟨?_, ?_⟩
      · intro y hy
        rw [List.head?_eq_head (by simp)] at hy
        have hy' := (Option.mem_some_iff.mp hy).symm
        show nextOf w2 e = y
        rw [hy', hN, if_neg (fun hc => heat hc), if_pos rfl]
      · refine chain'_next_stable _ (fun a ha => ?_) hn2
        have havs : a ∈ vs := by simpa using ha
        have hane : a ≠ e := by
          intro hc
          rw [hc] at havs
          exact he (List.mem_cons_of_mem _ (List.mem_append_right _ havs))
        have h1 : a ≠ at_ := by
          intro hc
          rw [hc] at havs
          exact hat_vs havs
        rw [hN, if_neg h1, if_neg hane]
    · intro x hx y hy
      rw [List.getLast?_eq_getLast _ (by simp)] at hx
      have hx' := (Option.mem_some_iff.mp hx).symm
      have hy' : y = e := by
        simp only [List.head?_cons, Option.mem_some_iff] at hy
        exact hy.symm
      show nextOf w2 x = y
      rw [hx', hy', hN, if_pos rfl]
  · rw [hrw]
    refine List.chain'_append.mpr ⟨?_, ?_, ?_⟩
    · refine chain'_prev_stable _ (fun a ha => ?_) hp1
      have haus : a ∈ us := by simpa using ha
      have hane : a ≠ e := fun hc =>
        he (hc ▸ List.mem_cons_of_mem _ (List.mem_append_left _ haus))
      rw [hP, if_neg ?_, if_neg hane]
      intro hc
      rcases List.mem_append.mp hnxtm with h | h
      · exact hdisj (List.mem_cons_of_mem _ haus) (hc ▸ h)
      · have : a = r := by rw [hc, List.mem_singleton.mp h]
        have : r ∈ us := by rw [← this]; exact haus
        exact (List.nodup_cons.mp hnd1).1 this
    · rw [List.chain'_cons']
      refine ⟨?_, ?_⟩
      · intro y hy
        rw [List.head?_eq_head (by simp)] at hy
        have hy' := (Option.mem_some_iff.mp hy).symm
        show prevOf w2 y = e
        rw [hy', hP, if_pos rfl]
      · refine chain'_prev_stable _ (fun a ha => ?_) hp2
        rw [hP]
        cases vs with
        | nil => simp at ha
        | cons v vt =>
          have hvnxt : nxt = v := by simp [hnxtdef]
          have ha' : a ∈ vt ++ [r] := by simpa using ha
          have hane : a ≠ e := by
            intro hc
            rcases List.mem_append.mp ha' with h | h
            · exact he (hc ▸ List.mem_cons_of_mem _
                (List.mem_append_right _ (List.mem_cons_of_mem _ h)))
            · exact he (hc ▸ (by rw [List.mem_singleton.mp h]; exact List.mem_cons_self _ _))
          rw [if_neg ?_, if_neg hane]
          intro hc
          rcases List.mem_append.mp ha' with h | h
          · have : v ∈ vt := by rw [← hvnxt, ← hc]; exact h
            exact (List.nodup_cons.mp hnd2).1 this
          · have : r = v := by rw [← List.mem_singleton.mp h, hc, hvnxt]
            exact hdisj (List.mem_cons_self _ _) (by rw [this]; exact List.mem_cons_self _ _)
    · intro x hx y hy
      rw [List.getLast?_eq_getLast _ (by simp)] at hx
      have hx' := (Option.mem_some_iff.mp hx).symm
      have hy' : y = e := by
        simp only [List.head?_cons, Option.mem_some_iff] at hy
        exact hy.symm
      show prevOf w2 y = x
      rw [hx', hy', hP, if_neg henxt, if_pos rfl]

/-! ### Effect of `insertValue` -/

theorem setElem_nextOf (w : World T) (t : Addr) (el : Element T) (a : Addr) :
    nextOf (w.setElem t el) a = if a = t then el.next else nextOf w a := by
  simp only [nextOf, setElem_heap]
  split <;> rfl

theorem setElem_prevOf (w : World T) (t : Addr) (el : Element T) (a : Addr) :
    prevOf (w.setElem t el) a = if a = t then el.prev else prevOf w a := by
  simp only [prevOf, setElem_heap]
  split <;> rfl

theorem setElem_listOf (w : World T) (t : Addr) (el : Element T) (a : Addr) :
    listOf (w.setElem t el) a = if a = t then el.list else listOf w a := by
  simp only [listOf, setElem_heap]
  split <;> rfl

theorem setElem_valueOf (w : World T) (t : Addr) (el : Element T) (a : Addr) :
    valueOf (w.setElem t el) a = if a = t then el.value else valueOf w a := by
  simp only [valueOf, setElem_heap]
  split <;> rfl

theorem bump_nextOf (w : World T) (n : Nat) (a : Addr) :
    nextOf { w with nextAddr := n } a = nextOf w a := rfl

theorem bump_prevOf (w : World T) (n : Nat) (a : Addr) :
    prevOf { w with nextAddr := n } a = prevOf w a := rfl

theorem bump_listOf (w : World T) (n : Nat) (a : Addr) :
    listOf { w with nextAddr := n } a = listOf w a := rfl

theorem bump_valueOf (w : World T) (n : Nat) (a : Addr) :
    valueOf { w with nextAddr := n } a = valueOf w a := rfl

theorem insertValue_fst (w : World T) (lid : Nat) (v : T) (at_ : Addr) :
    (insertValue w lid v at_).1 = w.nextAddr := rfl

theorem insertValue_lists (w : World T) (lid : Nat) (v : T) (at_ : Addr) (x : Nat) :
    (insertValue w lid v at_).2.lists x =
      if x = lid then { w.lists lid with len := (w.lists lid).len + 1 } else w.lists x := by
  simp only [insertValue, insertElem, splice, World.setNext, World.setPrev, World.setList,
    setElem_lists, setLen_lists]
  split
  · next h => rw [h]
  · rfl

theorem insertValue_nextAddr (w : World T) (lid : Nat) (v : T) (at_ : Addr) :
    (insertValue w lid v at_).2.nextAddr = w.nextAddr + 1 := rfl

theorem insertValue_nextList (w : World T) (lid : Nat) (v : T) (at_ : Addr) :
    (insertValue w lid v at_).2.nextList = w.nextList := rfl

theorem insertValue_nextOf (w : World T) (lid : Nat) (v : T) (at_ : Addr)
    (hat : at_ ≠ w.nextAddr) (a : Addr) :
    nextOf (insertValue w lid v at_).2 a =
      if a = at_ then w.nextAddr else if a = w.nextAddr then nextOf w at_ else nextOf w a := by
  simp only [insertValue, insertElem, setLen_nextOf, setList_nextOf]
  rw [splice_nextOf _ _ _ (Ne.symm hat)]
  by_cases h1 : a = at_
  · simp [h1]
  · by_cases h2 : a = w.nextAddr <;>
      simp [h1, h2, setElem_nextOf, bump_nextOf, Ne.symm hat, hat]

theorem insertValue_prevOf (w : World T) (lid : Nat) (v : T) (at_ : Addr)
    (hat : at_ ≠ w.nextAddr) (a : Addr) :
    prevOf (insertValue w lid v at_).2 a =
      if a = nextOf w at_ then w.nextAddr
      else if a = w.nextAddr then at_ else prevOf w a := by
  simp only [insertValue, insertElem, setLen_prevOf, setList_prevOf]
  rw [splice_prevOf _ _ _ (Ne.symm hat)]
  have hn : nextOf (World.setElem { w with nextAddr := w.nextAddr + 1 } w.nextAddr
      { next := 0, prev := 0, list := 0, value := v }) at_ = nextOf w at_ := by
    rw [setElem_nextOf, if_neg hat, bump_nextOf]
  rw [hn]
  by_cases h1 : a = nextOf w at_
  · simp [h1]
  · by_cases h2 : a = w.nextAddr <;>
      simp [h1, h2, setElem_prevOf, bump_prevOf, Ne.symm hat, hat]

theorem insertValue_listOf (w : World T) (lid : Nat) (v : T) (at_ : Addr) (a : Addr) :
    listOf (insertValue w lid v at_).2 a =
      if a = w.nextAddr then lid else listOf w a := by
  simp only [insertValue, insertElem, setLen_listOf, setList_listOf, splice_listOf,
    setElem_listOf]
  by_cases h : a = w.nextAddr <;> simp [h, bump_listOf]

theorem insertValue_valueOf (w : World T) (lid : Nat) (v : T) (at_ : Addr) (a : Addr) :
    valueOf (insertValue w lid v at_).2 a =
      if a = w.nextAddr then v else valueOf w a := by
  simp only [insertValue, insertElem, setLen_valueOf, setList_valueOf, splice_valueOf,
    setElem_valueOf]
  by_cases h : a = w.nextAddr <;> simp [h, bump_valueOf]

theorem insertValue_heap (w : World T) (lid : Nat) (v : T) (at_ : Addr) (a : Addr)
    (hat : at_ ≠ w.nextAddr) (h1 : a ≠ w.nextAddr) (h2 : a ≠ at_)
    (h3 : a ≠ nextOf w at_) :
    (insertValue w lid v at_).2.heap a = w.heap a := by
  simp only [insertValue, insertElem]
  rw [setLen_heap, setList_heap_ne _ _ _ _ h1, splice_heap _ _ _ _ (Ne.symm hat) h1 h2]
  · rw [setElem_heap, if_neg h1]
  · rw [setElem_nextOf, if_neg hat]
    exact h3

theorem getLast_mem_ring (r : Addr) (us vs : List Addr) :
    (r :: us).getLast (by simp) ∈ r :: (us ++ vs) := by
  rcases List.mem_cons.mp (@List.getLast_mem _ (r :: us) (by simp)) with h | h
  · rw [h]; exact List.mem_cons_self _ _
  · exact List.mem_cons_of_mem _ (List.mem_append_left _ h)

/-- Splicing a fresh element after any ring position yields a closed ring
with the element inserted there. -/
theorem splice_chains (w : World T) (r : Addr) (us vs : List Addr) (e : Addr)
    (hn : List.Chain' (NextRel w) (r :: (us ++ vs) ++ [r]))
    (hp : List.Chain' (PrevRel w) (r :: (us ++ vs) ++ [r]))
    (hnd : (r :: (us ++ vs)).Nodup) (he : e ∉ r :: (us ++ vs)) :
    List.Chain' (NextRel (splice w e ((r :: us).getLast (by simp))))
        (r :: (us ++ e :: vs) ++ [r]) ∧
      List.Chain' (PrevRel (splice w e ((r :: us).getLast (by simp))))
        (r :: (us ++ e :: vs) ++ [r]) := by
  have heat : e ≠ (r :: us).getLast (by simp) := fun hc => he (hc ▸ getLast_mem_ring r us vs)
  exact chains_insert_formula w _ r us vs e hn hp hnd he
    (fun a => splice_nextOf _ _ _ heat a) (fun a => splice_prevOf _ _ _ heat a)

/-- The central insertion lemma: `insertValue` at the ring position
`(root :: us).getLast` (Go inserts the fresh node after that element)
produces the ring with the fresh address inserted there. -/
theorem insertValue_IsList (w : World T) (lid : Nat) (v : T) (us vs : List Addr)
    (h : IsList w lid (us ++ vs)) :
    IsList (insertValue w lid v (((w.lists lid).root :: us).getLast (by simp))).2 lid
      (us ++ w.nextAddr :: vs) := by
  obtain ⟨hn, hp, hlen, hnd, hmem, hroot, hlid0, hlidlt, hbound⟩ := h
  set r := (w.lists lid).root with hrdef
  set at_ := (r :: us).getLast (by simp) with hatdef
  have hatring : at_ ∈ r :: (us ++ vs) := getLast_mem_ring r us vs
  have hat_ne : at_ ≠ w.nextAddr := Nat.ne_of_lt (hbound _ hatring).2
  have he_not : w.nextAddr ∉ r :: (us ++ vs) := fun hc => lt_irrefl _ (hbound _ hc).2
  have hwr : ((insertValue w lid v at_).2.lists lid).root = r := by
    rw [insertValue_lists, if_pos rfl]
  have hchains := chains_insert_formula w (insertValue w lid v at_).2 r us vs w.nextAddr
    hn hp hnd he_not
    (fun a => insertValue_nextOf w lid v at_ hat_ne a)
    (fun a => insertValue_prevOf w lid v at_ hat_ne a)
  unfold IsList
  refine ⟨?_, ?_, ?_, ?_, ?_, ?_, hlid0, ?_, ?_⟩
  · rw [hwr]; exact hchains.1
  · rw [hwr]; exact hchains.2
  · rw [insertValue_lists, if_pos rfl]
    show (w.lists lid).len + 1 = _
    rw [hlen]
    simp only [List.length_append, List.length_cons]
    push_cast
    ring
  · rw [hwr]
    have hre : (r :: (us ++ w.nextAddr :: vs)) = (r :: us) ++ w.nextAddr :: vs := by simp
    rw [hre, List.nodup_middle]
    refine List.nodup_cons.mpr ⟨fun hc => he_not (by simpa using hc), by simpa using hnd⟩
  · intro a ha
    rw [insertValue_listOf]
    rcases List.mem_append.mp ha with h1 | h1
    · rw [if_neg (Nat.ne_of_lt
        (hbound _ (List.mem_cons_of_mem _ (List.mem_append_left _ h1))).2)]
      exact hmem _ (List.mem_append_left _ h1)
    · rcases List.mem_cons.mp h1 with h2 | h2
      · rw [h2, if_pos rfl]
      · rw [if_neg (Nat.ne_of_lt
          (hbound _ (List.mem_cons_of_mem _ (List.mem_append_right _ h2))).2)]
        exact hmem _ (List.mem_append_right _ h2)
  · rw [hwr, insertValue_listOf,
      if_neg (Nat.ne_of_lt (hbound _ (List.mem_cons_self _ _)).2)]
    exact hroot
  · rw [insertValue_nextList]; exact hlidlt
  · intro a ha
    rw [hwr] at ha
    rw [insertValue_nextAddr]
    have hz : w.nextAddr ≠ 0 :=
      Nat.not_eq_zero_of_lt (hbound _ (List.mem_cons_self _ _)).2
    rcases List.mem_cons.mp ha with h1 | h1
    · have hb := hbound _ (List.mem_cons_self _ _)
      rw [h1]
      exact ⟨hb.1, Nat.lt_succ_of_lt hb.2⟩
    · rcases List.mem_append.mp h1 with h2 | h2
      · have hb := hbound _ (List.mem_cons_of_mem _ (List.mem_append_left _ h2))
        exact ⟨hb.1, Nat.lt_succ_of_lt hb.2⟩
      · rcases List.mem_cons.mp h2 with h3 | h3
        · rw [h3]
          exact ⟨hz, Nat.lt_succ_self _⟩
        · have hb := hbound _ (List.mem_cons_of_mem _ (List.mem_append_right _ h3))
          exact ⟨hb.1, Nat.lt_succ_of_lt hb.2⟩

/-! ### Effect of `removeElem` and `moveElem` -/

theorem removeElem_nextOf (w : World T) (lid : Nat) (e a : Addr) :
    nextOf (removeElem w lid e) a =
      if a = e then 0 else if a = prevOf w e then nextOf w e else nextOf w a := by
  simp only [removeElem, setLen_nextOf, setList_nextOf, setPrev_nextOf, setNext_nextOf,
    unlink_nextOf]

theorem removeElem_prevOf (w : World T) (lid : Nat) (e a : Addr) :
    prevOf (removeElem w lid e) a =
      if a = e then 0 else if a = nextOf w e then prevOf w e else prevOf w a := by
  simp only [removeElem, setLen_prevOf, setList_prevOf, setPrev_prevOf, setNext_prevOf,
    unlink_prevOf]

theorem removeElem_listOf (w : World T) (lid : Nat) (e a : Addr) :
    listOf (removeElem w lid e) a = if a = e then 0 else listOf w a := by
  simp only [removeElem, setLen_listOf, setList_listOf, setPrev_listOf, setNext_listOf,
    unlink_listOf]

theorem removeElem_valueOf (w : World T) (lid : Nat) (e a : Addr) :
    valueOf (removeElem w lid e) a = valueOf w a := by
  simp only [removeElem, setLen_valueOf, setList_valueOf, setPrev_valueOf, setNext_valueOf,
    unlink_valueOf]

theorem removeElem_lists (w : World T) (lid : Nat) (e : Addr) (x : Nat) :
    (removeElem w lid e).lists x =
      if x = lid then { w.lists lid with len := (w.lists lid).len - 1 } else w.lists x := by
  simp only [removeElem, unlink, World.setNext, World.setPrev, World.setList, setElem_lists,
    setLen_lists]
  split
  · next h => rw [h]
  · rfl

theorem removeElem_nextAddr (w : World T) (lid : Nat) (e : Addr) :
    (removeElem w lid e).nextAddr = w.nextAddr := rfl

theorem removeElem_nextList (w : World T) (lid : Nat) (e : Addr) :
    (removeElem w lid e).nextList = w.nextList := rfl

theorem removeElem_heap (w : World T) (lid : Nat) (e a : Addr)
    (h1 : a ≠ e) (h2 : a ≠ prevOf w e) (h3 : a ≠ nextOf w e) :
    (removeElem w lid e).heap a = w.heap a := by
  simp only [removeElem]
  rw [setLen_heap, setList_heap_ne _ _ _ _ h1, setPrev_heap_ne _ _ _ _ h1,
    setNext_heap_ne _ _ _ _ h1, unlink_heap _ _ _ h2 h3]

/-- Removing a member of a well-formed list yields the list without it. -/
theorem removeElem_IsList (w : World T) (lid : Nat) (xs ys : List Addr) (e : Addr)
    (h : IsList w lid (xs ++ e :: ys)) :
    IsList (removeElem w lid e) lid (xs ++ ys) := by
  obtain ⟨hn, hp, hlen, hnd, hmem, hroot, hlid0, hlidlt, hbound⟩ := h
  set r := (w.lists lid).root with hrdef
  have hchains := unlink_chains w r xs ys e hn hp hnd
  have hnd' : (r :: (xs ++ ys)).Nodup := by
    have h1 : ((r :: xs) ++ e :: ys).Nodup := by simpa using hnd
    rw [List.nodup_middle, List.nodup_cons] at h1
    simpa using h1.2
  have he_ne : ∀ a ∈ r :: (xs ++ ys), a ≠ e := by
    intro a ha hc
    have h1 : ((r :: xs) ++ e :: ys).Nodup := by simpa using hnd
    rw [List.nodup_middle, List.nodup_cons] at h1
    have he2 : e ∈ r :: (xs ++ ys) := by rw [← hc]; exact ha
    refine h1.1 ?_
    simpa using he2
  have hwr : ((removeElem w lid e).lists lid).root = r := by
    rw [removeElem_lists, if_pos rfl]
  unfold IsList
  refine ⟨?_, ?_, ?_, ?_, ?_, ?_, hlid0, ?_, ?_⟩
  · rw [hwr]
    refine chain'_next_stable _ (fun a ha => ?_) hchains.1
    have hd : (r :: (xs ++ ys) ++ [r]).dropLast = r :: (xs ++ ys) :=
      List.dropLast_concat ..
    rw [hd] at ha
    rw [removeElem_nextOf, if_neg (he_ne _ ha), unlink_nextOf]
  · rw [hwr]
    refine chain'_prev_stable _ (fun a ha => ?_) hchains.2
    have ht : (r :: (xs ++ ys) ++ [r]).tail = (xs ++ ys) ++ [r] := rfl
    rw [ht] at ha
    have hane : a ≠ e := by
      rcases List.mem_append.mp ha with h1 | h1
      · exact he_ne _ (List.mem_cons_of_mem _ h1)
      · rw [List.mem_singleton.mp h1]; exact he_ne _ (List.mem_cons_self _ _)
    rw [removeElem_prevOf, if_neg hane, unlink_prevOf]
  · rw [removeElem_lists, if_pos rfl]
    show (w.lists lid).len - 1 = _
    rw [hlen]
    simp only [List.length_append, List.length_cons]
    push_cast
    ring
  · rw [hwr]; exact hnd'
  · intro a ha
    rw [removeElem_listOf, if_neg (he_ne _ (List.mem_cons_of_mem _ ha))]
    rcases List.mem_append.mp ha with h1 | h1
    · exact hmem _ (List.mem_append_left _ h1)
    · exact hmem _ (List.mem_append_right _ (List.mem_cons_of_mem _ h1))
  · rw [hwr, removeElem_listOf, if_neg (he_ne _ (List.mem_cons_self _ _))]
    exact hroot
  · rw [removeElem_nextList]; exact hlidlt
  · intro a ha
    rw [hwr] at ha
    rw [removeElem_nextAddr]
    rcases List.mem_cons.mp ha with h1 | h1
    · rw [h1]; exact hbound _ (List.mem_cons_self _ _)
    · rcases List.mem_append.mp h1 with h2 | h2
      · exact hbound _ (List.mem_cons_of_mem _ (List.mem_append_left _ h2))
      · exact hbound _ (List.mem_cons_of_mem _
          (List.mem_append_right _ (List.mem_cons_of_mem _ h2)))

/-- Moving a member `e` after the ring position `(root :: us).getLast`
produces the ring with `e` relocated there. -/
theorem moveElem_IsList (w : World T) (lid : Nat) (xs ys us vs : List Addr) (e : Addr)
    (h : IsList w lid (xs ++ e :: ys)) (hsplit : xs ++ ys = us ++ vs)
    (hne : e ≠ ((w.lists lid).root :: us).getLast (by simp)) :
    IsList (moveElem w e (((w.lists lid).root :: us).getLast (by simp))) lid
      (us ++ e :: vs) := by
  obtain ⟨hn, hp, hlen, hnd, hmem, hroot, hlid0, hlidlt, hbound⟩ := h
  set r := (w.lists lid).root with hrdef
  set at_ := (r :: us).getLast (by simp) with hatdef
  have huchains := unlink_chains w r xs ys e hn hp hnd
  have hnd' : (r :: (us ++ vs)).Nodup := by
    have h1 : ((r :: xs) ++ e :: ys).Nodup := by simpa using hnd
    rw [List.nodup_middle, List.nodup_cons] at h1
    have := h1.2
    rw [show (r :: xs) ++ ys = r :: (xs ++ ys) by simp, hsplit] at this
    exact this
  have he_not : e ∉ r :: (us ++ vs) := by
    have h1 : ((r :: xs) ++ e :: ys).Nodup := by simpa using hnd
    rw [List.nodup_middle, List.nodup_cons] at h1
    intro hc
    refine h1.1 ?_
    have : e ∈ r :: (xs ++ ys) := by rw [hsplit]; exact hc
    simpa using this
  have hun : List.Chain' (NextRel (unlink w e)) (r :: (us ++ vs) ++ [r]) := by
    rw [← hsplit]; exact huchains.1
  have hup : List.Chain' (PrevRel (unlink w e)) (r :: (us ++ vs) ++ [r]) := by
    rw [← hsplit]; exact huchains.2
  have hschains := splice_chains (unlink w e) r us vs e hun hup hnd' he_not
  have hmemold : ∀ a, a ∈ r :: (us ++ e :: vs) → a ∈ r :: (xs ++ e :: ys) := by
    intro a ha
    rcases List.mem_cons.mp ha with h1 | h1
    · rw [h1]; exact List.mem_cons_self _ _
    · rcases List.mem_append.mp h1 with h2 | h2
      · have : a ∈ xs ++ ys := by rw [hsplit]; exact List.mem_append_left _ h2
        rcases List.mem_append.mp this with h3 | h3
        · exact List.mem_cons_of_mem _ (List.mem_append_left _ h3)
        · exact List.mem_cons_of_mem _
            (List.mem_append_right _ (List.mem_cons_of_mem _ h3))
      · rcases List.mem_cons.mp h2 with h3 | h3
        · rw [h3]
          exact List.mem_cons_of_mem _ (List.mem_append_right _ (List.mem_cons_self _ _))
        · have : a ∈ xs ++ ys := by rw [hsplit]; exact List.mem_append_right _ h3
          rcases List.mem_append.mp this with h4 | h4
          · exact List.mem_cons_of_mem _ (List.mem_append_left _ h4)
          · exact List.mem_cons_of_mem _
              (List.mem_append_right _ (List.mem_cons_of_mem _ h4))
  simp only [moveElem, if_neg hne]
  unfold IsList
  refine ⟨?_, ?_, ?_, ?_, ?_, ?_, hlid0, ?_, ?_⟩
  · exact hschains.1
  · exact hschains.2
  · show (w.lists lid).len = _
    rw [hlen]
    have : (xs ++ ys).length = (us ++ vs).length := by rw [hsplit]
    simp only [List.length_append, List.length_cons] at this ⊢
    push_cast
    omega
  · show (r :: (us ++ e :: vs)).Nodup
    have hre : (r :: (us ++ e :: vs)) = (r :: us) ++ e :: vs := by simp
    rw [hre, List.nodup_middle]
    exact List.nodup_cons.mpr ⟨fun hc => he_not (by simpa using hc), by simpa using hnd'⟩
  · intro a ha
    show listOf _ a = lid
    rw [splice_listOf, unlink_listOf]
    have : a ∈ r :: (xs ++ e :: ys) := hmemold _ (List.mem_cons_of_mem _ ha)
    rcases List.mem_cons.mp this with h1 | h1
    · exfalso
      have : r ∈ us ++ e :: vs := by rw [← h1]; exact ha
      have hre : (r :: (us ++ e :: vs)).Nodup := by
        have h2 : (r :: (us ++ e :: vs)) = (r :: us) ++ e :: vs := by simp
        rw [h2, List.nodup_middle]
        exact List.nodup_cons.mpr ⟨fun hc => he_not (by simpa using hc), by simpa using hnd'⟩
      exact (List.nodup_cons.mp hre).1 this
    · exact hmem _ h1
  · show listOf _ r = 0
    rw [splice_listOf, unlink_listOf]
    exact hroot
  · show lid < _
    rw [splice_nextList, unlink_nextList]
    exact hlidlt
  · intro a ha
    have : a ∈ r :: (xs ++ e :: ys) := hmemold _ ha
    rw [splice_nextAddr, unlink_nextAddr]
    exact hbound _ this

/-! ### Derived facts about well-formed lists -/

theorem isList_root_prev {w : World T} {lid : Nat} {as : List Addr}
    (h : IsList w lid as) :
    prevOf w (w.lists lid).root = ((w.lists lid).root :: as).getLast (by simp) := by
  have hp : List.Chain' (PrevRel w)
      ((w.lists lid).root :: (as ++ []) ++ [(w.lists lid).root]) := by
    simpa using h.2.1
  simpa using prev_at_split hp

theorem isList_root_next {w : World T} {lid : Nat} {as : List Addr}
    (h : IsList w lid as) :
    nextOf w (w.lists lid).root = (as ++ [(w.lists lid).root]).head (by simp) := by
  have hn : List.Chain' (NextRel w)
      ((w.lists lid).root :: (([] : List Addr) ++ as) ++ [(w.lists lid).root]) := by
    simpa using h.1
  simpa using next_at_split hn

theorem isList_prev_of_member {w : World T} {lid : Nat} {xs ys : List Addr} {m : Addr}
    (h : IsList w lid (xs ++ m :: ys)) :
    prevOf w m = ((w.lists lid).root :: xs).getLast (by simp) :=
  (prev_mid_split h.2.1).1

theorem isList_next_of_member {w : World T} {lid : Nat} {xs ys : List Addr} {m : Addr}
    (h : IsList w lid (xs ++ m :: ys)) :
    nextOf w m = (ys ++ [(w.lists lid).root]).head (by simp) :=
  (next_mid_split h.1).2

theorem isList_root_not_mem {w : World T} {lid : Nat} {as : List Addr}
    (h : IsList w lid as) : (w.lists lid).root ∉ as :=
  (List.nodup_cons.mp h.2.2.2.1).1

theorem head_append_singleton_mem (vs : List Addr) (r : Addr) :
    (vs ++ [r]).head (by simp) ∈ r :: vs := by
  rcases List.mem_append.mp (@List.head_mem _ (vs ++ [r]) (by simp)) with h | h
  · exact List.mem_cons_of_mem _ h
  · rw [List.mem_singleton.mp h]; exact List.mem_cons_self _ _

/-- On a well-formed list, `lazyInit` is the identity. -/
theorem lazyInit_eq {w : World T} {lid : Nat} {as : List Addr}
    (h : IsList w lid as) : lazyInit w lid = w := by
  unfold lazyInit
  rw [isList_root_next h, if_neg]
  intro hc
  have hm := head_append_singleton_mem as (w.lists lid).root
  rcases List.mem_cons.mp hm with h1 | h1
  · exact isList_root_ne_zero h (by rw [← h1, hc])
  · exact isList_mem_ne_zero h (List.mem_cons_of_mem _ h1) hc

/-- `IsList` is stable under changes that do not touch the list's elements,
its header, and only grow the allocation counters. -/
theorem isList_frame {w w2 : World T} {lid : Nat} {as : List Addr}
    (h : IsList w lid as)
    (hheap : ∀ a ∈ (w.lists lid).root :: as, w2.heap a = w.heap a)
    (hhdr : w2.lists lid = w.lists lid)
    (hna : w.nextAddr ≤ w2.nextAddr) (hnl : w.nextList ≤ w2.nextList) :
    IsList w2 lid as := by
  obtain ⟨hn, hp, hlen, hnd, hmem, hroot, hlid0, hlidlt, hbound⟩ := h
  have hnx : ∀ a ∈ (w.lists lid).root :: as, nextOf w2 a = nextOf w a := by
    intro a ha
    unfold nextOf
    rw [hheap a ha]
  have hpx : ∀ a ∈ (w.lists lid).root :: as, prevOf w2 a = prevOf w a := by
    intro a ha
    unfold prevOf
    rw [hheap a ha]
  have hlx : ∀ a ∈ (w.lists lid).root :: as, listOf w2 a = listOf w a := by
    intro a ha
    unfold listOf
    rw [hheap a ha]
  unfold IsList
  rw [hhdr]
  refine ⟨?_, ?_, hlen, hnd, ?_, ?_, hlid0, ?_, ?_⟩
  · refine chain'_next_stable _ (fun a ha => ?_) hn
    have hd : ((w.lists lid).root :: as ++ [(w.lists lid).root]).dropLast =
        (w.lists lid).root :: as := List.dropLast_concat ..
    rw [hd] at ha
    exact hnx _ ha
  · refine chain'_prev_stable _ (fun a ha => ?_) hp
    have ht : ((w.lists lid).root :: as ++ [(w.lists lid).root]).tail =
        as ++ [(w.lists lid).root] := rfl
    rw [ht] at ha
    rcases List.mem_append.mp ha with h1 | h1
    · exact hpx _ (List.mem_cons_of_mem _ h1)
    · rw [List.mem_singleton.mp h1]
      exact hpx _ (List.mem_cons_self _ _)
  · intro a ha
    rw [hlx _ (List.mem_cons_of_mem _ ha)]
    exact hmem _ ha
  · rw [hlx _ (List.mem_cons_self _ _)]
    exact hroot
  · exact lt_of_lt_of_le hlidlt hnl
  · intro a ha
    exact ⟨(hbound _ ha).1, lt_of_lt_of_le (hbound _ ha).2 hna⟩

/-! ### Specifications of the public list operations -/

theorem pushBack_IsList (w : World T) (lid : Nat) (v : T) (as : List Addr)
    (h : IsList w lid as) :
    (pushBack w lid v).1 = w.nextAddr ∧
      IsList (pushBack w lid v).2 lid (as ++ [w.nextAddr]) := by
  have hpb : pushBack w lid v =
      insertValue w lid v (((w.lists lid).root :: as).getLast (by simp)) := by
    unfold pushBack
    rw [lazyInit_eq h]
    show insertValue w lid v (prevOf w (w.lists lid).root) = _
    rw [isList_root_prev h]
  constructor
  · rw [hpb, insertValue_fst]
  · rw [hpb]
    have := insertValue_IsList w lid v as [] (by simpa using h)
    simpa using this

theorem pushFront_IsList (w : World T) (lid : Nat) (v : T) (as : List Addr)
    (h : IsList w lid as) :
    (pushFront w lid v).1 = w.nextAddr ∧
      IsList (pushFront w lid v).2 lid (w.nextAddr :: as) := by
  have hpf : pushFront w lid v =
      insertValue w lid v ((((w.lists lid).root :: ([] : List Addr))).getLast (by simp)) := by
    unfold pushFront
    rw [lazyInit_eq h]
    show insertValue w lid v (w.lists lid).root = _
    rfl
  constructor
  · rw [hpf, insertValue_fst]
  · rw [hpf]
    exact insertValue_IsList w lid v [] as h

theorem clear_IsList (w : World T) (lid : Nat) (as : List Addr)
    (h : IsList w lid as) : IsList (clear w lid) lid [] := by
  obtain ⟨hn, hp, hlen, hnd, hmem, hroot, hlid0, hlidlt, hbound⟩ := h
  set r := (w.lists lid).root with hrdef
  have hhdr : ∀ x, (clear w lid).lists x =
      if x = lid then { w.lists x with len := 0 } else w.lists x := by
    intro x
    unfold clear initList
    rw [setLen_lists]
    rfl
  have hwr : ((clear w lid).lists lid).root = r := by rw [hhdr, if_pos rfl]
  have hnx : nextOf (clear w lid) r = r := by
    unfold clear initList
    rw [setLen_nextOf, setPrev_nextOf, setNext_nextOf, if_pos rfl]
  have hpx : prevOf (clear w lid) r = r := by
    unfold clear initList
    rw [setLen_prevOf, setPrev_prevOf, if_pos rfl]
  have hlx : ∀ a, listOf (clear w lid) a = listOf w a := by
    intro a
    unfold clear initList
    rw [setLen_listOf, setPrev_listOf, setNext_listOf]
  unfold IsList
  rw [hwr]
  refine ⟨?_, ?_, ?_, ?_, ?_, ?_, hlid0, ?_, ?_⟩
  · exact List.chain'_pair.mpr hnx
  · exact List.chain'_pair.mpr hpx
  · rw [hhdr, if_pos rfl]
    rfl
  · simp
  · intro a ha
    simp at ha
  · rw [hlx]
    exact hroot
  · show lid < (clear w lid).nextList
    have : (clear w lid).nextList = w.nextList := rfl
    rw [this]
    exact hlidlt
  · intro a ha
    have har : a = r := by simpa using ha
    have : (clear w lid).nextAddr = w.nextAddr := rfl
    rw [har, this]
    exact hbound _ (List.mem_cons_self _ _)

theorem popBack_IsList [Inhabited T] (w : World T) (lid : Nat) (as : List Addr)
    (h : IsList w lid as) :
    IsList (popBack w lid).2 lid as.dropLast := by
  have hpb : popBack w lid =
      (let e := prevOf w (w.lists lid).root
        if e ≠ 0 then
          (valueOf w e, if listOf w e = lid then removeElem w lid e else w)
        else (default, w)) := by
    unfold popBack
    rw [lazyInit_eq h]
  rcases List.eq_nil_or_concat as with hnil | ⟨xs, x, hxs⟩
  · subst hnil
    have he : prevOf w (w.lists lid).root = (w.lists lid).root := by
      rw [isList_root_prev h]
      rfl
    rw [hpb]
    simp only [he, ne_eq]
    rw [if_pos (isList_root_ne_zero h), if_neg]
    · exact h
    · rw [h.2.2.2.2.2.1]
      exact fun hc => h.2.2.2.2.2.2.1 hc.symm
  · have hxs' : as = xs ++ [x] := by simpa using hxs
    subst hxs'
    have he : prevOf w (w.lists lid).root = x := by
      rw [isList_root_prev h]
      have : ((w.lists lid).root :: (xs ++ [x])) = ((w.lists lid).root :: xs) ++ [x] := by
        simp
      rw [List.getLast_congr _ _ this, List.getLast_concat]
    have hx0 : x ≠ 0 :=
      isList_mem_ne_zero h (List.mem_cons_of_mem _ (List.mem_append_right _ (by simp)))
    have hxl : listOf w x = lid := h.2.2.2.2.1 _ (List.mem_append_right _ (by simp))
    rw [hpb]
    simp only [he, ne_eq]
    rw [if_pos hx0, if_pos hxl]
    have hd : (xs ++ [x]).dropLast = xs := List.dropLast_concat ..
    rw [hd]
    have := removeElem_IsList w lid xs [] x (by simpa using h)
    simpa using this

theorem popFront_IsList [Inhabited T] (w : World T) (lid : Nat) (as : List Addr)
    (h : IsList w lid as) :
    IsList (popFront w lid).2 lid as.tail := by
  have hpf : popFront w lid =
      (let e := nextOf w (w.lists lid).root
        if e ≠ 0 then
          (valueOf w e, if listOf w e = lid then removeElem w lid e else w)
        else (default, w)) := by
    unfold popFront
    rw [lazyInit_eq h]
  cases as with
  | nil =>
    have he : nextOf w (w.lists lid).root = (w.lists lid).root := by
      rw [isList_root_next h]
      rfl
    rw [hpf]
    simp only [he, ne_eq]
    rw [if_pos (isList_root_ne_zero h), if_neg]
    · exact h
    · rw [h.2.2.2.2.2.1]
      exact fun hc => h.2.2.2.2.2.2.1 hc.symm
  | cons x rest =>
    have he : nextOf w (w.lists lid).root = x := by
      rw [isList_root_next h]
      rfl
    have hx0 : x ≠ 0 :=
      isList_mem_ne_zero h (List.mem_cons_of_mem _ (List.mem_cons_self _ _))
    have hxl : listOf w x = lid := h.2.2.2.2.1 _ (List.mem_cons_self _ _)
    rw [hpf]
    simp only [he, ne_eq]
    rw [if_pos hx0, if_pos hxl]
    exact removeElem_IsList w lid [] rest x h

/-- `Element.Next` on a list member: the following member, or nil at the back. -/
theorem elemNext_member {w : World T} {lid : Nat} {xs ys : List Addr} {m : Addr}
    (h : IsList w lid (xs ++ m :: ys)) : elemNext w m = ys.headD 0 := by
  have hl : listOf w m = lid :=
    h.2.2.2.2.1 _ (List.mem_append_right _ (List.mem_cons_self _ _))
  have hnx := isList_next_of_member h
  unfold elemNext
  rw [hl, hnx]
  cases ys with
  | nil =>
    rw [if_neg]
    · rfl
    · rintro ⟨-, hc⟩
      exact hc rfl
  | cons y yt =>
    rw [if_pos]
    · rfl
    · refine ⟨h.2.2.2.2.2.2.1, ?_⟩
      show y ≠ (w.lists lid).root
      intro hc
      exact isList_root_not_mem h
        (List.mem_append_right _ (List.mem_cons_of_mem _ (by rw [hc] at *; simp)))

/-- `Element.Prev` on a list member: the preceding member, or nil at the front. -/
theorem elemPrev_member {w : World T} {lid : Nat} {xs ys : List Addr} {m : Addr}
    (h : IsList w lid (xs ++ m :: ys)) : elemPrev w m = xs.getLastD 0 := by
  have hl : listOf w m = lid :=
    h.2.2.2.2.1 _ (List.mem_append_right _ (List.mem_cons_self _ _))
  have hpv := isList_prev_of_member h
  unfold elemPrev
  rw [hl, hpv]
  rcases List.eq_nil_or_concat xs with hnil | ⟨zs, z, hzs⟩
  · subst hnil
    rw [if_neg]
    · rfl
    · rintro ⟨-, hc⟩
      exact hc rfl
  · have hzs' : xs = zs ++ [z] := by simpa using hzs
    subst hzs'
    have hgl : (((w.lists lid).root :: (zs ++ [z]))).getLast (by simp) = z := by
      have heq : ((w.lists lid).root :: (zs ++ [z])) =
          ((w.lists lid).root :: zs) ++ [z] := by simp
      rw [List.getLast_congr _ _ heq, List.getLast_concat]
    rw [hgl]
    have hzmem : z ∈ zs ++ [z] := List.mem_append_right _ (by simp)
    rw [if_pos]
    · simp
    · refine ⟨h.2.2.2.2.2.2.1, ?_⟩
      intro hc
      exact isList_root_not_mem h
        (List.mem_append_left _ (List.mem_append_right _ (by simp [hc])))

/-- Every ring position is `getLast` of some initial segment. -/
theorem exists_getLast_decomp (r at_ : Addr) (zs : List Addr) (hat : at_ ∈ r :: zs) :
    ∃ us vs, zs = us ++ vs ∧ at_ = (r :: us).getLast (by simp) := by
  rcases List.mem_cons.mp hat with h1 | h1
  · exact ⟨[], zs, rfl, by rw [h1]; rfl⟩
  · obtain ⟨s, t, hst⟩ := List.append_of_mem h1
    refine ⟨s ++ [at_], t, by simp [hst], ?_⟩
    have heq : (r :: (s ++ [at_])) = (r :: s) ++ [at_] := by simp
    rw [List.getLast_congr _ _ heq, List.getLast_concat]

/-- Moving a member next to any ring position keeps the list well-formed. -/
theorem moveElem_any (w : World T) (lid : Nat) (as : List Addr) (e at_ : Addr)
    (h : IsList w lid as) (he : e ∈ as) (hat : at_ ∈ (w.lists lid).root :: as) :
    ∃ as', IsList (moveElem w e at_) lid as' := by
  by_cases hea : e = at_
  · rw [moveElem, if_pos hea]
    exact ⟨as, h⟩
  · obtain ⟨xs, ys, hxy⟩ := List.append_of_mem he
    subst hxy
    have hat' : at_ ∈ (w.lists lid).root :: (xs ++ ys) := by
      rcases List.mem_cons.mp hat with h1 | h1
      · rw [h1]; exact List.mem_cons_self _ _
      · rcases List.mem_append.mp h1 with h2 | h2
        · exact List.mem_cons_of_mem _ (List.mem_append_left _ h2)
        · rcases List.mem_cons.mp h2 with h3 | h3
          · exact absurd h3.symm hea
          · exact List.mem_cons_of_mem _ (List.mem_append_right _ h3)
    obtain ⟨us, vs, hsplit, hatg⟩ := exists_getLast_decomp _ at_ _ hat'
    subst hatg
    exact ⟨us ++ e :: vs, moveElem_IsList w lid xs ys us vs e h hsplit hea⟩

/-- `InsertBefore` with any handle argument preserves well-formedness,
provided a handle claiming to belong to this list is a current member. -/
theorem insertBefore_IsList (w : World T) (lid : Nat) (mark : Addr) (v : T)
    (as : List Addr) (h : IsList w lid as)
    (hmk : listOf w mark = lid → mark ∈ as) :
    ∃ as', IsList (insertBefore w lid mark v).2 lid as' := by
  unfold insertBefore
  by_cases hg : listOf w mark ≠ lid
  · rw [if_pos hg]
    exact ⟨as, h⟩
  · rw [if_neg hg]
    push_neg at hg
    obtain ⟨xs, ys, hxy⟩ := List.append_of_mem (hmk hg)
    subst hxy
    rw [isList_prev_of_member h]
    exact ⟨xs ++ w.nextAddr :: mark :: ys,
      insertValue_IsList w lid v xs (mark :: ys) h⟩

/-- `InsertAfter` likewise. -/
theorem insertAfter_IsList (w : World T) (lid : Nat) (mark : Addr) (v : T)
    (as : List Addr) (h : IsList w lid as)
    (hmk : listOf w mark = lid → mark ∈ as) :
    ∃ as', IsList (insertAfter w lid mark v).2 lid as' := by
  unfold insertAfter
  by_cases hg : listOf w mark ≠ lid
  · rw [if_pos hg]
    exact ⟨as, h⟩
  · rw [if_neg hg]
    push_neg at hg
    obtain ⟨xs, ys, hxy⟩ := List.append_of_mem (hmk hg)
    subst hxy
    have hmark : mark = (((w.lists lid).root :: (xs ++ [mark]))).getLast (by simp) := by
      have heq : ((w.lists lid).root :: (xs ++ [mark])) =
          ((w.lists lid).root :: xs) ++ [mark] := by simp
      rw [List.getLast_congr _ _ heq, List.getLast_concat]
    refine ⟨(xs ++ [mark]) ++ w.nextAddr :: ys, ?_⟩
    have := insertValue_IsList w lid v (xs ++ [mark]) ys (by simpa using h)
    rw [← hmark] at this
    exact this

/-- `MoveToFront` preserves well-formedness. -/
theorem moveToFront_IsList (w : World T) (lid : Nat) (e : Addr)
    (as : List Addr) (h : IsList w lid as)
    (he : listOf w e = lid → e ∈ as) :
    ∃ as', IsList (moveToFront w lid e) lid as' := by
  unfold moveToFront
  split
  · exact ⟨as, h⟩
  · next hg =>
    push_neg at hg
    exact moveElem_any w lid as e _ h (he hg.1) (List.mem_cons_self _ _)

/-- `MoveToBack` preserves well-formedness. -/
theorem moveToBack_IsList (w : World T) (lid : Nat) (e : Addr)
    (as : List Addr) (h : IsList w lid as)
    (he : listOf w e = lid → e ∈ as) :
    ∃ as', IsList (moveToBack w lid e) lid as' := by
  unfold moveToBack
  split
  · exact ⟨as, h⟩
  · next hg =>
    push_neg at hg
    refine moveElem_any w lid as e _ h (he hg.1) ?_
    rw [isList_root_prev h]
    exact List.getLast_mem _

/-- `MoveBefore` preserves well-formedness. -/
theorem moveBefore_IsList (w : World T) (lid : Nat) (e mark : Addr)
    (as : List Addr) (h : IsList w lid as)
    (he : listOf w e = lid → e ∈ as) (hmk : listOf w mark = lid → mark ∈ as) :
    ∃ as', IsList (moveBefore w lid e mark) lid as' := by
  unfold moveBefore
  split
  · exact ⟨as, h⟩
  · next hg =>
    push_neg at hg
    obtain ⟨xs, ys, hxy⟩ := List.append_of_mem (hmk hg.2.2)
    refine moveElem_any w lid as e _ h (he hg.1) ?_
    subst hxy
    rw [isList_prev_of_member h]
    have := getLast_mem_ring (w.lists lid).root xs (mark :: ys)
    simpa using this

/-- `MoveAfter` preserves well-formedness. -/
theorem moveAfter_IsList (w : World T) (lid : Nat) (e mark : Addr)
    (as : List Addr) (h : IsList w lid as)
    (he : listOf w e = lid → e ∈ as) (hmk : listOf w mark = lid → mark ∈ as) :
    ∃ as', IsList (moveAfter w lid e mark) lid as' := by
  unfold moveAfter
  split
  · exact ⟨as, h⟩
  · next hg =>
    push_neg at hg
    exact moveElem_any w lid as e _ h (he hg.1) (List.mem_cons_of_mem _ (hmk hg.2.2))

/-! ### Traversal and search specifications -/

theorem frontAllLoop_eq (w : World T) (lid : Nat) :
    ∀ (suf pre : List Addr) (m : Addr), IsList w lid (pre ++ m :: suf) →
      frontAllLoop w (suf.length + 1) m = valueOf w m :: suf.map (valueOf w) := by
  intro suf
  induction suf with
  | nil =>
    intro pre m h
    rfl
  | cons y yt ih =>
    intro pre m h
    show valueOf w m :: frontAllLoop w (yt.length + 1) (elemNext w m) = _
    rw [elemNext_member h]
    have h' : IsList w lid ((pre ++ [m]) ++ y :: yt) := by simpa using h
    rw [show (y :: yt).headD 0 = y from rfl, ih (pre ++ [m]) y h']
    rfl

/-- `FrontAll` yields exactly the list's value sequence. -/
theorem frontAll_eq {w : World T} {lid : Nat} {as : List Addr}
    (h : IsList w lid as) : frontAll w lid = as.map (valueOf w) := by
  have hfa : frontAll w lid =
      (if (w.lists lid).len > 0 then
        frontAllLoop w (w.lists lid).len.toNat (nextOf w (w.lists lid).root)
      else []) := by
    unfold frontAll
    rw [lazyInit_eq h]
  rw [hfa]
  cases as with
  | nil =>
    rw [if_neg]
    · rfl
    · rw [h.2.2.1]
      simp
  | cons a rest =>
    rw [if_pos]
    · rw [h.2.2.1, isList_root_next h]
      have htn : ((((a :: rest).length : Nat) : Int)).toNat = rest.length + 1 := by
        rw [Int.toNat_natCast]
        rfl
      rw [htn]
      exact frontAllLoop_eq w lid rest [] a h
    · rw [h.2.2.1]
      simp

theorem searchLoop_spec [DecidableEq T] (w : World T) (lid : Nat) (v : T) :
    ∀ (suf pre : List Addr) (m : Addr), IsList w lid (pre ++ m :: suf) →
      ((v ∉ (m :: suf).map (valueOf w) ∧ searchLoop w v (suf.length + 1) m = 0) ∨
        (∃ us m2 ws, m :: suf = us ++ m2 :: ws ∧ valueOf w m2 = v ∧
          searchLoop w v (suf.length + 1) m = m2)) := by
  intro suf
  induction suf with
  | nil =>
    intro pre m h
    show _ ∨ _
    by_cases hv : valueOf w m = v
    · exact Or.inr ⟨[], m, [], rfl, hv, by simp [searchLoop, hv]⟩
    · refine Or.inl ⟨?_, by simp [searchLoop, hv]⟩
      simp only [List.map_cons, List.map_nil, List.mem_singleton]
      exact fun hc => hv hc.symm
  | cons y yt ih =>
    intro pre m h
    by_cases hv : valueOf w m = v
    · refine Or.inr ⟨[], m, y :: yt, rfl, hv, ?_⟩
      show searchLoop w v (yt.length + 2) m = m
      simp [searchLoop, hv]
    · have hstep : searchLoop w v (yt.length + 2) m =
          searchLoop w v (yt.length + 1) y := by
        show (if valueOf w m = v then m else searchLoop w v (yt.length + 1) (elemNext w m)) = _
        rw [if_neg hv, elemNext_member h]
        rfl
      have h' : IsList w lid ((pre ++ [m]) ++ y :: yt) := by simpa using h
      rcases ih (pre ++ [m]) y h' with ⟨hno, hz⟩ | ⟨us, m2, ws, heq, hvv, hres⟩
      · refine Or.inl ⟨?_, ?_⟩
        · simp only [List.map_cons] at hno ⊢
          intro hc
          rcases List.mem_cons.mp hc with h1 | h1
          · exact hv h1.symm
          · exact hno h1
        · show searchLoop w v (yt.length + 2) m = 0
          rw [hstep]
          exact hz
      · refine Or.inr ⟨m :: us, m2, ws, by rw [heq]; rfl, hvv, ?_⟩
        show searchLoop w v (yt.length + 2) m = m2
        rw [hstep]
        exact hres

/-- Full specification of `search`: either the value is absent and search
returns nil, or it returns the first matching member. -/
theorem search_spec [DecidableEq T] {w : World T} {lid : Nat} {as : List Addr} (v : T)
    (h : IsList w lid as) :
    (v ∉ as.map (valueOf w) ∧ search w lid v = 0) ∨
      (∃ us m ws, as = us ++ m :: ws ∧ valueOf w m = v ∧ search w lid v = m) := by
  unfold search
  cases as with
  | nil =>
    rw [if_neg]
    · exact Or.inl ⟨by simp, rfl⟩
    · rw [h.2.2.1]
      simp
  | cons a rest =>
    rw [if_pos]
    · rw [h.2.2.1, isList_root_next h]
      have htn : ((((a :: rest).length : Nat) : Int)).toNat = rest.length + 1 := by
        rw [Int.toNat_natCast]
        rfl
      rw [htn]
      exact searchLoop_spec w lid v rest [] a h
    · rw [h.2.2.1]
      simp

/-- On a well-formed list, `search` of an absent value returns nil. -/
theorem search_absent [DecidableEq T] {w : World T} {lid : Nat} {as : List Addr} {v : T}
    (h : IsList w lid as) (hv : v ∉ as.map (valueOf w)) : search w lid v = 0 := by
  rcases search_spec v h with ⟨-, hz⟩ | ⟨us, m, ws, heq, hvv, -⟩
  · exact hz
  · exact absurd (by rw [heq]; simp [hvv]) hv

/-- `Remove(values...)` keeps the list well-formed. -/
theorem removeValues_IsList [DecidableEq T] (w : World T) (lid : Nat)
    (values : List T) (b : Bool) (as : List Addr) (h : IsList w lid as) :
    ∃ as', IsList (values.foldl
      (fun acc value =>
        let existing := search acc.2 lid value
        if existing ≠ 0 then (true, removeElem acc.2 lid existing) else acc)
      (b, w)).2 lid as' := by
  induction values generalizing b w as with
  | nil => exact ⟨as, h⟩
  | cons v vt ih =>
    simp only [List.foldl_cons]
    rcases search_spec v h with ⟨-, hz⟩ | ⟨us, m, ws, heq, -, hres⟩
    · rw [hz]
      rw [if_neg (by simp)]
      exact ih _ _ _ h
    · rw [hres]
      have hm0 : m ≠ 0 :=
        isList_mem_ne_zero h (List.mem_cons_of_mem _ (by rw [heq]; simp))
      rw [if_pos hm0]
      subst heq
      exact ih _ _ _ (removeElem_IsList w lid us ws m h)

/-- `Remove(k)` for an absent value `k` reports no change and leaves the
world untouched. -/
theorem removeValues_absent [DecidableEq T] {w : World T} {lid : Nat} {as : List Addr}
    {v : T} (h : IsList w lid as) (hv : v ∉ as.map (valueOf w)) :
    removeValues w lid [v] = (false, w) := by
  unfold removeValues
  show (if search w lid v ≠ 0 then _ else (false, w)) = (false, w)
  rw [search_absent h hv]
  simp

/-! ### `newList` -/

theorem newList_fst (w : World T) (d : T) : (newList w d).1 = w.nextList := rfl

theorem newList_lists (w : World T) (d : T) (x : Nat) :
    (newList w d).2.lists x =
      if x = w.nextList then { root := w.nextAddr, len := 0 } else w.lists x := rfl

theorem newList_heap (w : World T) (d : T) (a : Addr) :
    (newList w d).2.heap a =
      if a = w.nextAddr then
        { next := w.nextAddr, prev := w.nextAddr, list := 0, value := d }
      else w.heap a := rfl

theorem newList_nextAddr (w : World T) (d : T) :
    (newList w d).2.nextAddr = w.nextAddr + 1 := rfl

theorem newList_nextList (w : World T) (d : T) :
    (newList w d).2.nextList = w.nextList + 1 := rfl

/-- A freshly created list is a well-formed empty list. -/
theorem newList_IsList (w : World T) (d : T) (hA : 1 ≤ w.nextAddr)
    (hL : 1 ≤ w.nextList) :
    IsList (newList w d).2 (newList w d).1 [] := by
  unfold IsList
  rw [newList_fst, newList_lists, if_pos rfl]
  refine ⟨?_, ?_, rfl, by simp, by simp, ?_, by omega, ?_, ?_⟩
  · refine List.chain'_pair.mpr ?_
    show nextOf _ w.nextAddr = w.nextAddr
    unfold nextOf
    rw [newList_heap, if_pos rfl]
  · refine List.chain'_pair.mpr ?_
    show prevOf _ w.nextAddr = w.nextAddr
    unfold prevOf
    rw [newList_heap, if_pos rfl]
  · show listOf _ w.nextAddr = 0
    unfold listOf
    rw [newList_heap, if_pos rfl]
  · rw [newList_nextList]
    omega
  · intro a ha
    have har : a = w.nextAddr := by simpa using ha
    rw [har, newList_nextAddr]
    exact ⟨Nat.pos_iff_ne_zero.mp hA, Nat.lt_succ_self _⟩

/-- Creating a new list leaves every existing well-formed list intact. -/
theorem newList_frame {w : World T} {lid : Nat} {as : List Addr} (d : T)
    (h : IsList w lid as) : IsList (newList w d).2 lid as := by
  refine isList_frame h ?_ ?_ ?_ ?_
  · intro a ha
    rw [newList_heap, if_neg (Nat.ne_of_lt (isList_mem_lt h ha))]
  · rw [newList_lists, if_neg (Nat.ne_of_lt h.2.2.2.2.2.2.2.1)]
  · rw [newList_nextAddr]
    exact Nat.le_succ _
  · rw [newList_nextList]; omega

/-! ### Bulk append loops -/

/-- Each iteration of the `PushBackList` loop appends one element at the
back, whatever the cursor points at. -/
theorem pushBackListLoop_any (lid : Nat) :
    ∀ (n : Nat) (cursor : Addr) (w : World T) (as : List Addr),
      IsList w lid as →
      ∃ as', IsList (pushBackListLoop lid n cursor w) lid as' := by
  intro n
  induction n with
  | zero => exact fun cursor w as h => ⟨as, h⟩
  | succ k ih =>
    intro cursor w as h
    show ∃ as', IsList (pushBackListLoop lid k (elemNext _ cursor) _) lid as'
    have hstep : (insertValue w lid (valueOf w cursor)
        (prevOf w (w.lists lid).root)).2 =
        (insertValue w lid (valueOf w cursor)
          (((w.lists lid).root :: as).getLast (by simp))).2 := by
      rw [isList_root_prev h]
    rw [hstep]
    have h1 := insertValue_IsList w lid (valueOf w cursor) as [] (by simpa using h)
    exact ih _ _ _ h1

/-- Each iteration of the `PushFrontList` loop prepends one element at the
front, whatever the cursor points at. -/
theorem pushFrontListLoop_any (lid : Nat) :
    ∀ (n : Nat) (cursor : Addr) (w : World T) (as : List Addr),
      IsList w lid as →
      ∃ as', IsList (pushFrontListLoop lid n cursor w) lid as' := by
  intro n
  induction n with
  | zero => exact fun cursor w as h => ⟨as, h⟩
  | succ k ih =>
    intro cursor w as h
    show ∃ as', IsList (pushFrontListLoop lid k (elemPrev _ cursor) _) lid as'
    have hstep : (insertValue w lid (valueOf w cursor) (w.lists lid).root).2 =
        (insertValue w lid (valueOf w cursor)
          (((w.lists lid).root :: ([] : List Addr)).getLast (by simp))).2 := rfl
    rw [hstep]
    have h1 := insertValue_IsList w lid (valueOf w cursor) [] as h
    exact ih _ _ _ h1

/-- `PushBackList` (with any other list, including itself) keeps the
list well-formed. -/
theorem pushBackList_any (w : World T) (lid other : Nat) (as : List Addr)
    (h : IsList w lid as) :
    ∃ as', IsList (pushBackList w lid other) lid as' := by
  unfold pushBackList
  rw [lazyInit_eq h]
  exact pushBackListLoop_any lid _ _ w as h

/-- `PushFrontList` likewise. -/
theorem pushFrontList_any (w : World T) (lid other : Nat) (as : List Addr)
    (h : IsList w lid as) :
    ∃ as', IsList (pushFrontList w lid other) lid as' := by
  unfold pushFrontList
  rw [lazyInit_eq h]
  exact pushFrontListLoop_any lid _ _ w as h

/-- Invariant of the `PushBackList` self-append loop: the cursor walks the
original elements (`t :: todo`) while their copies accumulate at the back. -/
theorem pushBackListLoop_self (lid : Nat) :
    ∀ (todo done copies : List Addr) (t : Addr) (w : World T),
      IsList w lid (done ++ (t :: todo) ++ copies) →
      ∃ copies2,
        IsList (pushBackListLoop lid (todo.length + 1) t w) lid
          ((done ++ (t :: todo) ++ copies) ++ copies2) ∧
        (∀ a ∈ done ++ (t :: todo) ++ copies,
          valueOf (pushBackListLoop lid (todo.length + 1) t w) a = valueOf w a) ∧
        copies2.map (valueOf (pushBackListLoop lid (todo.length + 1) t w)) =
          (t :: todo).map (valueOf w) := by
  intro todo
  induction todo with
  | nil =>
    intro done copies t w h
    have hw1 : pushBackListLoop lid (([] : List Addr).length + 1) t w =
        (insertValue w lid (valueOf w t) (prevOf w (w.lists lid).root)).2 := rfl
    have harg : prevOf w (w.lists lid).root =
        (((w.lists lid).root :: (done ++ (t :: []) ++ copies))).getLast (by simp) :=
      isList_root_prev h
    have hI := insertValue_IsList w lid (valueOf w t) (done ++ (t :: []) ++ copies) []
      (by simpa using h)
    rw [← harg] at hI
    refine ⟨[w.nextAddr], ?_, ?_, ?_⟩
    · rw [hw1]
      simpa using hI
    · intro a ha
      rw [hw1, insertValue_valueOf,
        if_neg (Nat.ne_of_lt (isList_mem_lt h (List.mem_cons_of_mem _ ha)))]
    · rw [hw1]
      show [valueOf _ w.nextAddr] = [valueOf w t]
      rw [insertValue_valueOf, if_pos rfl]
  | cons y yt ih =>
    intro done copies t w h
    have harg : prevOf w (w.lists lid).root =
        (((w.lists lid).root :: (done ++ (t :: y :: yt) ++ copies))).getLast (by simp) :=
      isList_root_prev h
    set wI := (insertValue w lid (valueOf w t) (prevOf w (w.lists lid).root)).2 with hwI
    have hw1 : pushBackListLoop lid ((y :: yt).length + 1) t w =
        pushBackListLoop lid (yt.length + 1) (elemNext wI t) wI := rfl
    have hI : IsList wI lid ((done ++ (t :: y :: yt) ++ copies) ++ [w.nextAddr]) := by
      have := insertValue_IsList w lid (valueOf w t) (done ++ (t :: y :: yt) ++ copies) []
        (by simpa using h)
      rw [← harg] at this
      simpa using this
    have hframe : ∀ a, a ≠ w.nextAddr → valueOf wI a = valueOf w a := by
      intro a hane
      rw [hwI, insertValue_valueOf, if_neg hane]
    have hnewv : valueOf wI w.nextAddr = valueOf w t := by
      rw [hwI, insertValue_valueOf, if_pos rfl]
    have hI' : IsList wI lid ((done ++ [t]) ++ (y :: yt) ++ (copies ++ [w.nextAddr])) := by
      have heq : (done ++ (t :: y :: yt) ++ copies) ++ [w.nextAddr] =
          (done ++ [t]) ++ (y :: yt) ++ (copies ++ [w.nextAddr]) := by simp
      rw [heq] at hI
      exact hI
    have hcur : elemNext wI t = y := by
      have hpos : IsList wI lid ((done ++ [t]).dropLast ++ t ::
          ((y :: yt) ++ (copies ++ [w.nextAddr]))) := by
        have heq : (done ++ [t]) ++ (y :: yt) ++ (copies ++ [w.nextAddr]) =
            (done ++ [t]).dropLast ++ t :: ((y :: yt) ++ (copies ++ [w.nextAddr])) := by
          simp
        rw [heq] at hI'
        exact hI'
      rw [elemNext_member hpos]
      rfl
    obtain ⟨copies2, hI2, hpres, hcop⟩ := ih (done ++ [t]) (copies ++ [w.nextAddr]) y wI hI'
    rw [hw1, hcur]
    have hmem_conv : ∀ a, a ∈ done ++ (t :: y :: yt) ++ copies →
        a ∈ (done ++ [t]) ++ (y :: yt) ++ (copies ++ [w.nextAddr]) := by
      intro a ha
      have : a ∈ (done ++ (t :: y :: yt) ++ copies) ++ [w.nextAddr] :=
        List.mem_append_left _ ha
      have heq : (done ++ (t :: y :: yt) ++ copies) ++ [w.nextAddr] =
          (done ++ [t]) ++ (y :: yt) ++ (copies ++ [w.nextAddr]) := by simp
      rw [heq] at this
      exact this
    refine ⟨w.nextAddr :: copies2, ?_, ?_, ?_⟩
    · have heq : ((done ++ [t]) ++ (y :: yt) ++ (copies ++ [w.nextAddr])) ++ copies2 =
          (done ++ (t :: y :: yt) ++ copies) ++ (w.nextAddr :: copies2) := by simp
      rw [heq] at hI2
      exact hI2
    · intro a ha
      rw [hpres a (hmem_conv a ha),
        hframe a (Nat.ne_of_lt (isList_mem_lt h (List.mem_cons_of_mem _ ha)))]
    · show valueOf _ w.nextAddr :: copies2.map _ = valueOf w t :: (y :: yt).map (valueOf w)
      have hvn : valueOf (pushBackListLoop lid (yt.length + 1) y wI) w.nextAddr =
          valueOf w t := by
        rw [hpres w.nextAddr (by simp), hnewv]
      rw [hvn, hcop]
      congr 1
      show (y :: yt).map (valueOf wI) = (y :: yt).map (valueOf w)
      refine List.map_congr_left ?_
      intro a ha
      refine hframe a (Nat.ne_of_lt (isList_mem_lt h ?_))
      rcases List.mem_cons.mp ha with h1 | h1
      · rw [h1]
        exact List.mem_cons_of_mem _
          (List.mem_append_left _ (List.mem_append_right _ (by simp)))
      · exact List.mem_cons_of_mem _
          (List.mem_append_left _ (List.mem_append_right _ (by simp [h1])))

/-- `PushBackList(self)`: the value sequence is duplicated once, in order. -/
theorem pushBackList_self (w : World T) (lid : Nat) (as : List Addr)
    (h : IsList w lid as) :
    ∃ copies, IsList (pushBackList w lid lid) lid (as ++ copies) ∧
      frontAll (pushBackList w lid lid) lid =
        as.map (valueOf w) ++ as.map (valueOf w) ∧
      ((pushBackList w lid lid).lists lid).len = 2 * (w.lists lid).len := by
  have hpb : pushBackList w lid lid =
      pushBackListLoop lid (w.lists lid).len.toNat (nextOf w (w.lists lid).root) w := by
    unfold pushBackList
    rw [lazyInit_eq h]
  cases as with
  | nil =>
    refine ⟨[], ?_, ?_, ?_⟩
    · rw [hpb, h.2.2.1]
      show IsList (pushBackListLoop lid 0 _ w) lid []
      exact h
    · rw [hpb, h.2.2.1]
      show frontAll w lid = _
      rw [frontAll_eq h]
      rfl
    · rw [hpb, h.2.2.1]
      show (w.lists lid).len = 2 * ((([] : List Addr).length : Nat) : Int)
      rw [h.2.2.1]
      simp
  | cons a rest =>
    have hfuel : (w.lists lid).len.toNat = rest.length + 1 := by
      rw [h.2.2.1, Int.toNat_natCast]
      rfl
    have hcur : nextOf w (w.lists lid).root = a := by
      rw [isList_root_next h]
      rfl
    obtain ⟨copies2, hI2, hpres, hcop⟩ :=
      pushBackListLoop_self lid rest [] [] a w (by simpa using h)
    have hI2' : IsList (pushBackListLoop lid (rest.length + 1) a w) lid
        ((a :: rest) ++ copies2) := by simpa using hI2
    refine ⟨copies2, ?_, ?_, ?_⟩
    · rw [hpb, hfuel, hcur]
      exact hI2'
    · rw [hpb, hfuel, hcur, frontAll_eq hI2']
      rw [List.map_append]
      have h1 : (a :: rest).map (valueOf (pushBackListLoop lid (rest.length + 1) a w)) =
          (a :: rest).map (valueOf w) := by
        refine List.map_congr_left ?_
        intro x hx
        exact hpres x (by simpa using hx)
      rw [h1, hcop]
    · rw [hpb, hfuel, hcur, hI2'.2.2.1, h.2.2.1]
      have : copies2.length = rest.length + 1 := by
        have := congrArg List.length hcop
        simpa using this
      simp only [List.length_append, List.length_cons, this]
      push_cast
      ring

/-- Invariant of the `PushFrontList` self-append loop: the cursor walks the
original elements backwards while their copies accumulate at the front. -/
theorem pushFrontListLoop_self (lid : Nat) :
    ∀ (rest done copies : List Addr) (t : Addr) (w : World T),
      IsList w lid (copies ++ (rest ++ [t]) ++ done) →
      ∃ copies2,
        IsList (pushFrontListLoop lid (rest.length + 1) t w) lid
          (copies2 ++ (copies ++ (rest ++ [t]) ++ done)) ∧
        (∀ a ∈ copies ++ (rest ++ [t]) ++ done,
          valueOf (pushFrontListLoop lid (rest.length + 1) t w) a = valueOf w a) ∧
        copies2.map (valueOf (pushFrontListLoop lid (rest.length + 1) t w)) =
          (rest ++ [t]).map (valueOf w) := by
  intro rest
  induction rest using List.reverseRecOn with
  | nil =>
    intro done copies t w h
    have hw1 : pushFrontListLoop lid (([] : List Addr).length + 1) t w =
        (insertValue w lid (valueOf w t) (w.lists lid).root).2 := rfl
    have hI := insertValue_IsList w lid (valueOf w t) []
      (copies ++ ([] ++ [t]) ++ done) (by simpa using h)
    refine ⟨[w.nextAddr], ?_, ?_, ?_⟩
    · rw [hw1]
      simpa using hI
    · intro a ha
      rw [hw1, insertValue_valueOf,
        if_neg (Nat.ne_of_lt (isList_mem_lt h (List.mem_cons_of_mem _ ha)))]
    · rw [hw1]
      show [valueOf _ w.nextAddr] = [valueOf w t]
      rw [insertValue_valueOf, if_pos rfl]
  | append_singleton zs t2 ih =>
    intro done copies t w h
    have hlen : (zs ++ [t2]).length + 1 = zs.length + 1 + 1 := by simp
    set wI := (insertValue w lid (valueOf w t) (w.lists lid).root).2 with hwI
    have hw1 : pushFrontListLoop lid (zs.length + 1 + 1) t w =
        pushFrontListLoop lid (zs.length + 1) (elemPrev wI t) wI := rfl
    have hI : IsList wI lid
        (w.nextAddr :: (copies ++ ((zs ++ [t2]) ++ [t]) ++ done)) := by
      have := insertValue_IsList w lid (valueOf w t) []
        (copies ++ ((zs ++ [t2]) ++ [t]) ++ done) (by simpa using h)
      simpa using this
    have hframe : ∀ a, a ≠ w.nextAddr → valueOf wI a = valueOf w a := by
      intro a hane
      rw [hwI, insertValue_valueOf, if_neg hane]
    have hnewv : valueOf wI w.nextAddr = valueOf w t := by
      rw [hwI, insertValue_valueOf, if_pos rfl]
    have hI' : IsList wI lid
        ((w.nextAddr :: copies) ++ (zs ++ [t2]) ++ (t :: done)) := by
      have heq : w.nextAddr :: (copies ++ ((zs ++ [t2]) ++ [t]) ++ done) =
          (w.nextAddr :: copies) ++ (zs ++ [t2]) ++ (t :: done) := by simp
      rw [heq] at hI
      exact hI
    have hcur : elemPrev wI t = t2 := by
      have hpos : IsList wI lid
          ((w.nextAddr :: copies ++ zs ++ [t2]) ++ t :: done) := by
        have heq : (w.nextAddr :: copies) ++ (zs ++ [t2]) ++ (t :: done) =
            (w.nextAddr :: copies ++ zs ++ [t2]) ++ t :: done := by simp
        rw [heq] at hI'
        exact hI'
      rw [elemPrev_member hpos]
      exact List.getLastD_concat 0 t2 (w.nextAddr :: (copies ++ zs))
    obtain ⟨copies2, hI2, hpres, hcop⟩ := ih (t :: done) (w.nextAddr :: copies) t2 wI hI'
    rw [hlen, hw1, hcur]
    have hmem_conv : ∀ a, a ∈ copies ++ ((zs ++ [t2]) ++ [t]) ++ done →
        a ∈ (w.nextAddr :: copies) ++ (zs ++ [t2]) ++ (t :: done) := by
      intro a ha
      have : a ∈ w.nextAddr :: (copies ++ ((zs ++ [t2]) ++ [t]) ++ done) :=
        List.mem_cons_of_mem _ ha
      have heq : w.nextAddr :: (copies ++ ((zs ++ [t2]) ++ [t]) ++ done) =
          (w.nextAddr :: copies) ++ (zs ++ [t2]) ++ (t :: done) := by simp
      rw [heq] at this
      exact this
    refine ⟨copies2 ++ [w.nextAddr], ?_, ?_, ?_⟩
    · have heq : copies2 ++ ((w.nextAddr :: copies) ++ (zs ++ [t2]) ++ (t :: done)) =
          (copies2 ++ [w.nextAddr]) ++ (copies ++ ((zs ++ [t2]) ++ [t]) ++ done) := by
        simp
      rw [heq] at hI2
      exact hI2
    · intro a ha
      rw [hpres a (hmem_conv a ha),
        hframe a (Nat.ne_of_lt (isList_mem_lt h (List.mem_cons_of_mem _ ha)))]
    · rw [List.map_append, hcop]
      have hvn : valueOf (pushFrontListLoop lid (zs.length + 1) t2 wI) w.nextAddr =
          valueOf w t := by
        rw [hpres w.nextAddr (by simp), hnewv]
      show (zs ++ [t2]).map (valueOf wI) ++ [valueOf _ w.nextAddr] = _
      rw [hvn]
      have hmz : (zs ++ [t2]).map (valueOf wI) = (zs ++ [t2]).map (valueOf w) := by
        refine List.map_congr_left ?_
        intro a ha
        refine hframe a (Nat.ne_of_lt (isList_mem_lt h ?_))
        exact List.mem_cons_of_mem _
          (List.mem_append_left _ (List.mem_append_right _ (List.mem_append_left _ ha)))
      rw [hmz]
      simp

/-- `PushFrontList(self)`: the value sequence is duplicated once, in order. -/
theorem pushFrontList_self (w : World T) (lid : Nat) (as : List Addr)
    (h : IsList w lid as) :
    ∃ copies, IsList (pushFrontList w lid lid) lid (copies ++ as) ∧
      frontAll (pushFrontList w lid lid) lid =
        as.map (valueOf w) ++ as.map (valueOf w) ∧
      ((pushFrontList w lid lid).lists lid).len = 2 * (w.lists lid).len := by
  have hpf : pushFrontList w lid lid =
      pushFrontListLoop lid (w.lists lid).len.toNat (prevOf w (w.lists lid).root) w := by
    unfold pushFrontList
    rw [lazyInit_eq h]
  rcases List.eq_nil_or_concat as with hnil | ⟨zs, t, hzs⟩
  · subst hnil
    refine ⟨[], ?_, ?_, ?_⟩
    · rw [hpf, h.2.2.1]
      show IsList (pushFrontListLoop lid 0 _ w) lid []
      exact h
    · rw [hpf, h.2.2.1]
      show frontAll w lid = _
      rw [frontAll_eq h]
      rfl
    · rw [hpf, h.2.2.1]
      show (w.lists lid).len = 2 * ((([] : List Addr).length : Nat) : Int)
      rw [h.2.2.1]
      simp
  · have hzs' : as = zs ++ [t] := by simpa using hzs
    subst hzs'
    have hfuel : (w.lists lid).len.toNat = zs.length + 1 := by
      rw [h.2.2.1, Int.toNat_natCast]
      simp
    have hcur : prevOf w (w.lists lid).root = t := by
      rw [isList_root_prev h]
      have heq : ((w.lists lid).root :: (zs ++ [t])) =
          ((w.lists lid).root :: zs) ++ [t] := by simp
      rw [List.getLast_congr _ _ heq, List.getLast_concat]
    obtain ⟨copies2, hI2, hpres, hcop⟩ :=
      pushFrontListLoop_self lid zs [] [] t w (by simpa using h)
    have hI2' : IsList (pushFrontListLoop lid (zs.length + 1) t w) lid
        (copies2 ++ (zs ++ [t])) := by simpa using hI2
    refine ⟨copies2, ?_, ?_, ?_⟩
    · rw [hpf, hfuel, hcur]
      exact hI2'
    · rw [hpf, hfuel, hcur, frontAll_eq hI2']
      rw [List.map_append]
      have h1 : (zs ++ [t]).map (valueOf (pushFrontListLoop lid (zs.length + 1) t w)) =
          (zs ++ [t]).map (valueOf w) := by
        refine List.map_congr_left ?_
        intro x hx
        exact hpres x (by simpa using hx)
      rw [h1, hcop]
    · rw [hpf, hfuel, hcur, hI2'.2.2.1, h.2.2.1]
      have : copies2.length = zs.length + 1 := by
        have := congrArg List.length hcop
        simpa using this
      simp only [List.length_append, List.length_cons, List.length_nil, this]
      push_cast
      ring

/-- Addresses of distinct well-formed lists (including their sentinels with
distinct roots) never coincide. -/
theorem rings_disjoint {w : World T} {lid lo : Nat} {as bs : List Addr}
    (hA : IsList w lid as) (hB : IsList w lo bs) (hlne : lid ≠ lo)
    (hroots : (w.lists lid).root ≠ (w.lists lo).root) :
    ∀ a ∈ (w.lists lo).root :: bs, ∀ b ∈ (w.lists lid).root :: as, a ≠ b := by
  intro a ha b hb hc
  rcases List.mem_cons.mp ha with h1 | h1 <;> rcases List.mem_cons.mp hb with h2 | h2
  · exact hroots (by rw [← h1, ← h2, hc])
  · have hla : listOf w a = 0 := by rw [h1]; exact hB.2.2.2.2.2.1
    have hlb : listOf w b = lid := hA.2.2.2.2.1 _ h2
    rw [hc] at hla
    exact hA.2.2.2.2.2.2.1 (by rw [← hlb, hla])
  · have hla : listOf w a = lo := hB.2.2.2.2.1 _ h1
    have hlb : listOf w b = 0 := by rw [h2]; exact hA.2.2.2.2.2.1
    rw [hc] at hla
    exact hB.2.2.2.2.2.2.1 (by rw [← hla, hlb])
  · have hla : listOf w a = lo := hB.2.2.2.2.1 _ h1
    have hlb : listOf w b = lid := hA.2.2.2.2.1 _ h2
    rw [hc] at hla
    exact hlne (by rw [← hlb, ← hla])

/-- Invariant of the `PushBackList` loop over a distinct source list: the
cursor walks the other list, which is never modified, while copies of its
values accumulate at the back of this list. -/
theorem pushBackListLoop_other (lid lo : Nat) (hlne : lid ≠ lo) :
    ∀ (todo done : List Addr) (t : Addr) (w : World T) (as : List Addr),
      IsList w lid as → IsList w lo (done ++ t :: todo) →
      (w.lists lid).root ≠ (w.lists lo).root →
      ∃ copies,
        IsList (pushBackListLoop lid (todo.length + 1) t w) lid (as ++ copies) ∧
        (∀ a ∈ (w.lists lo).root :: (done ++ t :: todo),
          (pushBackListLoop lid (todo.length + 1) t w).heap a = w.heap a) ∧
        (pushBackListLoop lid (todo.length + 1) t w).lists lo = w.lists lo ∧
        (∀ a ∈ as, valueOf (pushBackListLoop lid (todo.length + 1) t w) a = valueOf w a) ∧
        copies.map (valueOf (pushBackListLoop lid (todo.length + 1) t w)) =
          (t :: todo).map (valueOf w) ∧
        IsList (pushBackListLoop lid (todo.length + 1) t w) lo (done ++ t :: todo) := by
  intro todo
  induction todo with
  | nil =>
    intro done t w as hA hB hroots
    have hw1 : pushBackListLoop lid (([] : List Addr).length + 1) t w =
        (insertValue w lid (valueOf w t) (prevOf w (w.lists lid).root)).2 := rfl
    have harg : prevOf w (w.lists lid).root =
        (((w.lists lid).root :: as)).getLast (by simp) := isList_root_prev hA
    have hat_mem : prevOf w (w.lists lid).root ∈ (w.lists lid).root :: as := by
      rw [harg]; exact List.getLast_mem _
    have hnxt : nextOf w (prevOf w (w.lists lid).root) = (w.lists lid).root := by
      rw [harg]
      have hn : List.Chain' (NextRel w)
          ((w.lists lid).root :: (as ++ []) ++ [(w.lists lid).root]) := by
        simpa using hA.1
      simpa using next_at_split hn
    have hdisj := rings_disjoint hA hB hlne hroots
    have hOheap : ∀ a ∈ (w.lists lo).root :: (done ++ t :: []),
        (insertValue w lid (valueOf w t) (prevOf w (w.lists lid).root)).2.heap a =
          w.heap a := by
      intro a ha
      refine insertValue_heap w lid _ _ a ?_ ?_ ?_ ?_
      · rw [harg]
        exact Nat.ne_of_lt (isList_mem_lt hA (by rw [← harg]; exact hat_mem))
      · rcases List.mem_cons.mp ha with h1 | h1
        · rw [h1]
          exact Nat.ne_of_lt (isList_mem_lt hB (List.mem_cons_self _ _))
        · exact Nat.ne_of_lt (isList_mem_lt hB (List.mem_cons_of_mem _ h1))
      · exact hdisj _ ha _ hat_mem
      · rw [hnxt]
        exact hdisj _ ha _ (List.mem_cons_self _ _)
    have hI := insertValue_IsList w lid (valueOf w t) as [] (by simpa using hA)
    rw [← harg] at hI
    refine ⟨[w.nextAddr], ?_, ?_, ?_, ?_, ?_⟩
    · rw [hw1]
      simpa using hI
    · intro a ha
      rw [hw1]
      exact hOheap a ha
    · rw [hw1, insertValue_lists, if_neg (Ne.symm hlne)]
    · intro a ha
      rw [hw1, insertValue_valueOf,
        if_neg (Nat.ne_of_lt (isList_mem_lt hA (List.mem_cons_of_mem _ ha)))]
    · rw [hw1]
      constructor
      · show [valueOf _ w.nextAddr] = [valueOf w t]
        rw [insertValue_valueOf, if_pos rfl]
      · refine isList_frame hB hOheap ?_ ?_ ?_
        · rw [insertValue_lists, if_neg (Ne.symm hlne)]
        · rw [insertValue_nextAddr]
          exact Nat.le_succ _
        · rw [insertValue_nextList]
  | cons y yt ih =>
    intro done t w as hA hB hroots
    set wI := (insertValue w lid (valueOf w t) (prevOf w (w.lists lid).root)).2 with hwI
    have hw1 : pushBackListLoop lid ((y :: yt).length + 1) t w =
        pushBackListLoop lid (yt.length + 1) (elemNext wI t) wI := rfl
    have harg : prevOf w (w.lists lid).root =
        (((w.lists lid).root :: as)).getLast (by simp) := isList_root_prev hA
    have hat_mem : prevOf w (w.lists lid).root ∈ (w.lists lid).root :: as := by
      rw [harg]; exact List.getLast_mem _
    have hnxt : nextOf w (prevOf w (w.lists lid).root) = (w.lists lid).root := by
      rw [harg]
      have hn : List.Chain' (NextRel w)
          ((w.lists lid).root :: (as ++ []) ++ [(w.lists lid).root]) := by
        simpa using hA.1
      simpa using next_at_split hn
    have hdisj := rings_disjoint hA hB hlne hroots
    have hOheap : ∀ a ∈ (w.lists lo).root :: (done ++ t :: y :: yt),
        wI.heap a = w.heap a := by
      intro a ha
      refine insertValue_heap w lid _ _ a ?_ ?_ ?_ ?_
      · rw [harg]
        exact Nat.ne_of_lt (isList_mem_lt hA (by rw [← harg]; exact hat_mem))
      · rcases List.mem_cons.mp ha with h1 | h1
        · rw [h1]
          exact Nat.ne_of_lt (isList_mem_lt hB (List.mem_cons_self _ _))
        · exact Nat.ne_of_lt (isList_mem_lt hB (List.mem_cons_of_mem _ h1))
      · exact hdisj _ ha _ hat_mem
      · rw [hnxt]
        exact hdisj _ ha _ (List.mem_cons_self _ _)
    have hOlists : wI.lists lo = w.lists lo := by
      rw [hwI, insertValue_lists, if_neg (Ne.symm hlne)]
    have hIA : IsList wI lid (as ++ [w.nextAddr]) := by
      have := insertValue_IsList w lid (valueOf w t) as [] (by simpa using hA)
      rw [← harg] at this
      simpa using this
    have hIB : IsList wI lo (done ++ t :: y :: yt) := by
      refine isList_frame hB hOheap hOlists ?_ ?_
      · rw [hwI, insertValue_nextAddr]
        exact Nat.le_succ _
      · rw [hwI, insertValue_nextList]
    have hcur : elemNext wI t = y := by
      have := elemNext_member hIB
      rw [this]
      rfl
    have hroots2 : (wI.lists lid).root ≠ (wI.lists lo).root := by
      have h1 : (wI.lists lid).root = (w.lists lid).root := by
        rw [hwI, insertValue_lists, if_pos rfl]
      rw [h1, hOlists]
      exact hroots
    have hIB' : IsList wI lo ((done ++ [t]) ++ y :: yt) := by simpa using hIB
    obtain ⟨copies, hI2, hOheap2, hOlists2, hvpres, hcop, hIBfin⟩ :=
      ih (done ++ [t]) y wI (as ++ [w.nextAddr]) hIA hIB' hroots2
    rw [hOlists] at hOheap2
    have hframe : ∀ a, a ≠ w.nextAddr → valueOf wI a = valueOf w a := by
      intro a hane
      rw [hwI, insertValue_valueOf, if_neg hane]
    have hmemo : ∀ a, a ∈ (w.lists lo).root :: (done ++ t :: y :: yt) →
        a ∈ (w.lists lo).root :: ((done ++ [t]) ++ y :: yt) := by
      intro a ha
      simpa using ha
    rw [hw1, hcur]
    refine ⟨w.nextAddr :: copies, ?_, ?_, ?_, ?_, ?_⟩
    · have heq : (as ++ [w.nextAddr]) ++ copies = as ++ w.nextAddr :: copies := by simp
      rw [heq] at hI2
      exact hI2
    · intro a ha
      rw [hOheap2 a (hmemo a ha)]
      exact hOheap a ha
    · rw [hOlists2]
      exact hOlists
    · intro a ha
      rw [hvpres a (List.mem_append_left _ ha),
        hframe a (Nat.ne_of_lt (isList_mem_lt hA (List.mem_cons_of_mem _ ha)))]
    · constructor
      · show valueOf _ w.nextAddr :: copies.map _ = valueOf w t :: (y :: yt).map (valueOf w)
        have hvn : valueOf (pushBackListLoop lid (yt.length + 1) y wI) w.nextAddr =
            valueOf w t := by
          rw [hvpres w.nextAddr (List.mem_append_right _ (by simp)), hwI,
            insertValue_valueOf, if_pos rfl]
        rw [hvn, hcop]
        have hmz : (y :: yt).map (valueOf wI) = (y :: yt).map (valueOf w) := by
          refine List.map_congr_left ?_
          intro a ha
          show valueOf wI a = valueOf w a
          unfold valueOf
          rw [hOheap a (List.mem_cons_of_mem _
            (List.mem_append_right _ (List.mem_cons_of_mem _ ha)))]
        rw [hmz]
      · simpa using hIBfin

/-- Invariant of the `PushFrontList` loop over a distinct source list. -/
theorem pushFrontListLoop_other (lid lo : Nat) (hlne : lid ≠ lo) :
    ∀ (rest done : List Addr) (t : Addr) (w : World T) (as : List Addr),
      IsList w lid as → IsList w lo (rest ++ [t] ++ done) →
      (w.lists lid).root ≠ (w.lists lo).root →
      ∃ copies,
        IsList (pushFrontListLoop lid (rest.length + 1) t w) lid (copies ++ as) ∧
        (∀ a ∈ (w.lists lo).root :: (rest ++ [t] ++ done),
          (pushFrontListLoop lid (rest.length + 1) t w).heap a = w.heap a) ∧
        (pushFrontListLoop lid (rest.length + 1) t w).lists lo = w.lists lo ∧
        (∀ a ∈ as, valueOf (pushFrontListLoop lid (rest.length + 1) t w) a = valueOf w a) ∧
        copies.map (valueOf (pushFrontListLoop lid (rest.length + 1) t w)) =
          (rest ++ [t]).map (valueOf w) ∧
        IsList (pushFrontListLoop lid (rest.length + 1) t w) lo (rest ++ [t] ++ done) := by
  intro rest
  induction rest using List.reverseRecOn with
  | nil =>
    intro done t w as hA hB hroots
    have hw1 : pushFrontListLoop lid (([] : List Addr).length + 1) t w =
        (insertValue w lid (valueOf w t) (w.lists lid).root).2 := rfl
    have hnxt_mem : nextOf w (w.lists lid).root ∈ (w.lists lid).root :: as := by
      rw [isList_root_next hA]
      exact head_append_singleton_mem as (w.lists lid).root
    have hdisj := rings_disjoint hA hB hlne hroots
    have hOheap : ∀ a ∈ (w.lists lo).root :: ([] ++ [t] ++ done),
        (insertValue w lid (valueOf w t) (w.lists lid).root).2.heap a = w.heap a := by
      intro a ha
      refine insertValue_heap w lid _ _ a ?_ ?_ ?_ ?_
      · exact Nat.ne_of_lt (isList_mem_lt hA (List.mem_cons_self _ _))
      · rcases List.mem_cons.mp ha with h1 | h1
        · rw [h1]
          exact Nat.ne_of_lt (isList_mem_lt hB (List.mem_cons_self _ _))
        · exact Nat.ne_of_lt (isList_mem_lt hB (List.mem_cons_of_mem _ h1))
      · exact hdisj _ ha _ (List.mem_cons_self _ _)
      · exact hdisj _ ha _ hnxt_mem
    have hI : IsList (insertValue w lid (valueOf w t) (w.lists lid).root).2 lid
        (w.nextAddr :: as) := by
      have := insertValue_IsList w lid (valueOf w t) [] as hA
      simpa using this
    refine ⟨[w.nextAddr], ?_, ?_, ?_, ?_, ?_, ?_⟩
    · rw [hw1]
      simpa using hI
    · intro a ha
      rw [hw1]
      exact hOheap a ha
    · rw [hw1, insertValue_lists, if_neg (Ne.symm hlne)]
    · intro a ha
      rw [hw1, insertValue_valueOf,
        if_neg (Nat.ne_of_lt (isList_mem_lt hA (List.mem_cons_of_mem _ ha)))]
    · rw [hw1]
      show [valueOf _ w.nextAddr] = [valueOf w t]
      rw [insertValue_valueOf, if_pos rfl]
    · rw [hw1]
      refine isList_frame hB hOheap ?_ ?_ ?_
      · rw [insertValue_lists, if_neg (Ne.symm hlne)]
      · rw [insertValue_nextAddr]
        exact Nat.le_succ _
      · rw [insertValue_nextList]
  | append_singleton zs t2 ih =>
    intro done t w as hA hB hroots
    have hlen : (zs ++ [t2]).length + 1 = zs.length + 1 + 1 := by simp
    set wI := (insertValue w lid (valueOf w t) (w.lists lid).root).2 with hwI
    have hw1 : pushFrontListLoop lid (zs.length + 1 + 1) t w =
        pushFrontListLoop lid (zs.length + 1) (elemPrev wI t) wI := rfl
    have hnxt_mem : nextOf w (w.lists lid).root ∈ (w.lists lid).root :: as := by
      rw [isList_root_next hA]
      exact head_append_singleton_mem as (w.lists lid).root
    have hdisj := rings_disjoint hA hB hlne hroots
    have hOheap : ∀ a ∈ (w.lists lo).root :: ((zs ++ [t2]) ++ [t] ++ done),
        wI.heap a = w.heap a := by
      intro a ha
      refine insertValue_heap w lid _ _ a ?_ ?_ ?_ ?_
      · exact Nat.ne_of_lt (isList_mem_lt hA (List.mem_cons_self _ _))
      · rcases List.mem_cons.mp ha with h1 | h1
        · rw [h1]
          exact Nat.ne_of_lt (isList_mem_lt hB (List.mem_cons_self _ _))
        · exact Nat.ne_of_lt (isList_mem_lt hB (List.mem_cons_of_mem _ h1))
      · exact hdisj _ ha _ (List.mem_cons_self _ _)
      · exact hdisj _ ha _ hnxt_mem
    have hOlists : wI.lists lo = w.lists lo := by
      rw [hwI, insertValue_lists, if_neg (Ne.symm hlne)]
    have hIA : IsList wI lid (w.nextAddr :: as) := by
      have := insertValue_IsList w lid (valueOf w t) [] as hA
      simpa using this
    have hIB : IsList wI lo ((zs ++ [t2]) ++ [t] ++ done) := by
      refine isList_frame hB hOheap hOlists ?_ ?_
      · rw [hwI, insertValue_nextAddr]
        exact Nat.le_succ _
      · rw [hwI, insertValue_nextList]
    have hcur : elemPrev wI t = t2 := by
      have hIB2 : IsList wI lo ((zs ++ [t2]) ++ t :: done) := by simpa using hIB
      rw [elemPrev_member hIB2]
      exact List.getLastD_concat 0 t2 zs
    have hroots2 : (wI.lists lid).root ≠ (wI.lists lo).root := by
      have h1 : (wI.lists lid).root = (w.lists lid).root := by
        rw [hwI, insertValue_lists, if_pos rfl]
      rw [h1, hOlists]
      exact hroots
    have hIB' : IsList wI lo (zs ++ [t2] ++ (t :: done)) := by simpa using hIB
    obtain ⟨copies, hI2, hOheap2, hOlists2, hvpres, hcop, hIBfin⟩ :=
      ih (t :: done) t2 wI (w.nextAddr :: as) hIA hIB' hroots2
    rw [hOlists] at hOheap2
    have hmemo : ∀ a, a ∈ (w.lists lo).root :: ((zs ++ [t2]) ++ [t] ++ done) →
        a ∈ (w.lists lo).root :: (zs ++ [t2] ++ (t :: done)) := by
      intro a ha
      simpa using ha
    rw [hlen, hw1, hcur]
    refine ⟨copies ++ [w.nextAddr], ?_, ?_, ?_, ?_, ?_, ?_⟩
    · have heq : copies ++ (w.nextAddr :: as) = (copies ++ [w.nextAddr]) ++ as := by simp
      rw [heq] at hI2
      exact hI2
    · intro a ha
      rw [hOheap2 a (hmemo a ha)]
      exact hOheap a ha
    · rw [hOlists2]
      exact hOlists
    · intro a ha
      have h1 := hvpres a (List.mem_cons_of_mem _ ha)
      rw [h1, hwI, insertValue_valueOf,
        if_neg (Nat.ne_of_lt (isList_mem_lt hA (List.mem_cons_of_mem _ ha)))]
    · rw [List.map_append, hcop]
      have hvn : valueOf (pushFrontListLoop lid (zs.length + 1) t2 wI) w.nextAddr =
          valueOf w t := by
        rw [hvpres w.nextAddr (List.mem_cons_self _ _), hwI,
          insertValue_valueOf, if_pos rfl]
      show (zs ++ [t2]).map (valueOf wI) ++ [valueOf _ w.nextAddr] = _
      rw [hvn]
      have hmz : (zs ++ [t2]).map (valueOf wI) = (zs ++ [t2]).map (valueOf w) := by
        refine List.map_congr_left ?_
        intro a ha
        show valueOf wI a = valueOf w a
        unfold valueOf
        rw [hOheap a (List.mem_cons_of_mem _
          (List.mem_append_left _ (List.mem_append_left _ ha)))]
      rw [hmz]
      simp
    · have := hIBfin
      simpa using this

/-- `PushBackList(other)` for distinct lists: copies `other`'s values in
order to the back and leaves `other` unchanged. -/
theorem pushBackList_other (w : World T) (lid lo : Nat) (as bs : List Addr)
    (hlne : lid ≠ lo) (hA : IsList w lid as) (hB : IsList w lo bs)
    (hroots : (w.lists lid).root ≠ (w.lists lo).root) :
    ∃ copies, IsList (pushBackList w lid lo) lid (as ++ copies) ∧
      frontAll (pushBackList w lid lo) lid =
        as.map (valueOf w) ++ bs.map (valueOf w) ∧
      IsList (pushBackList w lid lo) lo bs ∧
      frontAll (pushBackList w lid lo) lo = bs.map (valueOf w) := by
  have hpb : pushBackList w lid lo =
      pushBackListLoop lid (w.lists lo).len.toNat (nextOf w (w.lists lo).root) w := by
    unfold pushBackList
    rw [lazyInit_eq hA]
  cases bs with
  | nil =>
    rw [hpb, hB.2.2.1]
    show ∃ copies, IsList w lid (as ++ copies) ∧ frontAll w lid = _ ∧
      IsList w lo [] ∧ frontAll w lo = _
    refine ⟨[], by simpa using hA, ?_, hB, ?_⟩
    · rw [frontAll_eq hA]
      simp
    · rw [frontAll_eq hB]
  | cons b rest =>
    have hfuel : (w.lists lo).len.toNat = rest.length + 1 := by
      rw [hB.2.2.1, Int.toNat_natCast]
      rfl
    have hcur : nextOf w (w.lists lo).root = b := by
      rw [isList_root_next hB]
      rfl
    obtain ⟨copies, hI, hOheap, hOlists, hvpres, hcop, hIB2⟩ :=
      pushBackListLoop_other lid lo hlne rest [] b w as hA (by simpa using hB) hroots
    have hIB2' : IsList (pushBackListLoop lid (rest.length + 1) b w) lo (b :: rest) := by
      simpa using hIB2
    refine ⟨copies, ?_, ?_, ?_, ?_⟩
    · rw [hpb, hfuel, hcur]
      exact hI
    · rw [hpb, hfuel, hcur, frontAll_eq hI, List.map_append]
      have h1 : as.map (valueOf (pushBackListLoop lid (rest.length + 1) b w)) =
          as.map (valueOf w) := List.map_congr_left hvpres
      rw [h1, hcop]
    · rw [hpb, hfuel, hcur]
      exact hIB2'
    · rw [hpb, hfuel, hcur, frontAll_eq hIB2']
      refine List.map_congr_left ?_
      intro a ha
      show valueOf _ a = valueOf w a
      unfold valueOf
      rw [hOheap a (by simpa using List.mem_cons_of_mem (w.lists lo).root ha)]

/-- `PushFrontList(other)` for distinct lists: copies `other`'s values in
order to the front and leaves `other` unchanged. -/
theorem pushFrontList_other (w : World T) (lid lo : Nat) (as bs : List Addr)
    (hlne : lid ≠ lo) (hA : IsList w lid as) (hB : IsList w lo bs)
    (hroots : (w.lists lid).root ≠ (w.lists lo).root) :
    ∃ copies, IsList (pushFrontList w lid lo) lid (copies ++ as) ∧
      frontAll (pushFrontList w lid lo) lid =
        bs.map (valueOf w) ++ as.map (valueOf w) ∧
      IsList (pushFrontList w lid lo) lo bs ∧
      frontAll (pushFrontList w lid lo) lo = bs.map (valueOf w) := by
  have hpf : pushFrontList w lid lo =
      pushFrontListLoop lid (w.lists lo).len.toNat (prevOf w (w.lists lo).root) w := by
    unfold pushFrontList
    rw [lazyInit_eq hA]
  rcases List.eq_nil_or_concat bs with hnil | ⟨zs, t, hzs⟩
  · subst hnil
    rw [hpf, hB.2.2.1]
    show ∃ copies, IsList w lid (copies ++ as) ∧ frontAll w lid = _ ∧
      IsList w lo [] ∧ frontAll w lo = _
    refine ⟨[], by simpa using hA, ?_, hB, ?_⟩
    · rw [frontAll_eq hA]
      simp
    · rw [frontAll_eq hB]
  · have hzs' : bs = zs ++ [t] := by simpa using hzs
    subst hzs'
    have hfuel : (w.lists lo).len.toNat = zs.length + 1 := by
      rw [hB.2.2.1, Int.toNat_natCast]
      simp
    have hcur : prevOf w (w.lists lo).root = t := by
      rw [isList_root_prev hB]
      have heq : ((w.lists lo).root :: (zs ++ [t])) =
          ((w.lists lo).root :: zs) ++ [t] := by simp
      rw [List.getLast_congr _ _ heq, List.getLast_concat]
    obtain ⟨copies, hI, hOheap, hOlists, hvpres, hcop, hIB2⟩ :=
      pushFrontListLoop_other lid lo hlne zs [] t w as hA (by simpa using hB) hroots
    have hIB2' : IsList (pushFrontListLoop lid (zs.length + 1) t w) lo (zs ++ [t]) := by
      simpa using hIB2
    refine ⟨copies, ?_, ?_, ?_, ?_⟩
    · rw [hpf, hfuel, hcur]
      exact hI
    · rw [hpf, hfuel, hcur, frontAll_eq hI, List.map_append]
      have h1 : as.map (valueOf (pushFrontListLoop lid (zs.length + 1) t w)) =
          as.map (valueOf w) := List.map_congr_left hvpres
      rw [h1, hcop]
    · rw [hpf, hfuel, hcur]
      exact hIB2'
    · rw [hpf, hfuel, hcur, frontAll_eq hIB2']
      refine List.map_congr_left ?_
      intro a ha
      show valueOf _ a = valueOf w a
      unfold valueOf
      rw [hOheap a (by simpa using List.mem_cons_of_mem (w.lists lo).root ha)]

/-! ### Iterating `Element.Next` from a handle (caller-side traversal) -/

/-- `k`-fold application of `Element.Next`, as a caller chasing handles. -/
def nextIter (w : World T) : Nat → Addr → Addr
  | 0, a => a
  | n + 1, a => nextIter w n (elemNext w a)

theorem nextIter_spec (w : World T) (lid : Nat) :
    ∀ (suf pre : List Addr) (m : Addr), IsList w lid (pre ++ m :: suf) →
      (∀ k, k ≤ suf.length → nextIter w k m = (m :: suf).getD k 0) ∧
        nextIter w (suf.length + 1) m = 0 := by
  intro suf
  induction suf with
  | nil =>
    intro pre m h
    constructor
    · intro k hk
      have hk0 : k = 0 := Nat.le_zero.mp (by simpa using hk)
      rw [hk0]
      rfl
    · show nextIter w 0 (elemNext w m) = 0
      rw [elemNext_member h]
      rfl
  | cons y yt ih =>
    intro pre m h
    have h' : IsList w lid ((pre ++ [m]) ++ y :: yt) := by simpa using h
    have hstep : elemNext w m = y := by
      rw [elemNext_member h]
      rfl
    obtain ⟨ihk, ihz⟩ := ih (pre ++ [m]) y h'
    constructor
    · intro k hk
      cases k with
      | zero => rfl
      | succ k2 =>
        show nextIter w k2 (elemNext w m) = _
        rw [hstep]
        have hk2 : k2 ≤ yt.length := by
          simpa using Nat.lt_succ_iff.mp (Nat.lt_of_lt_of_le (Nat.lt_succ_self k2) hk)
        rw [ihk k2 hk2]
        rfl
    · show nextIter w (yt.length + 1) (elemNext w m) = 0
      rw [hstep]
      exact ihz

/-! ### Walking the raw `next` pointers until the sentinel -/

/-- Collect nodes by following raw `next` pointers until `stop` (or fuel
exhaustion): the "number of nodes reached by walking `next` from `root.next`
until the sentinel" of the `len` invariant. -/
def walkAddrs (w : World T) (stop : Addr) : Nat → Addr → List Addr
  | 0, _ => []
  | n + 1, a => if a = stop then [] else a :: walkAddrs w stop n (nextOf w a)

theorem walkAddrs_core (w : World T) (lid : Nat) :
    ∀ (suf pre : List Addr), IsList w lid (pre ++ suf) →
      ∀ fuel, suf.length ≤ fuel →
        walkAddrs w (w.lists lid).root fuel
          ((suf ++ [(w.lists lid).root]).head (by simp)) = suf := by
  intro suf
  induction suf with
  | nil =>
    intro pre h fuel hfuel
    cases fuel with
    | zero => rfl
    | succ f =>
      show walkAddrs w _ (f + 1) (w.lists lid).root = []
      unfold walkAddrs
      rw [if_pos rfl]
  | cons m rest ih =>
    intro pre h fuel hfuel
    cases fuel with
    | zero => exact absurd hfuel (by simp)
    | succ f =>
      show walkAddrs w _ (f + 1) m = m :: rest
      unfold walkAddrs
      have hnm : nextOf w m = (rest ++ [(w.lists lid).root]).head (by simp) :=
        isList_next_of_member h
      rw [if_neg, hnm]
      · have h' : IsList w lid ((pre ++ [m]) ++ rest) := by simpa using h
        rw [ih (pre ++ [m]) h' f (by simpa using Nat.succ_le_succ_iff.mp hfuel)]
      · intro hc
        exact isList_root_not_mem h (by rw [← hc]; simp)

/-- The members of a list, recovered from the heap by walking `len` steps
from `root.next`. Used to state handle validity computably. -/
def ringAddrs (w : World T) (lid : Nat) : List Addr :=
  walkAddrs w (w.lists lid).root (w.lists lid).len.toNat (nextOf w (w.lists lid).root)

theorem ringAddrs_eq {w : World T} {lid : Nat} {as : List Addr}
    (h : IsList w lid as) : ringAddrs w lid = as := by
  unfold ringAddrs
  rw [isList_root_next h, h.2.2.1, Int.toNat_natCast]
  exact walkAddrs_core w lid as [] (by simpa using h) as.length (le_refl _)

/-- Walking until the sentinel visits exactly the members, for any
sufficient fuel. -/
theorem walkAddrs_of_isList {w : World T} {lid : Nat} {as : List Addr}
    (h : IsList w lid as) (fuel : Nat) (hfuel : as.length ≤ fuel) :
    walkAddrs w (w.lists lid).root fuel (nextOf w (w.lists lid).root) = as := by
  rw [isList_root_next h]
  exact walkAddrs_core w lid as [] (by simpa using h) fuel hfuel

/-! ### The public operations as a transition system -/

/-- The public mutating operations of `List[T]` (glist.go), with their
arguments: pushes, pops, positional inserts, moves, removal by value,
clear, and bulk appends. -/
inductive Op (T : Type) where
  | pushBack (v : T)
  | pushFront (v : T)
  | popBack
  | popFront
  | insertBefore (mark : Addr) (v : T)
  | insertAfter (mark : Addr) (v : T)
  | moveToFront (e : Addr)
  | moveToBack (e : Addr)
  | moveBefore (e mark : Addr)
  | moveAfter (e mark : Addr)
  | remove (values : List T)
  | clear
  | pushBackList (other : Nat)
  | pushFrontList (other : Nat)
deriving DecidableEq

/-- Run one public operation on list `lid`. -/
def applyOp [DecidableEq T] [Inhabited T] (w : World T) (lid : Nat) : Op T → World T
  | .pushBack v => (pushBack w lid v).2
  | .pushFront v => (pushFront w lid v).2
  | .popBack => (popBack w lid).2
  | .popFront => (popFront w lid).2
  | .insertBefore mark v => (insertBefore w lid mark v).2
  | .insertAfter mark v => (insertAfter w lid mark v).2
  | .moveToFront e => moveToFront w lid e
  | .moveToBack e => moveToBack w lid e
  | .moveBefore e mark => moveBefore w lid e mark
  | .moveAfter e mark => moveAfter w lid e mark
  | .remove values => (removeValues w lid values).2
  | .clear => clear w lid
  | .pushBackList other => pushBackList w lid other
  | .pushFrontList other => pushFrontList w lid other

/-- Run a sequence of public operations. -/
def applyOps [DecidableEq T] [Inhabited T] (w : World T) (lid : Nat) :
    List (Op T) → World T
  | [] => w
  | op :: rest => applyOps (applyOp w lid op) lid rest

/-- Handle validity: a handle whose back reference claims this list must be
a current member (handles of other lists, fresh handles and handles detached
by `remove` are always fine; only handles invalidated by `Clear` violate it). -/
def HandleOk (w : World T) (lid : Nat) (a : Addr) : Prop :=
  listOf w a = lid → a ∈ ringAddrs w lid

/-- Argument validity of one operation: every element-handle argument must
satisfy `HandleOk`. -/
def ArgsOk (w : World T) (lid : Nat) : Op T → Prop
  | .insertBefore mark _ => HandleOk w lid mark
  | .insertAfter mark _ => HandleOk w lid mark
  | .moveToFront e => HandleOk w lid e
  | .moveToBack e => HandleOk w lid e
  | .moveBefore e mark => HandleOk w lid e ∧ HandleOk w lid mark
  | .moveAfter e mark => HandleOk w lid e ∧ HandleOk w lid mark
  | _ => True

/-- Validity of a whole operation sequence, checked state by state. -/
def ValidSeq [DecidableEq T] [Inhabited T] (w : World T) (lid : Nat) :
    List (Op T) → Prop
  | [] => True
  | op :: rest => ArgsOk w lid op ∧ ValidSeq (applyOp w lid op) lid rest

instance (w : World T) (lid : Nat) (a : Addr) : Decidable (HandleOk w lid a) :=
  inferInstanceAs (Decidable (listOf w a = lid → a ∈ ringAddrs w lid))

instance (w : World T) (lid : Nat) : (op : Op T) → Decidable (ArgsOk w lid op)
  | .pushBack _ => inferInstanceAs (Decidable True)
  | .pushFront _ => inferInstanceAs (Decidable True)
  | .popBack => inferInstanceAs (Decidable True)
  | .popFront => inferInstanceAs (Decidable True)
  | .insertBefore mark _ => inferInstanceAs (Decidable (HandleOk w lid mark))
  | .insertAfter mark _ => inferInstanceAs (Decidable (HandleOk w lid mark))
  | .moveToFront e => inferInstanceAs (Decidable (HandleOk w lid e))
  | .moveToBack e => inferInstanceAs (Decidable (HandleOk w lid e))
  | .moveBefore e mark =>
    inferInstanceAs (Decidable (HandleOk w lid e ∧ HandleOk w lid mark))
  | .moveAfter e mark =>
    inferInstanceAs (Decidable (HandleOk w lid e ∧ HandleOk w lid mark))
  | .remove _ => inferInstanceAs (Decidable True)
  | .clear => inferInstanceAs (Decidable True)
  | .pushBackList _ => inferInstanceAs (Decidable True)
  | .pushFrontList _ => inferInstanceAs (Decidable True)

instance instDecValidSeq [DecidableEq T] [Inhabited T] (lid : Nat) :
    ∀ (ops : List (Op T)) (w : World T), Decidable (ValidSeq w lid ops)
  | [], _ => isTrue trivial
  | op :: rest, w =>
    haveI := instDecValidSeq lid rest (applyOp w lid op)
    decidable_of_iff (ArgsOk w lid op ∧ ValidSeq (applyOp w lid op) lid rest) Iff.rfl

/-- One valid operation keeps the list well-formed. -/
theorem applyOp_IsList [DecidableEq T] [Inhabited T] (w : World T) (lid : Nat)
    (as : List Addr) (op : Op T) (h : IsList w lid as) (hok : ArgsOk w lid op) :
    ∃ as', IsList (applyOp w lid op) lid as' := by
  cases op with
  | pushBack v => exact ⟨as ++ [w.nextAddr], (pushBack_IsList w lid v as h).2⟩
  | pushFront v => exact ⟨w.nextAddr :: as, (pushFront_IsList w lid v as h).2⟩
  | popBack => exact ⟨as.dropLast, popBack_IsList w lid as h⟩
  | popFront => exact ⟨as.tail, popFront_IsList w lid as h⟩
  | insertBefore mark v =>
    refine insertBefore_IsList w lid mark v as h ?_
    intro hl
    have := hok hl
    rwa [ringAddrs_eq h] at this
  | insertAfter mark v =>
    refine insertAfter_IsList w lid mark v as h ?_
    intro hl
    have := hok hl
    rwa [ringAddrs_eq h] at this
  | moveToFront e =>
    refine moveToFront_IsList w lid e as h ?_
    intro hl
    have := hok hl
    rwa [ringAddrs_eq h] at this
  | moveToBack e =>
    refine moveToBack_IsList w lid e as h ?_
    intro hl
    have := hok hl
    rwa [ringAddrs_eq h] at this
  | moveBefore e mark =>
    refine moveBefore_IsList w lid e mark as h ?_ ?_
    · intro hl
      have := hok.1 hl
      rwa [ringAddrs_eq h] at this
    · intro hl
      have := hok.2 hl
      rwa [ringAddrs_eq h] at this
  | moveAfter e mark =>
    refine moveAfter_IsList w lid e mark as h ?_ ?_
    · intro hl
      have := hok.1 hl
      rwa [ringAddrs_eq h] at this
    · intro hl
      have := hok.2 hl
      rwa [ringAddrs_eq h] at this
  | remove values => exact removeValues_IsList w lid values false as h
  | clear => exact ⟨[], clear_IsList w lid as h⟩
  | pushBackList other => exact pushBackList_any w lid other as h
  | pushFrontList other => exact pushFrontList_any w lid other as h

/-! ### Foreign handles: the positional operations' guards -/

theorem insertBefore_foreign (w : World T) (lid : Nat) (mark : Addr) (v : T)
    (h : listOf w mark ≠ lid) : insertBefore w lid mark v = (0, w) := by
  unfold insertBefore
  rw [if_pos h]

theorem insertAfter_foreign (w : World T) (lid : Nat) (mark : Addr) (v : T)
    (h : listOf w mark ≠ lid) : insertAfter w lid mark v = (0, w) := by
  unfold insertAfter
  rw [if_pos h]

theorem moveToFront_foreign (w : World T) (lid : Nat) (e : Addr)
    (h : listOf w e ≠ lid) : moveToFront w lid e = w := by
  unfold moveToFront
  rw [if_pos (Or.inl h)]

theorem moveToBack_foreign (w : World T) (lid : Nat) (e : Addr)
    (h : listOf w e ≠ lid) : moveToBack w lid e = w := by
  unfold moveToBack
  rw [if_pos (Or.inl h)]

theorem moveBefore_foreign (w : World T) (lid : Nat) (e mark : Addr)
    (h : listOf w e ≠ lid ∨ listOf w mark ≠ lid) : moveBefore w lid e mark = w := by
  unfold moveBefore
  rcases h with h | h
  · rw [if_pos (Or.inl h)]
  · rw [if_pos (Or.inr (Or.inr h))]

theorem moveAfter_foreign (w : World T) (lid : Nat) (e mark : Addr)
    (h : listOf w e ≠ lid ∨ listOf w mark ≠ lid) : moveAfter w lid e mark = w := by
  unfold moveAfter
  rcases h with h | h
  · rw [if_pos (Or.inl h)]
  · rw [if_pos (Or.inr (Or.inr h))]

/-- A handle that is a member of a different list has a back reference
differing from `lid`. -/
theorem member_of_other_list {w : World T} {lidA lidB : Nat} {bs : List Addr}
    {e : Addr} (hB : IsList w lidB bs) (he : e ∈ bs) (hne : lidB ≠ lidA) :
    listOf w e ≠ lidA := by
  rw [hB.2.2.2.2.1 _ he]
  exact hne

/-! ### Values after `PushBack`, and folded pushes (deserialization) -/

theorem pushBack_valueOf (w : World T) (lid : Nat) (v : T) (as : List Addr)
    (h : IsList w lid as) (a : Addr) :
    valueOf (pushBack w lid v).2 a = if a = w.nextAddr then v else valueOf w a := by
  unfold pushBack
  rw [lazyInit_eq h]
  show valueOf (insertValue w lid v (prevOf w (w.lists lid).root)).2 a = _
  rw [insertValue_valueOf]

theorem pushBack_nextAddr (w : World T) (lid : Nat) (v : T) (as : List Addr)
    (h : IsList w lid as) :
    (pushBack w lid v).2.nextAddr = w.nextAddr + 1 := by
  unfold pushBack
  rw [lazyInit_eq h]
  show (insertValue w lid v (prevOf w (w.lists lid).root)).2.nextAddr = _
  rw [insertValue_nextAddr]

/-- Pushing a sequence of values at the back (the `UnmarshalJSON` loop)
appends exactly those values, in order. -/
theorem pushBack_foldl (lid : Nat) :
    ∀ (vs : List T) (w : World T) (as : List Addr), IsList w lid as →
      ∃ as2, IsList (vs.foldl (fun w v => (pushBack w lid v).2) w) lid as2 ∧
        as2.map (valueOf (vs.foldl (fun w v => (pushBack w lid v).2) w)) =
          as.map (valueOf w) ++ vs := by
  intro vs
  induction vs with
  | nil => exact fun w as h => ⟨as, h, by simp⟩
  | cons v vt ih =>
    intro w as h
    simp only [List.foldl_cons]
    have h1 : IsList (pushBack w lid v).2 lid (as ++ [w.nextAddr]) :=
      (pushBack_IsList w lid v as h).2
    obtain ⟨as2, h2, hval⟩ := ih (pushBack w lid v).2 (as ++ [w.nextAddr]) h1
    refine ⟨as2, h2, ?_⟩
    rw [hval]
    have hmap : (as ++ [w.nextAddr]).map (valueOf (pushBack w lid v).2) =
        as.map (valueOf w) ++ [v] := by
      rw [List.map_append]
      have h3 : as.map (valueOf (pushBack w lid v).2) = as.map (valueOf w) := by
        refine List.map_congr_left ?_
        intro a ha
        rw [pushBack_valueOf w lid v as h a,
          if_neg (Nat.ne_of_lt (isList_mem_lt h (List.mem_cons_of_mem _ ha)))]
      rw [h3]
      have h4 : valueOf (pushBack w lid v).2 w.nextAddr = v := by
        rw [pushBack_valueOf w lid v as h w.nextAddr, if_pos rfl]
      simp [h4]
    rw [hmap]
    simp

/-! ### JSON serialization -/

/-- Modelled from the spec: the byte-level JSON codec lives in
`internal/json`, which is not part of this repository's sources. It is
modelled as an abstract serialization of a value sequence (`enc`) together
with a decoder (`dec`) that inverts it, which is the round-trip contract the
spec assigns to the codec. `MarshalJSON`/`UnmarshalJSON` below transcribe
glist.go on top of it. -/
structure JsonCodec (T : Type) (B : Type) where
  enc : List T → B
  dec : B → Except String (List T)
  dec_enc : ∀ xs, dec (enc xs) = .ok xs

/-- `MarshalJSON` (glist.go): `json.Marshal(l.FrontAll())`. -/
def MarshalJSON (c : JsonCodec T B) (w : World T) (lid : Nat) : B :=
  c.enc (frontAll w lid)

/-- `UnmarshalJSON` (glist.go): lazy-init, decode into a slice, push each
value at the back; a decode failure is returned as the error. -/
def UnmarshalJSON (c : JsonCodec T B) (w : World T) (lid : Nat) (b : B) :
    Option String × World T :=
  let w := lazyInit w lid
  match c.dec b with
  | .error s => (some s, w)
  | .ok array => (none, array.foldl (fun w v => (pushBack w lid v).2) w)

/-- Serialize-then-deserialize into a target list reproduces the source
list's value sequence after it (so into an empty list: exactly). -/
theorem unmarshal_marshal {w : World T} {lidSrc lidDst : Nat}
    {as bs : List Addr} (c : JsonCodec T B)
    (hsrc : IsList w lidSrc as) (hdst : IsList w lidDst bs) :
    (UnmarshalJSON c w lidDst (MarshalJSON c w lidSrc)).1 = none ∧
      ∃ as2, IsList (UnmarshalJSON c w lidDst (MarshalJSON c w lidSrc)).2 lidDst as2 ∧
        frontAll (UnmarshalJSON c w lidDst (MarshalJSON c w lidSrc)).2 lidDst =
          frontAll w lidDst ++ frontAll w lidSrc := by
  have hdec : c.dec (MarshalJSON c w lidSrc) = .ok (frontAll w lidSrc) := c.dec_enc _
  have hun : UnmarshalJSON c w lidDst (MarshalJSON c w lidSrc) =
      (none, (frontAll w lidSrc).foldl (fun w v => (pushBack w lidDst v).2) w) := by
    show (match c.dec (MarshalJSON c w lidSrc) with
      | .error s => (some s, lazyInit w lidDst)
      | .ok array =>
        (none, array.foldl (fun w v => (pushBack w lidDst v).2) (lazyInit w lidDst))) = _
    rw [hdec, lazyInit_eq hdst]
  rw [hun]
  obtain ⟨as2, h2, hval⟩ := pushBack_foldl lidDst (frontAll w lidSrc) w bs hdst
  exact ⟨rfl, as2, h2, by rw [frontAll_eq h2, hval, frontAll_eq hdst]⟩

/-- A valid operation sequence keeps the list well-formed. -/
theorem applyOps_IsList [DecidableEq T] [Inhabited T] (lid : Nat) :
    ∀ (ops : List (Op T)) (w : World T) (as : List Addr),
      IsList w lid as → ValidSeq w lid ops →
      ∃ as', IsList (applyOps w lid ops) lid as' := by
  intro ops
  induction ops with
  | nil => exact fun w as h _ => ⟨as, h⟩
  | cons op rest ih =>
    intro w as h hv
    obtain ⟨as2, h2⟩ := applyOp_IsList w lid as op h hv.1
    exact ih (applyOp w lid op) as2 h2 hv.2

/-! ### `Front` and `Back` -/

theorem front_cons {w : World T} {lid : Nat} {x : Addr} {rest : List Addr}
    (h : IsList w lid (x :: rest)) : front w lid = x := by
  unfold front
  rw [if_neg, isList_root_next h]
  · rfl
  · rw [h.2.2.1]
    simp only [List.length_cons]
    omega

theorem back_concat {w : World T} {lid : Nat} {xs : List Addr} {x : Addr}
    (h : IsList w lid (xs ++ [x])) : back w lid = x := by
  unfold back
  rw [if_neg, isList_root_prev h]
  · have hsplit : ((w.lists lid).root :: (xs ++ [x])) =
        ((w.lists lid).root :: xs) ++ [x] := by simp
    rw [List.getLast_congr _ _ hsplit, List.getLast_concat]
  · rw [h.2.2.1]
    simp only [List.length_append, List.length_cons, List.length_nil]
    omega

end glist

namespace garray

/-- `SortedArray[T]` (garray_sorted.go): the backing slice, the unique flag
and the comparator (`none` is a Go nil comparator). The mutex only guards
concurrent access and is not modelled. -/
structure SortedArray (T : Type) where
  array : List T
  unique : Bool
  comparator : Option (T → T → Int)

/-- `NewSortedArraySize` (garray_sorted.go): construction succeeds for any
comparator, nil included; `cap` only presizes the backing slice. -/
def NewSortedArraySize (cap : Nat) (comparator : Option (T → T → Int)) :
    SortedArray T :=
  { array := [], unique := false, comparator := comparator }

/-- `NewSortedArray` (garray_sorted.go). -/
def NewSortedArray (comparator : Option (T → T → Int)) : SortedArray T :=
  NewSortedArraySize 0 comparator

/-- `getComparator` (garray_sorted.go): the panic on a nil comparator is
modelled as an error value carrying the panic message. -/
def getComparator (a : SortedArray T) : Except String (T → T → Int) :=
  match a.comparator with
  | none => Except.error "comparator is missing for sorted array"
  | some c => Except.ok c

/-- `Len` (garray_sorted.go). -/
def Len (a : SortedArray T) : Nat := a.array.length

/-- `Get` (garray_sorted.go): the zero value and `false` out of range. -/
def Get [Inhabited T] (a : SortedArray T) (index : Int) : T × Bool :=
  if index < 0 ∨ (a.array.length : Int) ≤ index then (default, false)
  else (a.array.getD index.toNat default, true)

/-- The loop of `binSearch` (garray_sorted.go). Go's `/` truncates toward
zero; the numerator `max - min` is nonnegative whenever the division is
reached, where all integer divisions agree. -/
def binSearchLoop [Inhabited T] (c : T → T → Int) (arr : List T) (value : T)
    (min max mid cmp : Int) : Int × Int :=
  if h : min ≤ max then
    let mid2 := min + (max - min) / 2
    let cmp2 := c value (arr.getD mid2.toNat default)
    if cmp2 < 0 then binSearchLoop c arr value min (mid2 - 1) mid2 cmp2
    else if 0 < cmp2 then binSearchLoop c arr value (mid2 + 1) max mid2 cmp2
    else (mid2, cmp2)
  else (mid, cmp)
termination_by (max - min + 1).toNat
decreasing_by
  all_goals simp_wf
  all_goals omega

/-- `binSearch` (garray_sorted.go): `(-1, -2)` on an empty array without ever
consulting the comparator; on a nonempty array the loop body runs at least
once, so a nil comparator panics here. -/
def binSearch [Inhabited T] (a : SortedArray T) (value : T) :
    Except String (Int × Int) :=
  if a.array.length = 0 then Except.ok (-1, -2)
  else
    match getComparator a with
    | Except.error s => Except.error s
    | Except.ok c =>
      Except.ok (binSearchLoop c a.array value 0 ((a.array.length : Int) - 1) 0 (-2))

/-- One iteration of the `Append` loop (garray_sorted.go). -/
def appendOne [Inhabited T] (a : SortedArray T) (value : T) :
    Except String (SortedArray T) :=
  match binSearch a value with
  | Except.error s => Except.error s
  | Except.ok (index, cmp) =>
    if a.unique ∧ cmp = 0 then Except.ok a
    else if index < 0 then Except.ok { a with array := a.array ++ [value] }
    else
      let idx := if 0 < cmp then index + 1 else index
      Except.ok
        { a with array := a.array.take idx.toNat ++ value :: a.array.drop idx.toNat }

/-- `Append` / `Add` (garray_sorted.go): insert each value at its
binary-search position. -/
def Append [Inhabited T] (a : SortedArray T) (values : List T) :
    Except String (SortedArray T) :=
  values.foldlM appendOne a

/-- `Merge` / `MergeSlice` (garray_sorted.go): both delegate to `Append`. -/
def Merge [Inhabited T] (a : SortedArray T) (values : List T) :
    Except String (SortedArray T) :=
  Append a values

/-- `Search` (garray_sorted.go): the index of the value, or `-1`. -/
def Search [Inhabited T] (a : SortedArray T) (value : T) : Except String Int :=
  match binSearch a value with
  | Except.error s => Except.error s
  | Except.ok (i, r) => if r = 0 then Except.ok i else Except.ok (-1)

/-- `doRemoveWithoutLock` (garray_sorted.go): remove by index, with the
three slice-boundary branches of the source. -/
def doRemoveWithoutLock [Inhabited T] (a : SortedArray T) (index : Int) :
    (T × Bool) × SortedArray T :=
  if index < 0 ∨ (a.array.length : Int) ≤ index then ((default, false), a)
  else if index = 0 then
    ((a.array.getD 0 default, true), { a with array := a.array.tail })
  else if index = (a.array.length : Int) - 1 then
    ((a.array.getD index.toNat default, true),
      { a with array := a.array.take index.toNat })
  else
    ((a.array.getD index.toNat default, true),
      { a with array := a.array.take index.toNat ++ a.array.drop (index.toNat + 1) })

/-- `Remove` (garray_sorted.go). -/
def Remove [Inhabited T] (a : SortedArray T) (index : Int) :
    (T × Bool) × SortedArray T :=
  doRemoveWithoutLock a index

/-- `RemoveValue` (garray_sorted.go): binary search, remove on an exact hit. -/
def RemoveValue [Inhabited T] (a : SortedArray T) (value : T) :
    Except String (Bool × SortedArray T) :=
  match binSearch a value with
  | Except.error s => Except.error s
  | Except.ok (i, r) =>
    if r = 0 then
      let res := doRemoveWithoutLock a i
      Except.ok (res.1.2, res.2)
    else Except.ok (false, a)

/-- `RemoveValues` (garray_sorted.go). -/
def RemoveValues [Inhabited T] (a : SortedArray T) (values : List T) :
    Except String (SortedArray T) :=
  values.foldlM
    (fun a value =>
      match binSearch a value with
      | Except.error s => Except.error s
      | Except.ok (i, r) =>
        if r = 0 then Except.ok (doRemoveWithoutLock a i).2 else Except.ok a) a

/-- `PopLeft` (garray_sorted.go). -/
def PopLeft [Inhabited T] (a : SortedArray T) : (T × Bool) × SortedArray T :=
  if a.array.length = 0 then ((default, false), a)
  else ((a.array.getD 0 default, true), { a with array := a.array.tail })

/-- `PopRight` (garray_sorted.go). -/
def PopRight [Inhabited T] (a : SortedArray T) : (T × Bool) × SortedArray T :=
  if (a.array.length : Int) - 1 < 0 then ((default, false), a)
  else ((a.array.getD (a.array.length - 1) default, true),
    { a with array := a.array.take (a.array.length - 1) })

/-- The loop of `PopRands` (garray_sorted.go): each round removes the element
at a random index below the current length. `grand.Intn` is modelled by an
oracle sequence reduced modulo the current length. -/
def popRandsLoop [Inhabited T] :
    Nat → List Nat → SortedArray T → List T × SortedArray T
  | 0, _, a => ([], a)
  | n + 1, rand, a =>
    let idx : Int := ((rand.headD 0 % a.array.length : Nat) : Int)
    let res := doRemoveWithoutLock a idx
    let rest := popRandsLoop n rand.tail res.2
    (res.1.1 :: rest.1, rest.2)

/-- `PopRands` (garray_sorted.go). -/
def PopRands [Inhabited T] (a : SortedArray T) (size : Int) (rand : List Nat) :
    List T × SortedArray T :=
  if size ≤ 0 ∨ a.array.length = 0 then ([], a)
  else
    let sz := if (a.array.length : Int) ≤ size then a.array.length else size.toNat
    popRandsLoop sz rand a

/-- The loop of `Unique` (garray_sorted.go), with fuel for termination: the
cursor advances or the array shrinks each round. -/
def uniqueLoop [Inhabited T] (c : T → T → Int) :
    Nat → Nat → List T → List T
  | 0, _, arr => arr
  | fuel + 1, i, arr =>
    if i = arr.length - 1 then arr
    else if c (arr.getD i default) (arr.getD (i + 1) default) = 0 then
      uniqueLoop c fuel i (arr.take (i + 1) ++ arr.drop (i + 2))
    else uniqueLoop c fuel (i + 1) arr

/-- `Unique` (garray_sorted.go): on fewer than two elements the loop breaks
before its first comparison, so the comparator is never consulted. -/
def Unique [Inhabited T] (a : SortedArray T) : Except String (SortedArray T) :=
  if a.array.length ≤ 1 then Except.ok a
  else
    match getComparator a with
    | Except.error s => Except.error s
    | Except.ok c => Except.ok { a with array := uniqueLoop c a.array.length 0 a.array }

/-- Modelled from the spec: Go's `sort.Slice` is not part of this
repository's sources. It sorts via the provided strict-less function and
performs no comparison at all on slices of length at most one; it is
modelled as insertion sort. -/
def insertSorted (less : T → T → Bool) (x : T) : List T → List T
  | [] => [x]
  | y :: ys => if less x y then x :: y :: ys else y :: insertSorted less x ys

/-- Modelled from the spec: see `insertSorted`. -/
def sortSlice (less : T → T → Bool) (l : List T) : List T :=
  l.foldr (insertSorted less) []

/-- `SetArray` (garray_sorted.go): replace the backing slice and re-sort it
with `sort.Slice` over `getComparator`; on fewer than two elements the sort
makes no comparison, so a nil comparator does not panic there. -/
def SetArray [Inhabited T] (a : SortedArray T) (array : List T) :
    Except String (SortedArray T) :=
  if array.length ≤ 1 then Except.ok { a with array := array }
  else
    match getComparator a with
    | Except.error s => Except.error s
    | Except.ok c =>
      Except.ok { a with array := sortSlice (fun x y => c x y < 0) array }

/-! ### The sortedness invariant -/

/-- Sortedness under comparator `c`: every adjacent pair compares `≤ 0`. -/
def IsSorted (c : T → T → Int) (l : List T) : Prop :=
  List.Chain' (fun x y => c x y ≤ 0) l

instance (c : T → T → Int) (l : List T) : Decidable (IsSorted c l) :=
  inferInstanceAs (Decidable (List.Chain' (fun x y => c x y ≤ 0) l))

/-- A coherent three-way comparator (the comparator contract of the package
documentation: negative means `a < b`, zero equal, positive `a > b`):
swapping the arguments flips the sign, and `≤` composes transitively. -/
structure ValidCmp (c : T → T → Int) : Prop where
  flip : ∀ x y, 0 < c x y ↔ c y x < 0
  trans_le : ∀ x y z, c x y ≤ 0 → c y z ≤ 0 → c x z ≤ 0

theorem ValidCmp.self {c : T → T → Int} (hc : ValidCmp c) (x : T) : c x x = 0 := by
  have h := hc.flip x x
  omega

theorem ValidCmp.zero_flip {c : T → T → Int} (hc : ValidCmp c) {x y : T}
    (h : c x y = 0) : c y x = 0 := by
  have h1 := hc.flip x y
  have h2 := hc.flip y x
  omega

theorem ValidCmp.le_flip {c : T → T → Int} (hc : ValidCmp c) {x y : T}
    (h : 0 ≤ c x y) : c y x ≤ 0 := by
  have h1 := hc.flip x y
  have h2 := hc.flip y x
  omega

theorem isSorted_sublist {c : T → T → Int} (hc : ValidCmp c) {l l2 : List T}
    (hs : IsSorted c l) (h : List.Sublist l2 l) : IsSorted c l2 := by
  haveI : IsTrans T (fun x y => c x y ≤ 0) :=
    ⟨fun a b d hab hbd => hc.trans_le a b d hab hbd⟩
  exact List.Chain'.sublist hs h

theorem isSorted_pair [Inhabited T] {c : T → T → Int} (hc : ValidCmp c)
    {l : List T} (hs : IsSorted c l) {i j : Nat} (hij : i ≤ j) (hj : j < l.length) :
    c (l.getD i default) (l.getD j default) ≤ 0 := by
  rcases Nat.lt_or_eq_of_le hij with hlt | heq
  · haveI : IsTrans T (fun x y => c x y ≤ 0) :=
      ⟨fun a b d hab hbd => hc.trans_le a b d hab hbd⟩
    have hp := List.chain'_iff_pairwise.mp hs
    have hi : i < l.length := lt_trans hlt hj
    rw [List.getD_eq_getElem l default hi, List.getD_eq_getElem l default hj]
    exact List.pairwise_iff_getElem.mp hp i j hi hj hlt
  · subst heq
    exact le_of_eq (hc.self _)

/-! ### What `binSearch` guarantees -/

/-- The insertion index `Append` derives from a `binSearch` result. -/
def insPos (pr : Int × Int) : Int :=
  if 0 < pr.2 then pr.1 + 1 else pr.1

/-- The `binSearch` postcondition on a nonempty array: the index is in
range, the comparison is the comparison at that index, and the derived
insertion position brackets the value. -/
def BinPost [Inhabited T] (c : T → T → Int) (arr : List T) (v : T)
    (pr : Int × Int) : Prop :=
  0 ≤ pr.1 ∧ pr.1 < (arr.length : Int) ∧
    pr.2 = c v (arr.getD pr.1.toNat default) ∧
    (∀ j : Nat, (j : Int) < insPos pr → c (arr.getD j default) v ≤ 0) ∧
    (∀ j : Nat, insPos pr ≤ (j : Int) → j < arr.length →
      c v (arr.getD j default) ≤ 0) ∧
    0 ≤ insPos pr ∧ insPos pr ≤ (arr.length : Int)

theorem binSearchLoop_exit [Inhabited T] (c : T → T → Int) (arr : List T)
    (v : T) (min max mid cmp : Int) (h : ¬min ≤ max) :
    binSearchLoop c arr v min max mid cmp = (mid, cmp) := by
  unfold binSearchLoop
  rw [dif_neg h]

theorem binSearchLoop_step [Inhabited T] (c : T → T → Int) (arr : List T)
    (v : T) (min max mid cmp : Int) (h : min ≤ max) :
    binSearchLoop c arr v min max mid cmp =
      if c v (arr.getD (min + (max - min) / 2).toNat default) < 0 then
        binSearchLoop c arr v min (min + (max - min) / 2 - 1)
          (min + (max - min) / 2)
          (c v (arr.getD (min + (max - min) / 2).toNat default))
      else if 0 < c v (arr.getD (min + (max - min) / 2).toNat default) then
        binSearchLoop c arr v (min + (max - min) / 2 + 1) max
          (min + (max - min) / 2)
          (c v (arr.getD (min + (max - min) / 2).toNat default))
      else
        (min + (max - min) / 2,
          c v (arr.getD (min + (max - min) / 2).toNat default)) := by
  conv_lhs => rw [binSearchLoop]
  rw [dif_pos h]

/-- The loop's basic postcondition, independent of sortedness: on a nonempty
range the returned index is in range and the returned comparison is the
comparison made at that index. -/
theorem binSearchLoop_basic [Inhabited T] (c : T → T → Int) (arr : List T)
    (v : T) :
    ∀ (n : Nat) (min max mid cmp : Int), (max - min + 1).toNat ≤ n →
      0 ≤ min → max < (arr.length : Int) →
      (max < min → 0 ≤ mid ∧ mid < (arr.length : Int) ∧
        cmp = c v (arr.getD mid.toNat default)) →
      0 ≤ (binSearchLoop c arr v min max mid cmp).1 ∧
        (binSearchLoop c arr v min max mid cmp).1 < (arr.length : Int) ∧
        (binSearchLoop c arr v min max mid cmp).2 =
          c v (arr.getD (binSearchLoop c arr v min max mid cmp).1.toNat default) := by
  intro n
  induction n with
  | zero =>
    intro min max mid cmp hn hmin hmax H3
    rw [binSearchLoop_exit c arr v min max mid cmp (by omega)]
    obtain ⟨h1, h2, h3⟩ := H3 (by omega)
    exact ⟨h1, h2, h3⟩
  | succ n ih =>
    intro min max mid cmp hn hmin hmax H3
    by_cases hle : min ≤ max
    · rw [binSearchLoop_step c arr v min max mid cmp hle]
      by_cases hneg : c v (arr.getD (min + (max - min) / 2).toNat default) < 0
      · rw [if_pos hneg]
        exact ih min (min + (max - min) / 2 - 1) (min + (max - min) / 2) _
          (by omega) hmin (by omega)
          (fun _ => ⟨by omega, by omega, rfl⟩)
      · rw [if_neg hneg]
        by_cases hpos : 0 < c v (arr.getD (min + (max - min) / 2).toNat default)
        · rw [if_pos hpos]
          exact ih (min + (max - min) / 2 + 1) max (min + (max - min) / 2) _
            (by omega) (by omega) hmax
            (fun _ => ⟨by omega, by omega, rfl⟩)
        · rw [if_neg hpos]
          exact ⟨by omega, by omega, rfl⟩
    · rw [binSearchLoop_exit c arr v min max mid cmp hle]
      obtain ⟨h1, h2, h3⟩ := H3 (by omega)
      exact ⟨h1, h2, h3⟩

/-- On exit, the loop's invariants yield the full bracketing postcondition. -/
theorem binSearch_exit_post [Inhabited T] {c : T → T → Int} {arr : List T}
    {v : T} (hc : ValidCmp c) (hs : IsSorted c arr) {min max mid cmp : Int}
    (H1 : ∀ j : Nat, (j : Int) < min → 0 ≤ c v (arr.getD j default))
    (H2 : ∀ j : Nat, max < (j : Int) → j < arr.length →
      c v (arr.getD j default) ≤ 0)
    (hmid0 : 0 ≤ mid) (hmidlen : mid < (arr.length : Int))
    (hcmp : cmp = c v (arr.getD mid.toNat default))
    (hlt : cmp < 0 → mid ≤ min) (hgt : 0 < cmp → max ≤ mid) :
    BinPost c arr v (mid, cmp) := by
  have hmlen : mid.toNat < arr.length := by omega
  refine ⟨hmid0, hmidlen, hcmp, ?_, ?_, ?_, ?_⟩
  · intro j hj
    by_cases hpos : (0 : Int) < cmp
    · have hins : insPos (mid, cmp) = mid + 1 := if_pos hpos
      rw [hins] at hj
      have hmv : c (arr.getD mid.toNat default) v < 0 := by
        have := hc.flip v (arr.getD mid.toNat default)
        omega
      rcases Nat.lt_or_ge j mid.toNat with hjm | hjm
      · exact hc.trans_le _ _ _ (isSorted_pair hc hs (le_of_lt hjm) hmlen)
          (le_of_lt hmv)
      · have hje : j = mid.toNat := by omega
        rw [hje]
        exact le_of_lt hmv
    · have hins : insPos (mid, cmp) = mid := if_neg hpos
      rw [hins] at hj
      by_cases hneg : cmp < 0
      · exact hc.le_flip (by have := H1 j (by omega); omega)
      · have hzero : c (arr.getD mid.toNat default) v = 0 :=
          hc.zero_flip (by omega)
        have hjm : j < mid.toNat := by omega
        exact hc.trans_le _ _ _ (isSorted_pair hc hs (le_of_lt hjm) hmlen)
          (le_of_eq hzero)
  · intro j hins hjlen
    by_cases hpos : (0 : Int) < cmp
    · have hi : insPos (mid, cmp) = mid + 1 := if_pos hpos
      rw [hi] at hins
      exact H2 j (by omega) hjlen
    · have hi : insPos (mid, cmp) = mid := if_neg hpos
      rw [hi] at hins
      rcases Nat.lt_or_ge mid.toNat j with hjm | hjm
      · exact hc.trans_le _ _ _ (by omega) (isSorted_pair hc hs (le_of_lt hjm) hjlen)
      · have hje : j = mid.toNat := by omega
        rw [hje]
        omega
  · unfold insPos
    split <;> omega
  · unfold insPos
    split <;> omega

/-- Full loop postcondition over a sorted array. -/
theorem binSearchLoop_post [Inhabited T] {c : T → T → Int} {arr : List T}
    {v : T} (hc : ValidCmp c) (hs : IsSorted c arr) :
    ∀ (n : Nat) (min max mid cmp : Int), (max - min + 1).toNat ≤ n →
      0 ≤ min → max < (arr.length : Int) →
      (∀ j : Nat, (j : Int) < min → 0 ≤ c v (arr.getD j default)) →
      (∀ j : Nat, max < (j : Int) → j < arr.length →
        c v (arr.getD j default) ≤ 0) →
      (max < min → 0 ≤ mid ∧ mid < (arr.length : Int) ∧
        cmp = c v (arr.getD mid.toNat default) ∧
        (cmp < 0 → mid ≤ min) ∧ (0 < cmp → max ≤ mid)) →
      BinPost c arr v (binSearchLoop c arr v min max mid cmp) := by
  intro n
  induction n with
  | zero =>
    intro min max mid cmp hn hmin hmax H1 H2 H3
    rw [binSearchLoop_exit c arr v min max mid cmp (by omega)]
    obtain ⟨h1, h2, h3, h4, h5⟩ := H3 (by omega)
    exact binSearch_exit_post hc hs H1 H2 h1 h2 h3 h4 h5
  | succ n ih =>
    intro min max mid cmp hn hmin hmax H1 H2 H3
    by_cases hle : min ≤ max
    · rw [binSearchLoop_step c arr v min max mid cmp hle]
      by_cases hneg : c v (arr.getD (min + (max - min) / 2).toNat default) < 0
      · rw [if_pos hneg]
        refine ih min (min + (max - min) / 2 - 1) (min + (max - min) / 2) _
          (by omega) hmin (by omega) H1 ?_
          (fun _ => ⟨by omega, by omega, rfl, fun _ => by omega,
            fun hpos => by omega⟩)
        intro j hj hjlen
        rcases Nat.lt_or_ge (min + (max - min) / 2).toNat j with hjm | hjm
        · exact hc.trans_le _ _ _ (le_of_lt hneg)
            (isSorted_pair hc hs (le_of_lt hjm) hjlen)
        · have hje : j = (min + (max - min) / 2).toNat := by omega
          rw [hje]
          exact le_of_lt hneg
      · rw [if_neg hneg]
        by_cases hpos : 0 < c v (arr.getD (min + (max - min) / 2).toNat default)
        · rw [if_pos hpos]
          refine ih (min + (max - min) / 2 + 1) max (min + (max - min) / 2) _
            (by omega) (by omega) hmax ?_ H2
            (fun _ => ⟨by omega, by omega, rfl, fun hneg2 => by omega,
              fun _ => by omega⟩)
          intro j hj
          rcases Nat.lt_or_ge j (min + (max - min) / 2).toNat with hjm | hjm
          · have hmv : c v (arr.getD (min + (max - min) / 2).toNat default) ≤ 0 →
                False := by omega
            have hj2 : c (arr.getD j default)
                (arr.getD (min + (max - min) / 2).toNat default) ≤ 0 :=
              isSorted_pair hc hs (le_of_lt hjm) (by omega)
            have hm2 : c (arr.getD (min + (max - min) / 2).toNat default) v < 0 := by
              have := hc.flip v (arr.getD (min + (max - min) / 2).toNat default)
              omega
            have := hc.trans_le _ _ _ hj2 (le_of_lt hm2)
            have := hc.flip v (arr.getD j default)
            have := hc.flip (arr.getD j default) v
            omega
          · have hje : j = (min + (max - min) / 2).toNat := by omega
            rw [hje]
            omega
        · rw [if_neg hpos]
          exact binSearch_exit_post hc hs H1 H2 (by omega) (by omega) rfl
            (fun _ => by omega) (fun h => absurd h hpos)
    · rw [binSearchLoop_exit c arr v min max mid cmp hle]
      obtain ⟨h1, h2, h3, h4, h5⟩ := H3 (by omega)
      exact binSearch_exit_post hc hs H1 H2 h1 h2 h3 h4 h5

theorem binSearch_empty [Inhabited T] (a : SortedArray T) (v : T)
    (h : a.array.length = 0) : binSearch a v = Except.ok (-1, -2) := by
  unfold binSearch
  rw [if_pos h]

theorem binSearch_eq [Inhabited T] {c : T → T → Int} {a : SortedArray T}
    (hcomp : a.comparator = some c) (hne : a.array.length ≠ 0) (v : T) :
    binSearch a v =
      Except.ok (binSearchLoop c a.array v 0 ((a.array.length : Int) - 1) 0 (-2)) := by
  unfold binSearch getComparator
  rw [if_neg hne, hcomp]

/-- On a nonempty array with a comparator, `binSearch` succeeds with the
basic postcondition (no sortedness needed). -/
theorem binSearch_basic [Inhabited T] {c : T → T → Int} {a : SortedArray T}
    (hcomp : a.comparator = some c) (hne : a.array.length ≠ 0) (v : T) :
    binSearch a v =
        Except.ok (binSearchLoop c a.array v 0 ((a.array.length : Int) - 1) 0 (-2)) ∧
      0 ≤ (binSearchLoop c a.array v 0 ((a.array.length : Int) - 1) 0 (-2)).1 ∧
      (binSearchLoop c a.array v 0 ((a.array.length : Int) - 1) 0 (-2)).1 <
        (a.array.length : Int) ∧
      (binSearchLoop c a.array v 0 ((a.array.length : Int) - 1) 0 (-2)).2 =
        c v (a.array.getD
          (binSearchLoop c a.array v 0 ((a.array.length : Int) - 1) 0 (-2)).1.toNat
          default) := by
  refine ⟨binSearch_eq hcomp hne v, ?_⟩
  exact binSearchLoop_basic c a.array v a.array.length 0 ((a.array.length : Int) - 1)
    0 (-2) (by omega) (by omega) (by omega) (fun hex => absurd hex (by omega))

/-- On a nonempty sorted array with a comparator, `binSearch` succeeds with
the full bracketing postcondition. -/
theorem binSearch_post [Inhabited T] {c : T → T → Int} {a : SortedArray T}
    (hcomp : a.comparator = some c) (hc : ValidCmp c) (hs : IsSorted c a.array)
    (hne : a.array.length ≠ 0) (v : T) :
    binSearch a v =
        Except.ok (binSearchLoop c a.array v 0 ((a.array.length : Int) - 1) 0 (-2)) ∧
      BinPost c a.array v
        (binSearchLoop c a.array v 0 ((a.array.length : Int) - 1) 0 (-2)) := by
  refine ⟨binSearch_eq hcomp hne v, ?_⟩
  exact binSearchLoop_post hc hs a.array.length 0 ((a.array.length : Int) - 1)
    0 (-2) (by omega) (by omega) (by omega)
    (fun j hj => absurd hj (by omega))
    (fun j hj hjlen => absurd hjlen (by omega))
    (fun hex => absurd hex (by omega))

/-! ### Sorted insertion and removal -/

theorem sorted_insert [Inhabited T] {c : T → T → Int} {arr : List T} {v : T}
    {q : Int} (hs : IsSorted c arr) (hq0 : 0 ≤ q) (hqlen : q ≤ (arr.length : Int))
    (hleft : ∀ j : Nat, (j : Int) < q → c (arr.getD j default) v ≤ 0)
    (hright : ∀ j : Nat, q ≤ (j : Int) → j < arr.length →
      c v (arr.getD j default) ≤ 0) :
    IsSorted c (arr.take q.toNat ++ v :: arr.drop q.toNat) := by
  have hchain : List.Chain' (fun x y => c x y ≤ 0)
      (arr.take q.toNat ++ arr.drop q.toNat) := by
    rw [List.take_append_drop]
    exact hs
  rw [List.chain'_append] at hchain
  unfold IsSorted
  rw [List.chain'_append]
  refine ⟨hchain.1, List.chain'_cons'.mpr ⟨?_, hchain.2.1⟩, ?_⟩
  · intro y hy
    rw [List.head?_drop] at hy
    rcases Nat.lt_or_ge q.toNat arr.length with hlt | hge
    · rw [List.getElem?_eq_getElem hlt] at hy
      have hyy : y = arr.getD q.toNat default := by
        rw [List.getD_eq_getElem arr default hlt]
        exact (Option.some_inj.mp hy).symm
      rw [hyy]
      exact hright q.toNat (by omega) hlt
    · rw [List.getElem?_eq_none hge] at hy
      cases hy
  · intro x hx y hy
    have hyv : v = y := by simpa using hy
    subst hyv
    rw [List.getLast?_take] at hx
    by_cases hq : q.toNat = 0
    · rw [if_pos hq] at hx
      cases hx
    · rw [if_neg hq] at hx
      have hlt : q.toNat - 1 < arr.length := by omega
      rw [List.getElem?_eq_getElem hlt] at hx
      have hx2 : x ∈ (some (arr.get ⟨q.toNat - 1, hlt⟩) : Option T) := hx
      have hxx : x = arr.getD (q.toNat - 1) default := by
        rw [List.getD_eq_getElem arr default hlt]
        exact (Option.mem_some_iff.mp hx2).symm
      rw [hxx]
      exact hleft (q.toNat - 1) (by omega)

/-! ### `Append` reductions and sortedness preservation -/

theorem appendOne_empty [Inhabited T] {a : SortedArray T}
    (hne : a.array.length = 0) (v : T) :
    appendOne a v = Except.ok { a with array := a.array ++ [v] } := by
  unfold appendOne
  rw [binSearch_empty a v hne]
  show (if a.unique = true ∧ (-2 : Int) = 0 then Except.ok a
    else if (-1 : Int) < 0 then Except.ok { a with array := a.array ++ [v] }
    else _) = _
  rw [if_neg (fun h => absurd h.2 (by omega)), if_pos (by omega)]

theorem appendOne_skip [Inhabited T] {a : SortedArray T} {v : T} {p r : Int}
    (hbs : binSearch a v = Except.ok (p, r)) (hu : a.unique = true) (hr : r = 0) :
    appendOne a v = Except.ok a := by
  unfold appendOne
  rw [hbs]
  show (if a.unique = true ∧ r = 0 then Except.ok a else _) = _
  rw [if_pos ⟨hu, hr⟩]

theorem appendOne_of_binSearch [Inhabited T] {a : SortedArray T} {v : T}
    {p r : Int} (hbs : binSearch a v = Except.ok (p, r))
    (hnu : ¬(a.unique = true ∧ r = 0)) (hp : 0 ≤ p) :
    appendOne a v = Except.ok
      { a with array := a.array.take (insPos (p, r)).toNat ++
          v :: a.array.drop (insPos (p, r)).toNat } := by
  unfold appendOne
  rw [hbs]
  show (if a.unique = true ∧ r = 0 then Except.ok a
    else if p < 0 then Except.ok { a with array := a.array ++ [v] }
    else _) = _
  rw [if_neg hnu, if_neg (by omega)]
  rfl

theorem appendOne_sorted [Inhabited T] {c : T → T → Int} (hc : ValidCmp c)
    {a : SortedArray T} (hcomp : a.comparator = some c) (hs : IsSorted c a.array)
    (v : T) :
    ∃ a2, appendOne a v = Except.ok a2 ∧ a2.comparator = some c ∧
      a2.unique = a.unique ∧ IsSorted c a2.array := by
  by_cases hne : a.array.length = 0
  · refine ⟨{ a with array := a.array ++ [v] }, appendOne_empty hne v, hcomp, rfl, ?_⟩
    have ha : a.array = [] := List.length_eq_zero.mp hne
    unfold IsSorted
    rw [ha]
    exact List.chain'_singleton _
  · obtain ⟨hbs, hpost⟩ := binSearch_post hcomp hc hs hne v
    obtain ⟨hp0, hplen, hpcmp, hleft, hright, hq0, hqlen⟩ := hpost
    have hbs2 : binSearch a v = Except.ok
        ((binSearchLoop c a.array v 0 ((a.array.length : Int) - 1) 0 (-2)).1,
         (binSearchLoop c a.array v 0 ((a.array.length : Int) - 1) 0 (-2)).2) := hbs
    by_cases hskip : a.unique = true ∧
        (binSearchLoop c a.array v 0 ((a.array.length : Int) - 1) 0 (-2)).2 = 0
    · exact ⟨a, appendOne_skip hbs2 hskip.1 hskip.2, hcomp, rfl, hs⟩
    · refine ⟨_, appendOne_of_binSearch hbs2 hskip hp0, hcomp, rfl, ?_⟩
      exact sorted_insert hs hq0 hqlen hleft hright

theorem Append_sorted [Inhabited T] {c : T → T → Int} (hc : ValidCmp c) :
    ∀ (vs : List T) (a : SortedArray T), a.comparator = some c →
      IsSorted c a.array →
      ∃ a2, Append a vs = Except.ok a2 ∧ a2.comparator = some c ∧
        a2.unique = a.unique ∧ IsSorted c a2.array := by
  intro vs
  induction vs with
  | nil => exact fun a hcomp hs => ⟨a, rfl, hcomp, rfl, hs⟩
  | cons v vt ih =>
    intro a hcomp hs
    obtain ⟨a1, h1, hcomp1, hu1, hs1⟩ := appendOne_sorted hc hcomp hs v
    obtain ⟨a2, h2, hcomp2, hu2, hs2⟩ := ih a1 hcomp1 hs1
    refine ⟨a2, ?_, hcomp2, by rw [hu2, hu1], hs2⟩
    unfold Append
    rw [List.foldlM_cons, h1]
    show vt.foldlM appendOne a1 = Except.ok a2
    exact h2

/-! ### Removals shrink the array to a sublist -/

theorem doRemoveWithoutLock_frame [Inhabited T] (a : SortedArray T) (i : Int) :
    (doRemoveWithoutLock a i).2.comparator = a.comparator ∧
      (doRemoveWithoutLock a i).2.unique = a.unique ∧
      List.Sublist (doRemoveWithoutLock a i).2.array a.array := by
  unfold doRemoveWithoutLock
  split
  · exact ⟨rfl, rfl, List.Sublist.refl _⟩
  · split
    · exact ⟨rfl, rfl, List.tail_sublist _⟩
    · split
      · exact ⟨rfl, rfl, List.take_sublist _ _⟩
      · refine ⟨rfl, rfl, ?_⟩
        show List.Sublist (a.array.take i.toNat ++ a.array.drop (i.toNat + 1)) _
        rw [← List.eraseIdx_eq_take_drop_succ]
        exact List.eraseIdx_sublist _ _

theorem PopLeft_frame [Inhabited T] (a : SortedArray T) :
    (PopLeft a).2.comparator = a.comparator ∧ (PopLeft a).2.unique = a.unique ∧
      List.Sublist (PopLeft a).2.array a.array := by
  unfold PopLeft
  split
  · exact ⟨rfl, rfl, List.Sublist.refl _⟩
  · exact ⟨rfl, rfl, List.tail_sublist _⟩

theorem PopRight_frame [Inhabited T] (a : SortedArray T) :
    (PopRight a).2.comparator = a.comparator ∧ (PopRight a).2.unique = a.unique ∧
      List.Sublist (PopRight a).2.array a.array := by
  unfold PopRight
  split
  · exact ⟨rfl, rfl, List.Sublist.refl _⟩
  · exact ⟨rfl, rfl, List.take_sublist _ _⟩

theorem popRandsLoop_frame [Inhabited T] :
    ∀ (n : Nat) (rand : List Nat) (a : SortedArray T),
      (popRandsLoop n rand a).2.comparator = a.comparator ∧
        (popRandsLoop n rand a).2.unique = a.unique ∧
        List.Sublist (popRandsLoop n rand a).2.array a.array := by
  intro n
  induction n with
  | zero => exact fun rand a => ⟨rfl, rfl, List.Sublist.refl _⟩
  | succ n ih =>
    intro rand a
    obtain ⟨h1, h2, h3⟩ := doRemoveWithoutLock_frame a
      ((rand.headD 0 % a.array.length : Nat) : Int)
    obtain ⟨g1, g2, g3⟩ := ih rand.tail
      (doRemoveWithoutLock a ((rand.headD 0 % a.array.length : Nat) : Int)).2
    have hstep : (popRandsLoop (n + 1) rand a).2 =
        (popRandsLoop n rand.tail
          (doRemoveWithoutLock a
            ((rand.headD 0 % a.array.length : Nat) : Int)).2).2 := rfl
    rw [hstep]
    exact ⟨by rw [g1, h1], by rw [g2, h2], g3.trans h3⟩

theorem PopRands_frame [Inhabited T] (a : SortedArray T) (size : Int)
    (rand : List Nat) :
    (PopRands a size rand).2.comparator = a.comparator ∧
      (PopRands a size rand).2.unique = a.unique ∧
      List.Sublist (PopRands a size rand).2.array a.array := by
  unfold PopRands
  split
  · exact ⟨rfl, rfl, List.Sublist.refl _⟩
  · exact popRandsLoop_frame _ _ _

/-! ### `RemoveValue`, `RemoveValues`: success and effect -/

theorem RemoveValue_ok [Inhabited T] {c : T → T → Int} {a : SortedArray T}
    (hcomp : a.comparator = some c) (v : T) :
    ∃ found a2, RemoveValue a v = Except.ok (found, a2) ∧
      a2.comparator = a.comparator ∧ a2.unique = a.unique ∧
      List.Sublist a2.array a.array := by
  by_cases hne : a.array.length = 0
  · refine ⟨false, a, ?_, rfl, rfl, List.Sublist.refl _⟩
    unfold RemoveValue
    rw [binSearch_empty a v hne]
    show (if (-2 : Int) = 0 then _ else Except.ok (false, a)) = _
    rw [if_neg (by omega)]
  · have hbs := binSearch_eq hcomp hne v
    by_cases hr : (binSearchLoop c a.array v 0 ((a.array.length : Int) - 1)
        0 (-2)).2 = 0
    · obtain ⟨h1, h2, h3⟩ := doRemoveWithoutLock_frame a
        (binSearchLoop c a.array v 0 ((a.array.length : Int) - 1) 0 (-2)).1
      refine ⟨(doRemoveWithoutLock a
          (binSearchLoop c a.array v 0 ((a.array.length : Int) - 1) 0 (-2)).1).1.2,
        (doRemoveWithoutLock a
          (binSearchLoop c a.array v 0 ((a.array.length : Int) - 1) 0 (-2)).1).2,
        ?_, h1, h2, h3⟩
      unfold RemoveValue
      rw [hbs]
      show (if (binSearchLoop c a.array v 0 ((a.array.length : Int) - 1)
        0 (-2)).2 = 0 then _ else _) = _
      rw [if_pos hr]
    · refine ⟨false, a, ?_, rfl, rfl, List.Sublist.refl _⟩
      unfold RemoveValue
      rw [hbs]
      show (if (binSearchLoop c a.array v 0 ((a.array.length : Int) - 1)
        0 (-2)).2 = 0 then _ else _) = _
      rw [if_neg hr]

/-- `RemoveValue` of a value the comparator matches nowhere reports `false`
and returns the array exactly unchanged (no sortedness assumption needed). -/
theorem RemoveValue_absent [Inhabited T] {c : T → T → Int} {a : SortedArray T}
    {v : T} (hcomp : a.comparator = some c) (habs : ∀ x ∈ a.array, c v x ≠ 0) :
    RemoveValue a v = Except.ok (false, a) := by
  by_cases hne : a.array.length = 0
  · unfold RemoveValue
    rw [binSearch_empty a v hne]
    show (if (-2 : Int) = 0 then _ else Except.ok (false, a)) = _
    rw [if_neg (by omega)]
  · obtain ⟨hbs, hp0, hplen, hpcmp⟩ := binSearch_basic hcomp hne v
    have hlt : (binSearchLoop c a.array v 0 ((a.array.length : Int) - 1)
        0 (-2)).1.toNat < a.array.length := by omega
    have hr : (binSearchLoop c a.array v 0 ((a.array.length : Int) - 1)
        0 (-2)).2 ≠ 0 := by
      rw [hpcmp]
      apply habs
      rw [List.getD_eq_getElem a.array default hlt]
      exact List.getElem_mem hlt
    unfold RemoveValue
    rw [hbs]
    show (if (binSearchLoop c a.array v 0 ((a.array.length : Int) - 1)
      0 (-2)).2 = 0 then _ else _) = _
    rw [if_neg hr]

theorem RemoveValues_ok [Inhabited T] {c : T → T → Int} :
    ∀ (vs : List T) (a : SortedArray T), a.comparator = some c →
      ∃ a2, RemoveValues a vs = Except.ok a2 ∧ a2.comparator = a.comparator ∧
        a2.unique = a.unique ∧ List.Sublist a2.array a.array := by
  intro vs
  induction vs with
  | nil => exact fun a hcomp => ⟨a, rfl, rfl, rfl, List.Sublist.refl _⟩
  | cons v vt ih =>
    intro a hcomp
    by_cases hne : a.array.length = 0
    · obtain ⟨a2, g1, g2, g3, g4⟩ := ih a hcomp
      refine ⟨a2, ?_, g2, g3, g4⟩
      unfold RemoveValues
      rw [List.foldlM_cons, binSearch_empty a v hne]
      show ((if (-2 : Int) = 0 then Except.ok (doRemoveWithoutLock a (-1)).2
        else Except.ok a) >>= fun b => vt.foldlM _ b) = _
      rw [if_neg (by omega)]
      exact g1
    · have hbs := binSearch_eq hcomp hne v
      by_cases hr : (binSearchLoop c a.array v 0 ((a.array.length : Int) - 1)
          0 (-2)).2 = 0
      · obtain ⟨h1, h2, h3⟩ := doRemoveWithoutLock_frame a
          (binSearchLoop c a.array v 0 ((a.array.length : Int) - 1) 0 (-2)).1
        obtain ⟨a2, g1, g2, g3, g4⟩ := ih
          (doRemoveWithoutLock a
            (binSearchLoop c a.array v 0 ((a.array.length : Int) - 1) 0 (-2)).1).2
          (by rw [h1, hcomp])
        refine ⟨a2, ?_, by rw [g2, h1], by rw [g3, h2], g4.trans h3⟩
        unfold RemoveValues
        rw [List.foldlM_cons, hbs]
        show ((if (binSearchLoop c a.array v 0 ((a.array.length : Int) - 1)
            0 (-2)).2 = 0
          then Except.ok (doRemoveWithoutLock a
            (binSearchLoop c a.array v 0 ((a.array.length : Int) - 1) 0 (-2)).1).2
          else Except.ok a) >>= fun b => vt.foldlM _ b) = _
        rw [if_pos hr]
        exact g1
      · obtain ⟨a2, g1, g2, g3, g4⟩ := ih a hcomp
        refine ⟨a2, ?_, g2, g3, g4⟩
        unfold RemoveValues
        rw [List.foldlM_cons, hbs]
        show ((if (binSearchLoop c a.array v 0 ((a.array.length : Int) - 1)
            0 (-2)).2 = 0
          then Except.ok (doRemoveWithoutLock a
            (binSearchLoop c a.array v 0 ((a.array.length : Int) - 1) 0 (-2)).1).2
          else Except.ok a) >>= fun b => vt.foldlM _ b) = _
        rw [if_neg hr]
        exact g1

/-! ### The C10 transition system -/

/-- The mutating operations of the sorted-array invariant claim, with their
arguments (`Add` aliases `Append`; `Merge` delegates to `Append`). -/
inductive SAOp (T : Type) where
  | append (values : List T)
  | removeIdx (index : Int)
  | removeValue (value : T)
  | removeValues (values : List T)
  | popLeft
  | popRight
  | popRands (size : Int) (rand : List Nat)
  | merge (values : List T)

/-- Run one sorted-array operation. -/
def applySAOp [Inhabited T] (a : SortedArray T) :
    SAOp T → Except String (SortedArray T)
  | .append vs => Append a vs
  | .removeIdx i => Except.ok (Remove a i).2
  | .removeValue v =>
    match RemoveValue a v with
    | Except.error s => Except.error s
    | Except.ok res => Except.ok res.2
  | .removeValues vs => RemoveValues a vs
  | .popLeft => Except.ok (PopLeft a).2
  | .popRight => Except.ok (PopRight a).2
  | .popRands size rand => Except.ok (PopRands a size rand).2
  | .merge vs => Merge a vs

/-- Run a sequence of sorted-array operations. -/
def applySAOps [Inhabited T] (a : SortedArray T) :
    List (SAOp T) → Except String (SortedArray T)
  | [] => Except.ok a
  | op :: rest =>
    match applySAOp a op with
    | Except.error s => Except.error s
    | Except.ok a2 => applySAOps a2 rest

theorem applySAOp_sorted [Inhabited T] {c : T → T → Int} (hc : ValidCmp c)
    {a : SortedArray T} (hcomp : a.comparator = some c) (hs : IsSorted c a.array)
    (op : SAOp T) :
    ∃ a2, applySAOp a op = Except.ok a2 ∧ a2.comparator = some c ∧
      IsSorted c a2.array := by
  cases op with
  | append vs =>
    obtain ⟨a2, h1, h2, -, h4⟩ := Append_sorted hc vs a hcomp hs
    exact ⟨a2, h1, h2, h4⟩
  | removeIdx i =>
    obtain ⟨h1, h2, h3⟩ := doRemoveWithoutLock_frame a i
    exact ⟨(Remove a i).2, rfl, h1.trans hcomp, isSorted_sublist hc hs h3⟩
  | removeValue v =>
    obtain ⟨found, a2, h1, h2, h3, h4⟩ := RemoveValue_ok hcomp v
    refine ⟨a2, ?_, h2.trans hcomp, isSorted_sublist hc hs h4⟩
    show (match RemoveValue a v with
      | Except.error s => Except.error s
      | Except.ok res => Except.ok res.2) = _
    rw [h1]
  | removeValues vs =>
    obtain ⟨a2, h1, h2, -, h4⟩ := RemoveValues_ok vs a hcomp
    exact ⟨a2, h1, h2.trans hcomp, isSorted_sublist hc hs h4⟩
  | popLeft =>
    obtain ⟨h1, h2, h3⟩ := PopLeft_frame a
    exact ⟨(PopLeft a).2, rfl, h1.trans hcomp, isSorted_sublist hc hs h3⟩
  | popRight =>
    obtain ⟨h1, h2, h3⟩ := PopRight_frame a
    exact ⟨(PopRight a).2, rfl, h1.trans hcomp, isSorted_sublist hc hs h3⟩
  | popRands size rand =>
    obtain ⟨h1, h2, h3⟩ := PopRands_frame a size rand
    exact ⟨(PopRands a size rand).2, rfl, h1.trans hcomp, isSorted_sublist hc hs h3⟩
  | merge vs =>
    obtain ⟨a2, h1, h2, -, h4⟩ := Append_sorted hc vs a hcomp hs
    exact ⟨a2, h1, h2, h4⟩

theorem applySAOps_sorted [Inhabited T] {c : T → T → Int} (hc : ValidCmp c) :
    ∀ (ops : List (SAOp T)) (a : SortedArray T), a.comparator = some c →
      IsSorted c a.array →
      ∃ a2, applySAOps a ops = Except.ok a2 ∧ a2.comparator = some c ∧
        IsSorted c a2.array := by
  intro ops
  induction ops with
  | nil => exact fun a hcomp hs => ⟨a, rfl, hcomp, hs⟩
  | cons op rest ih =>
    intro a hcomp hs
    obtain ⟨a1, h1, hcomp1, hs1⟩ := applySAOp_sorted hc hcomp hs op
    obtain ⟨a2, h2, hcomp2, hs2⟩ := ih a1 hcomp1 hs1
    refine ⟨a2, ?_, hcomp2, hs2⟩
    show (match applySAOp a op with
      | Except.error s => Except.error s
      | Except.ok b => applySAOps b rest) = _
    rw [h1]
    exact h2

/-! ### A nil comparator: what panics and what does not -/

theorem getComparator_none (a : SortedArray T) (h : a.comparator = none) :
    getComparator a = Except.error "comparator is missing for sorted array" := by
  unfold getComparator
  rw [h]

theorem binSearch_none [Inhabited T] {a : SortedArray T} (h : a.comparator = none)
    (hne : a.array.length ≠ 0) (v : T) :
    binSearch a v = Except.error "comparator is missing for sorted array" := by
  unfold binSearch
  rw [if_neg hne, getComparator_none a h]

theorem appendOne_none [Inhabited T] {a : SortedArray T} (h : a.comparator = none)
    (hne : a.array.length ≠ 0) (v : T) :
    appendOne a v = Except.error "comparator is missing for sorted array" := by
  unfold appendOne
  rw [binSearch_none h hne v]

theorem Append_none [Inhabited T] {a : SortedArray T} (h : a.comparator = none)
    (hne : a.array.length ≠ 0) (v : T) (vt : List T) :
    Append a (v :: vt) = Except.error "comparator is missing for sorted array" := by
  unfold Append
  rw [List.foldlM_cons, appendOne_none h hne v]
  rfl

theorem Search_none [Inhabited T] {a : SortedArray T} (h : a.comparator = none)
    (hne : a.array.length ≠ 0) (v : T) :
    Search a v = Except.error "comparator is missing for sorted array" := by
  unfold Search
  rw [binSearch_none h hne v]

theorem RemoveValue_none [Inhabited T] {a : SortedArray T} (h : a.comparator = none)
    (hne : a.array.length ≠ 0) (v : T) :
    RemoveValue a v = Except.error "comparator is missing for sorted array" := by
  unfold RemoveValue
  rw [binSearch_none h hne v]

theorem Unique_none [Inhabited T] {a : SortedArray T} (h : a.comparator = none)
    (hlen : 2 ≤ a.array.length) :
    Unique a = Except.error "comparator is missing for sorted array" := by
  unfold Unique
  rw [if_neg (by omega), getComparator_none a h]

theorem Unique_short [Inhabited T] (a : SortedArray T)
    (hlen : a.array.length ≤ 1) : Unique a = Except.ok a := by
  unfold Unique
  rw [if_pos hlen]

theorem SetArray_none [Inhabited T] {a : SortedArray T} (h : a.comparator = none)
    (arr : List T) (hlen : 2 ≤ arr.length) :
    SetArray a arr = Except.error "comparator is missing for sorted array" := by
  unfold SetArray
  rw [if_neg (by omega), getComparator_none a h]

theorem SetArray_short [Inhabited T] (a : SortedArray T) (arr : List T)
    (hlen : arr.length ≤ 1) : SetArray a arr = Except.ok { a with array := arr } := by
  unfold SetArray
  rw [if_pos hlen]

/-- `Len` never consults the comparator. -/
theorem Len_comparator_independent (arr : List T) (u : Bool)
    (c1 c2 : Option (T → T → Int)) :
    Len { array := arr, unique := u, comparator := c1 } =
      Len { array := arr, unique := u, comparator := c2 } := rfl

/-- `Get` never consults the comparator, and returns the element in range. -/
theorem Get_spec [Inhabited T] (a : SortedArray T) (i : Int) (h0 : 0 ≤ i)
    (hlen : i < (a.array.length : Int)) :
    Get a i = (a.array.getD i.toNat default, true) := by
  unfold Get
  rw [if_neg (by omega)]

end garray

namespace gtree

/-- Modelled from the spec: the AVL tree implementation is not among this
repository's files. §4.1 prescribes a height-balanced binary search tree
(binary-search insert by comparator, replace in place on an existing key,
rotations at the first unbalanced ancestor with the four LL/RR/LR/RL cases),
and §8 fixes the exact textual rendering. A node owns key, value and its two
subtrees. -/
inductive AVLNode (K V : Type) where
  | leaf
  | node (left : AVLNode K V) (key : K) (value : V) (right : AVLNode K V)

/-- Modelled from the spec: node height (a leaf has height 0). -/
def height : AVLNode K V → Nat
  | .leaf => 0
  | .node l _ _ r => 1 + max (height l) (height r)

/-- Modelled from the spec: single left rotation. -/
def rotateLeft : AVLNode K V → AVLNode K V
  | .node l k v (.node rl rk rv rr) => .node (.node l k v rl) rk rv rr
  | t => t

/-- Modelled from the spec: single right rotation. -/
def rotateRight : AVLNode K V → AVLNode K V
  | .node (.node ll lk lv lr) k v r => .node ll lk lv (.node lr k v r)
  | t => t

/-- Modelled from the spec: restore the height invariant at one node with
the four rotation cases (LL, LR, RR, RL). -/
def rebalance : AVLNode K V → AVLNode K V
  | .leaf => .leaf
  | .node l k v r =>
    if height r + 1 < height l then
      match l with
      | .node ll _ _ lr =>
        if height ll < height lr then
          rotateRight (.node (rotateLeft l) k v r)
        else rotateRight (.node l k v r)
      | .leaf => .node l k v r
    else if height l + 1 < height r then
      match r with
      | .node rl _ _ rr =>
        if height rr < height rl then
          rotateLeft (.node l k v (rotateRight r))
        else rotateLeft (.node l k v r)
      | .leaf => .node l k v r
    else .node l k v r

/-- Modelled from the spec: `Put` — binary-search insert by the comparator,
replacing the value in place when the key already exists, rebalancing on the
way back up. -/
def put (cmp : K → K → Int) (key : K) (value : V) : AVLNode K V → AVLNode K V
  | .leaf => .node .leaf key value .leaf
  | .node l k v r =>
    if cmp key k < 0 then rebalance (.node (put cmp key value l) k v r)
    else if 0 < cmp key k then rebalance (.node l k v (put cmp key value r))
    else .node l key value r

/-- Modelled from the spec: `comparator.ComparatorString` is Go
`strings.Compare`, three-way lexicographic comparison. -/
def ComparatorString (a b : String) : Int :=
  match compare a b with
  | Ordering.lt => -1
  | Ordering.eq => 0
  | Ordering.gt => 1

/-- Modelled from the spec: the tree renderer (§4, §8): the right subtree is
printed above the node, the left below; a tail node is drawn `└── `, a
non-tail node `┌── `, and the per-depth indentation extends the running
prefix with `│   ` or four blanks depending on the side. -/
def outputNode (shw : K → String) : AVLNode K V → String → Bool → String
  | .leaf, _, _ => ""
  | .node l k _ r, pfx, isTail =>
    outputNode shw r (pfx ++ (if isTail then "│   " else "    ")) false ++
      pfx ++ (if isTail then "└── " else "┌── ") ++ shw k ++ "\n" ++
      outputNode shw l (pfx ++ (if isTail then "    " else "│   ")) true

/-- Modelled from the spec: `String()` renders from the root with an empty
prefix as the tail node. -/
def AVLString (shw : K → String) (t : AVLNode K V) : String :=
  outputNode shw t "" true

/-- The six `Put` calls of `ExampleNewAVLTree` (gtree_z_example_test.go), in
loop order `key0 .. key5`. -/
def avlExample : AVLNode String String :=
  put ComparatorString "key5" "val5"
    (put ComparatorString "key4" "val4"
      (put ComparatorString "key3" "val3"
        (put ComparatorString "key2" "val2"
          (put ComparatorString "key1" "val1"
            (put ComparatorString "key0" "val0" AVLNode.leaf)))))

end gtree

/-! ## The claims -/

open glist garray gtree

/-! ### Concrete states used by counterexamples and witnesses -/

/-- Two lists: list 1 holds `[10, 20]` at addresses `[3, 4]`, list 2 holds
`[7]` at address `[5]` (roots 1 and 2). -/
def twoListsWorld : World Int :=
  (pushBack (pushBack (pushBack
    (newList (newList (emptyWorld 0) 0).2 0).2 1 10).2 1 20).2 2 7).2

/-- Two lists that both hold the value `1`: list 1 at address `[3]`, list 2
at address `[4]`. -/
def c2World : World Int :=
  (pushBack (pushBack (newList (newList (emptyWorld 0) 0).2 0).2 1 1).2 2 1).2

/-- Push one element (address 2), `Clear`, then `MoveToFront` with the now
stale handle. -/
def c4World : World Int :=
  applyOps (newList (emptyWorld 0) 0).2 1
    [Op.pushBack 5, Op.clear, Op.moveToFront 2]

/-- A nonempty sorted array whose comparator is nil, as the public API
builds it: `NewSortedArray(nil)` followed by `Append(5)`. -/
def nilCmpArray : SortedArray Int :=
  { array := [5], unique := false, comparator := none }

/-! ### C1 -/

/-- C1: `PushBackList(self)` and `PushFrontList(self)` exactly double the
list — afterwards it holds its old sequence twice, in order, and `len` is
doubled — and for two distinct lists `PushBackList(other)` /
`PushFrontList(other)` append/prepend a copy of `other`'s values in order
while leaving `other`'s sequence unchanged. -/
theorem C1_bulk_append (w : World T) (lidA lidB : Nat) (as bs : List Addr)
    (hA : IsList w lidA as) (hB : IsList w lidB bs) (hne : lidA ≠ lidB)
    (hroots : (w.lists lidA).root ≠ (w.lists lidB).root) :
    (frontAll (pushBackList w lidA lidA) lidA =
        frontAll w lidA ++ frontAll w lidA ∧
      ((pushBackList w lidA lidA).lists lidA).len = 2 * (w.lists lidA).len) ∧
    (frontAll (pushFrontList w lidA lidA) lidA =
        frontAll w lidA ++ frontAll w lidA ∧
      ((pushFrontList w lidA lidA).lists lidA).len = 2 * (w.lists lidA).len) ∧
    (frontAll (pushBackList w lidA lidB) lidA =
        frontAll w lidA ++ frontAll w lidB ∧
      frontAll (pushBackList w lidA lidB) lidB = frontAll w lidB) ∧
    (frontAll (pushFrontList w lidA lidB) lidA =
        frontAll w lidB ++ frontAll w lidA ∧
      frontAll (pushFrontList w lidA lidB) lidB = frontAll w lidB) := by
  obtain ⟨c1, -, h2, h3⟩ := pushBackList_self w lidA as hA
  obtain ⟨c2, -, g2, g3⟩ := pushFrontList_self w lidA as hA
  obtain ⟨c3, -, k2, -, k4⟩ := pushBackList_other w lidA lidB as bs hne hA hB hroots
  obtain ⟨c4, -, m2, -, m4⟩ := pushFrontList_other w lidA lidB as bs hne hA hB hroots
  rw [frontAll_eq hA, frontAll_eq hB]
  exact ⟨⟨h2, h3⟩, ⟨g2, g3⟩, ⟨k2, k4⟩, ⟨m2, m4⟩⟩

theorem C1_bulk_append_witness :
    IsList twoListsWorld 1 [3, 4] ∧ IsList twoListsWorld 2 [5] ∧
      frontAll (pushBackList twoListsWorld 1 1) 1 =
        frontAll twoListsWorld 1 ++ frontAll twoListsWorld 1 ∧
      frontAll (pushBackList twoListsWorld 1 2) 2 = frontAll twoListsWorld 2 :=
  ⟨by decide, by decide,
    ((C1_bulk_append twoListsWorld 1 2 [3, 4] [5] (by decide) (by decide)
      (by decide) (by decide)).1).1,
    (((C1_bulk_append twoListsWorld 1 2 [3, 4] [5] (by decide) (by decide)
      (by decide) (by decide)).2).2).1.2⟩

/-! ### C2 -/

/-- C2 is false as stated for `Remove`: `Remove` takes values, not handles,
so "removing" another list's element handle removes an equal value from the
receiver. Lists 1 and 2 both hold the value 1; element 4 belongs to list 2,
yet `Remove` of its value reports a change and empties list 1. -/
theorem C2_counterexample :
    listOf c2World 4 = 2 ∧ frontAll c2World 1 = [1] ∧
      frontAll c2World 2 = [1] ∧
      (removeValues c2World 1 [valueOf c2World 4]).1 = true ∧
      frontAll (removeValues c2World 1 [valueOf c2World 4]).2 1 = [] :=
  ⟨rfl, rfl, rfl, rfl, rfl⟩

/-- C2 (amended): a handle that belongs to another list (or a fresh element
never inserted, whose back reference is nil) makes each positional
operation — `InsertBefore`, `InsertAfter`, `MoveToFront`, `MoveToBack`,
`MoveBefore`, `MoveAfter` — a silent no-op returning the world untouched, so
both lists' sequences are unchanged and no error is raised (the inserts
additionally return nil). `Remove`, by contrast, is value-based: it is a
no-op only when the handle's value does not occur in the receiving list. -/
theorem C2_foreign_handle [DecidableEq T] (w : World T) (lidA lidB : Nat)
    (as bs : List Addr) (e m : Addr) (v : T)
    (hA : IsList w lidA as) (hB : IsList w lidB bs) (hne : lidB ≠ lidA)
    (he : e ∈ bs ∨ listOf w e = 0) :
    insertBefore w lidA e v = (0, w) ∧ insertAfter w lidA e v = (0, w) ∧
      moveToFront w lidA e = w ∧ moveToBack w lidA e = w ∧
      moveBefore w lidA e m = w ∧ moveAfter w lidA e m = w ∧
      (valueOf w e ∉ as.map (valueOf w) →
        removeValues w lidA [valueOf w e] = (false, w)) := by
  have hforeign : listOf w e ≠ lidA := by
    rcases he with he | he
    · exact member_of_other_list hB he hne
    · rw [he]
      exact fun hc => hA.2.2.2.2.2.2.1 hc.symm
  exact ⟨insertBefore_foreign w lidA e v hforeign,
    insertAfter_foreign w lidA e v hforeign,
    moveToFront_foreign w lidA e hforeign,
    moveToBack_foreign w lidA e hforeign,
    moveBefore_foreign w lidA e m (Or.inl hforeign),
    moveAfter_foreign w lidA e m (Or.inl hforeign),
    fun hv => removeValues_absent hA hv⟩

theorem C2_foreign_handle_witness :
    IsList twoListsWorld 1 [3, 4] ∧ IsList twoListsWorld 2 [5] ∧
      moveToFront twoListsWorld 1 5 = twoListsWorld ∧
      insertBefore twoListsWorld 1 5 (99 : Int) = (0, twoListsWorld) :=
  ⟨by decide, by decide,
    (C2_foreign_handle twoListsWorld 1 2 [3, 4] [5] 5 3 99 (by decide)
      (by decide) (by decide) (Or.inl (by decide))).2.2.1,
    (C2_foreign_handle twoListsWorld 1 2 [3, 4] [5] 5 3 99 (by decide)
      (by decide) (by decide) (Or.inl (by decide))).1⟩

/-! ### C3 -/

/-- C3 is false as stated over every container state: a sorted array built
through the public API with a nil comparator (allowed by construction,
claim C7) makes `RemoveValue` of an absent value on a nonempty array panic
instead of reporting not-found. -/
theorem C3_counterexample :
    Append (NewSortedArray none : SortedArray Int) [5] =
        Except.ok nilCmpArray ∧
      (3 : Int) ∉ nilCmpArray.array ∧
      RemoveValue nilCmpArray 3 =
        Except.error "comparator is missing for sorted array" :=
  ⟨rfl, by decide, RemoveValue_none rfl (by decide) 3⟩

/-- C3 (amended): removing an absent value reports not-found and leaves the
container exactly unchanged — unconditionally for `List.Remove(k)`, and for
`SortedArray.RemoveValue(k)` provided the comparator is set (with a nil
comparator, `RemoveValue` on a nonempty array panics instead; see C7). -/
theorem C3_absent_remove [DecidableEq T] [Inhabited T] (w : World T)
    (lid : Nat) (as : List Addr) (k : T) {c : T → T → Int}
    (a : SortedArray T) (h : IsList w lid as)
    (habsent : k ∉ as.map (valueOf w)) (hcomp : a.comparator = some c)
    (hnk : ∀ x ∈ a.array, c k x ≠ 0) :
    removeValues w lid [k] = (false, w) ∧
      RemoveValue a k = Except.ok (false, a) :=
  ⟨removeValues_absent h habsent, RemoveValue_absent hcomp hnk⟩

/-- A sorted array of two Ints under the subtraction comparator. -/
def intPairArray : SortedArray Int :=
  { array := [1, 5], unique := false, comparator := some (fun x y => x - y) }

theorem C3_absent_remove_witness :
    IsList twoListsWorld 1 [3, 4] ∧
      (99 : Int) ∉ [3, 4].map (valueOf twoListsWorld) ∧
      removeValues twoListsWorld 1 [(99 : Int)] = (false, twoListsWorld) ∧
      RemoveValue intPairArray (99 : Int) = Except.ok (false, intPairArray) :=
  ⟨by decide, by decide,
    (C3_absent_remove twoListsWorld 1 [3, 4] 99 intPairArray
      (by decide) (by decide) rfl (by decide)).1,
    (C3_absent_remove twoListsWorld 1 [3, 4] 99 intPairArray
      (by decide) (by decide) rfl (by decide)).2⟩

/-! ### C4 -/

/-- C4 is false as stated: the public sequence `PushBack(5)`, `Clear()`,
`MoveToFront(e)` — where `e` is the handle `PushBack` returned — leaves
`len = 0` while the walk from `root.next` to the sentinel visits one node,
and the "empty" ring is not closed (`root.next ≠ &root`). `Clear` resets
only the sentinel, so the stale handle still carries `e.list == l` and
passes `MoveToFront`'s ownership guard. -/
theorem C4_counterexample :
    (c4World.lists 1).len = 0 ∧
      nextOf c4World (c4World.lists 1).root ≠ (c4World.lists 1).root ∧
      (walkAddrs c4World (c4World.lists 1).root 2
        (nextOf c4World (c4World.lists 1).root)).length = 1 :=
  ⟨rfl, by decide, rfl⟩

/-- C4 (amended): under the handle-validity precondition `ValidSeq` — every
element-handle argument whose back reference claims this list is a current
member (which excludes exactly the handles invalidated by `Clear`) — every
sequence of public operations preserves the representation invariant: some
address sequence `as'` describes the list, `len` equals its length, walking
`next` from `root.next` until the sentinel visits exactly `as'` (for any
sufficient fuel), and an empty list closes the ring,
`root.next = root.prev = &root`. -/
theorem C4_invariant [DecidableEq T] [Inhabited T] (w : World T) (lid : Nat)
    (as : List Addr) (ops : List (Op T)) (h : IsList w lid as)
    (hv : ValidSeq w lid ops) :
    ∃ as', IsList (applyOps w lid ops) lid as' ∧
      ((applyOps w lid ops).lists lid).len = (as'.length : Int) ∧
      (∀ fuel, as'.length ≤ fuel →
        walkAddrs (applyOps w lid ops) ((applyOps w lid ops).lists lid).root fuel
          (nextOf (applyOps w lid ops) ((applyOps w lid ops).lists lid).root) =
          as') ∧
      (as' = [] →
        nextOf (applyOps w lid ops) ((applyOps w lid ops).lists lid).root =
            ((applyOps w lid ops).lists lid).root ∧
          prevOf (applyOps w lid ops) ((applyOps w lid ops).lists lid).root =
            ((applyOps w lid ops).lists lid).root) := by
  obtain ⟨as', h2⟩ := applyOps_IsList lid ops w as h hv
  refine ⟨as', h2, h2.2.2.1, fun fuel hf => walkAddrs_of_isList h2 fuel hf, ?_⟩
  rintro rfl
  constructor
  · rw [isList_root_next h2]
    rfl
  · rw [isList_root_prev h2]
    rfl

/-! ### C5 -/

/-- C5: inserting `key0 .. key5` (values `val0 .. val5`) in ascending key
order into an empty AVL tree with the string comparator yields a tree whose
rendering is exactly the six-line box diagram of the spec: `key3` at the
root, `key4` above it with `key5` above that, and `key1` below with `key2`
above it and `key0` below it. -/
theorem C5_avl_diagram :
    AVLString (fun k => k) avlExample =
      "│       ┌── key5\n│   ┌── key4\n└── key3\n" ++
        "    │   ┌── key2\n    └── key1\n        └── key0\n" := by
  rfl

/-! ### C6 -/

/-- The world after `PushFront(1)` then `PushFront(2)` on a fresh
`List[int]`. -/
def c6World : World Int :=
  (pushFront (pushFront (newList (emptyWorld 0) 0).2 1 1).2 1 2).2

/-- C6: after `PushFront(1)` and `PushFront(2)` on an empty `List[int]`,
three `PopBack` calls return 1, then 2, then the zero value 0 (the third on
the now-empty list), and the list ends empty. -/
theorem C6_pushfront_popback :
    (popBack c6World 1).1 = 1 ∧
      (popBack (popBack c6World 1).2 1).1 = 2 ∧
      (popBack (popBack (popBack c6World 1).2 1).2 1).1 = 0 ∧
      ((popBack (popBack (popBack c6World 1).2 1).2 1).2.lists 1).len = 0 ∧
      frontAll (popBack (popBack (popBack c6World 1).2 1).2 1).2 1 = [] :=
  ⟨rfl, rfl, rfl, rfl, rfl⟩

/-! ### C7 -/

/-- C7 is false as stated — "every subsequent operation that must consult
the comparator panics": the very first `Append` after construction with a
nil comparator succeeds, because `binSearch` short-circuits on the empty
array before consulting the comparator. -/
theorem C7_counterexample :
    Append (NewSortedArray none : SortedArray Int) [5] = Except.ok nilCmpArray :=
  rfl

/-- C7 (amended): construction with a nil comparator succeeds without
error; `Len` and `Get`, which never consult the comparator, keep working;
and an operation panics — with exactly "comparator is missing for sorted
array" — at its first actual comparison: `Append`, `Search` and
`RemoveValue` once the array is nonempty, `Unique` and `SetArray` once two
or more elements are involved. Calls that reach no comparison (`Append` on
an empty array, `Unique` on fewer than two elements, `SetArray` with at
most one element) succeed even with a nil comparator. -/
theorem C7_nil_comparator (cap : Nat) (arr arrU arr2 vt : List Int) (u : Bool)
    (v i : Int) (hne : arr.length ≠ 0) (hlenU : 2 ≤ arrU.length)
    (hlen2 : 2 ≤ arr2.length) (h0 : 0 ≤ i) (hi : i < (arr.length : Int)) :
    NewSortedArraySize cap (none : Option (Int → Int → Int)) =
        { array := [], unique := false, comparator := none } ∧
      Len { array := arr, unique := u, comparator := none } = arr.length ∧
      Get { array := arr, unique := u, comparator := none } i =
        (arr.getD i.toNat default, true) ∧
      Append { array := arr, unique := u, comparator := none } (v :: vt) =
        Except.error "comparator is missing for sorted array" ∧
      Search { array := arr, unique := u, comparator := none } v =
        Except.error "comparator is missing for sorted array" ∧
      RemoveValue { array := arr, unique := u, comparator := none } v =
        Except.error "comparator is missing for sorted array" ∧
      Unique { array := arrU, unique := u, comparator := none } =
        Except.error "comparator is missing for sorted array" ∧
      SetArray { array := arr, unique := u, comparator := none } arr2 =
        Except.error "comparator is missing for sorted array" ∧
      (∃ b, Append (NewSortedArray none : SortedArray Int) [v] = Except.ok b ∧
        b.array = [v]) ∧
      Unique (NewSortedArray (none : Option (Int → Int → Int))) =
        Except.ok (NewSortedArray none) ∧
      SetArray { array := arr, unique := u, comparator := none } [v] =
        Except.ok { array := [v], unique := u, comparator := none } ∧
      Unique { array := [v], unique := u, comparator := none } =
        Except.ok { array := [v], unique := u, comparator := none } :=
  ⟨rfl, rfl, Get_spec _ i h0 hi, Append_none rfl hne v vt,
    Search_none rfl hne v, RemoveValue_none rfl hne v, Unique_none rfl hlenU,
    SetArray_none rfl arr2 hlen2,
    ⟨{ array := [v], unique := false, comparator := none }, rfl, rfl⟩,
    Unique_short _ (by decide), SetArray_short _ [v] (by simp),
    Unique_short _ (by simp)⟩

theorem C7_nil_comparator_witness :
    ([1] : List Int).length ≠ 0 ∧
      Append { array := ([1] : List Int), unique := false, comparator := none }
          [9] = Except.error "comparator is missing for sorted array" ∧
      Search { array := ([1] : List Int), unique := false, comparator := none } 9 =
        Except.error "comparator is missing for sorted array" ∧
      RemoveValue { array := ([1] : List Int), unique := false, comparator := none }
          9 = Except.error "comparator is missing for sorted array" ∧
      Len { array := ([1] : List Int), unique := false, comparator := none } =
        1 :=
  ⟨by decide,
    (C7_nil_comparator 0 [1] [7, 8] [3, 4] [] false 9 0 (by decide) (by decide)
      (by decide) (by decide) (by decide)).2.2.2.1,
    (C7_nil_comparator 0 [1] [7, 8] [3, 4] [] false 9 0 (by decide) (by decide)
      (by decide) (by decide) (by decide)).2.2.2.2.1,
    (C7_nil_comparator 0 [1] [7, 8] [3, 4] [] false 9 0 (by decide) (by decide)
      (by decide) (by decide) (by decide)).2.2.2.2.2.1,
    (C7_nil_comparator 0 [1] [7, 8] [3, 4] [] false 9 0 (by decide) (by decide)
      (by decide) (by decide) (by decide)).2.1⟩

/-! ### C8 -/

/-- C8: `MarshalJSON` then `UnmarshalJSON` into a freshly created empty list
reproduces the original value sequence exactly, for every codec satisfying
the decode-encode round-trip contract. -/
theorem C8_roundtrip {B : Type} [Inhabited T] (w : World T) (lid : Nat)
    (as : List Addr) (d : T) (c : JsonCodec T B) (h : IsList w lid as) :
    (UnmarshalJSON c (newList w d).2 (newList w d).1 (MarshalJSON c w lid)).1 =
        none ∧
      frontAll (UnmarshalJSON c (newList w d).2 (newList w d).1
        (MarshalJSON c w lid)).2 (newList w d).1 = frontAll w lid := by
  have hA : 1 ≤ w.nextAddr :=
    Nat.lt_of_le_of_lt (Nat.zero_le _) (isList_mem_lt h (List.mem_cons_self _ _))
  have hL : 1 ≤ w.nextList :=
    Nat.lt_of_le_of_lt (Nat.zero_le _) h.2.2.2.2.2.2.2.1
  have hdst : IsList (newList w d).2 (newList w d).1 [] := newList_IsList w d hA hL
  have hsrc : IsList (newList w d).2 lid as := newList_frame d h
  have hval : frontAll (newList w d).2 lid = frontAll w lid := by
    rw [frontAll_eq hsrc, frontAll_eq h]
    refine List.map_congr_left fun a ha => ?_
    show ((newList w d).2.heap a).value = (w.heap a).value
    rw [newList_heap,
      if_neg (Nat.ne_of_lt (isList_mem_lt h (List.mem_cons_of_mem _ ha)))]
  have hmar : MarshalJSON c w lid = MarshalJSON c (newList w d).2 lid := by
    unfold MarshalJSON
    rw [hval]
  rw [hmar]
  obtain ⟨h1, as2, h2, h3⟩ := unmarshal_marshal c hsrc hdst
  refine ⟨h1, ?_⟩
  rw [h3, frontAll_eq hdst]
  simp only [List.map_nil, List.nil_append]
  exact hval

/-- The identity codec: values are "serialized" as themselves. -/
def idCodec (T : Type) : JsonCodec T (List T) :=
  { enc := fun xs => xs, dec := fun xs => Except.ok xs, dec_enc := fun _ => rfl }

theorem C8_roundtrip_witness :
    IsList twoListsWorld 1 [3, 4] ∧
      frontAll (UnmarshalJSON (idCodec Int) (newList twoListsWorld 0).2
          (newList twoListsWorld 0).1
          (MarshalJSON (idCodec Int) twoListsWorld 1)).2
        (newList twoListsWorld 0).1 = frontAll twoListsWorld 1 :=
  ⟨by decide, (C8_roundtrip twoListsWorld 1 [3, 4] 0 (idCodec Int) (by decide)).2⟩

/-! ### C9 -/

/-- C9: on a nonempty list, `Back()`'s handle answers `Next() = nil` and
`Front()`'s handle answers `Prev() = nil`; iterating `Next()` from `Front()`
yields exactly the `Len()` member handles in order — all non-nil — and
reaches nil after exactly `Len()` steps; the values visited are the list's
value sequence in order. -/
theorem C9_traversal [Inhabited T] (w : World T) (lid : Nat) (as : List Addr)
    (h : IsList w lid as) (hne : as ≠ []) :
    elemNext w (back w lid) = 0 ∧ elemPrev w (front w lid) = 0 ∧
      (w.lists lid).len = (as.length : Int) ∧
      (∀ k, k < as.length →
        nextIter w k (front w lid) = as.getD k 0 ∧
          nextIter w k (front w lid) ≠ 0) ∧
      nextIter w as.length (front w lid) = 0 ∧
      frontAll w lid = as.map (valueOf w) := by
  cases as with
  | nil => exact absurd rfl hne
  | cons x rest =>
    have hfront : front w lid = x := front_cons h
    obtain ⟨xs, t, hxs⟩ : ∃ xs t, x :: rest = xs ++ [t] := by
      rcases List.eq_nil_or_concat (x :: rest) with hnil | ⟨xs, t, hxs⟩
      · cases hnil
      · exact ⟨xs, t, by simpa using hxs⟩
    have h' := h
    rw [hxs] at h'
    have hback : back w lid = t := back_concat h'
    obtain ⟨ihk, ihz⟩ := nextIter_spec w lid rest [] x h
    refine ⟨?_, ?_, h.2.2.1, ?_, ?_, frontAll_eq h⟩
    · rw [hback]
      rw [show (elemNext w t = 0) = (elemNext w t = List.headD [] 0) from rfl]
      exact elemNext_member h'
    · rw [hfront]
      exact elemPrev_member (show IsList w lid ([] ++ x :: rest) from h)
    · intro k hk
      have hk2 : k ≤ rest.length := Nat.lt_succ_iff.mp hk
      constructor
      · rw [hfront]
        exact ihk k hk2
      · rw [hfront, ihk k hk2]
        have hget : (x :: rest).getD k 0 ∈ x :: rest := by
          rw [List.getD_eq_getElem (x :: rest) 0 hk]
          exact List.getElem_mem hk
        exact isList_mem_ne_zero h (List.mem_cons_of_mem _ hget)
    · rw [hfront]
      exact ihz

theorem C9_traversal_witness :
    IsList twoListsWorld 1 [3, 4] ∧ ([3, 4] : List Addr) ≠ [] ∧
      elemNext twoListsWorld (back twoListsWorld 1) = 0 ∧
      nextIter twoListsWorld 2 (front twoListsWorld 1) = 0 :=
  ⟨by decide, by decide,
    (C9_traversal twoListsWorld 1 [3, 4] (by decide) (by decide)).1,
    (C9_traversal twoListsWorld 1 [3, 4] (by decide) (by decide)).2.2.2.2.1⟩

/-! ### C10 -/

/-- C10: from any sorted state whose comparator `c` honours the comparator
contract (in particular a freshly constructed array), every sequence of
`Add`/`Append`, `Remove`, `RemoveValue`, `RemoveValues`, `PopLeft`,
`PopRight`, `PopRands` and `Merge` operations succeeds, and afterwards the
backing array is still sorted under `c`: every adjacent pair satisfies
`c a[i] a[i+1] ≤ 0`, without any explicit Sort call. -/
theorem C10_always_sorted [Inhabited T] {c : T → T → Int} (hc : ValidCmp c)
    (a : SortedArray T) (hcomp : a.comparator = some c)
    (hs : IsSorted c a.array) (ops : List (SAOp T)) :
    ∃ a2, applySAOps a ops = Except.ok a2 ∧
      List.Chain' (fun x y => c x y ≤ 0) a2.array :=
  let ⟨a2, h1, _, h3⟩ := applySAOps_sorted hc ops a hcomp hs
  ⟨a2, h1, h3⟩

/-- The subtraction comparator on `Int`. -/
def intCmp : Int → Int → Int := fun x y => x - y

theorem intCmp_valid : ValidCmp intCmp := by
  constructor
  · intro x y
    unfold intCmp
    omega
  · intro x y z hxy hyz
    unfold intCmp at hxy hyz ⊢
    omega

theorem C10_always_sorted_witness :
    IsSorted intCmp intPairArray.array ∧
      ∃ a2, applySAOps intPairArray
          [SAOp.append [3, 2], SAOp.popLeft, SAOp.removeValue 3,
            SAOp.popRands 1 [0], SAOp.merge [4]] = Except.ok a2 ∧
        List.Chain' (fun x y => intCmp x y ≤ 0) a2.array :=
  ⟨by decide,
    C10_always_sorted intCmp_valid intPairArray rfl (by decide)
      [SAOp.append [3, 2], SAOp.popLeft, SAOp.removeValue 3,
        SAOp.popRands 1 [0], SAOp.merge [4]]⟩

theorem C4_invariant_witness :
    IsList (newList (emptyWorld (0 : Int)) 0).2 1 [] ∧
      ValidSeq (newList (emptyWorld (0 : Int)) 0).2 1
        [Op.pushBack 5, Op.pushFront 7, Op.clear, Op.pushBack 9, Op.popBack] ∧
      ∃ as', IsList (applyOps (newList (emptyWorld (0 : Int)) 0).2 1
        [Op.pushBack 5, Op.pushFront 7, Op.clear, Op.pushBack 9, Op.popBack])
        1 as' :=
  ⟨by decide, by decide,
    let ⟨as', hI, _⟩ := C4_invariant (newList (emptyWorld (0 : Int)) 0).2 1 []
      [Op.pushBack 5, Op.pushFront 7, Op.clear, Op.pushBack 9, Op.popBack]
      (by decide) (by decide)
    ⟨as', hI⟩⟩

end GContainer
